import Mathlib

/-! Buddy allocator: a shallow embedding of `BuddyAllocator.cpp`.

The C++ class keeps its free lists *inside* the arena: every free block starts
with a `Block` header (`size`, `prev`, `next`).  The embedding makes the heap
explicit: `mem p` is the header stored at address `p`; the null pointer is `0`.
Headers are only ever touched at block addresses, which are at least
`minBlockSize` bytes apart, so as long as `sizeof(Block) ≤ minBlockSize` two
headers never share a byte and the map below describes the arena faithfully.

Machine arithmetic: `size_t` and `uintptr_t` are 64 bit, `int` and the argument
of `__builtin_ctz` are 32 bit.
-/

namespace Buddy

/-! ## Data model -/

/-- The header `struct Block { size_t size; Block* prev; Block* next; }`. -/
structure Block where
  size : Nat
  prev : Nat
  next : Nat
deriving DecidableEq

/-- The value of `sizeof(Block)` on an LP64 target: three 8-byte words. -/
def sizeofBlock : Nat := 24

/-- The data members of `class BuddyAllocator`, together with the heap `mem`
that the C++ code reaches through `Block*` pointers. -/
structure BuddyAllocator where
  freeLists : List Nat
  memoryStart : Nat
  totalMemorySize : Nat
  minBlockSize : Nat
  mem : Nat → Block

namespace BuddyAllocator

/-- Store to `p->size`. -/
def setSize (a : BuddyAllocator) (p v : Nat) : BuddyAllocator :=
  { a with mem := fun q => if q = p then { a.mem q with size := v } else a.mem q }

/-- Store to `p->prev`. -/
def setPrev (a : BuddyAllocator) (p v : Nat) : BuddyAllocator :=
  { a with mem := fun q => if q = p then { a.mem q with prev := v } else a.mem q }

/-- Store to `p->next`. -/
def setNext (a : BuddyAllocator) (p v : Nat) : BuddyAllocator :=
  { a with mem := fun q => if q = p then { a.mem q with next := v } else a.mem q }

/-- Store to `freeLists[index]`.  An index outside the vector is undefined
behaviour in C++; the model stores nothing then. -/
def setHead (a : BuddyAllocator) (index v : Nat) : BuddyAllocator :=
  { a with freeLists := a.freeLists.set index v }

/-- Load of `freeLists[index]`.  An index outside the vector is undefined
behaviour in C++; the model reads a null pointer then. -/
def head (a : BuddyAllocator) (index : Nat) : Nat :=
  a.freeLists.getD index 0

end BuddyAllocator

/-! ## Integer helpers -/

/-- Trailing zero count of a 32-bit word, by scanning at most `fuel` bits. -/
def ctzAux : Nat → Nat → Nat
  | 0, _ => 0
  | fuel + 1, x => if x % 2 = 1 then 0 else 1 + ctzAux fuel (x / 2)

/-- The builtin `__builtin_ctz(unsigned int)`: its argument is truncated to 32
bits.  C leaves the result for `0` undefined; the model answers `32` there. -/
def builtin_ctz (x : Nat) : Nat :=
  ctzAux 32 (x % 2 ^ 32)

/-- The expression `1 << k` evaluated in 32-bit `int` and converted to
`size_t` (sign extension).  For `k ≤ 30` this is `2 ^ k`, for `k = 31` it is
`INT_MIN`, that is `2 ^ 64 - 2 ^ 31`.  For `k ≥ 32` the C++ shift is undefined;
the model keeps the shift count modulo 32 there, as the hardware does. -/
def intShiftOne (k : Nat) : Nat :=
  let r := 2 ^ (k % 32)
  if r < 2 ^ 31 then r else r + (2 ^ 64 - 2 ^ 32)

namespace BuddyAllocator

/-! ## The member functions -/

/-- Source `indexFromBlockSize`: the difference of two `int`s converted to `size_t`. -/
def indexFromBlockSize (a : BuddyAllocator) (blockSize : Nat) : Nat :=
  (builtin_ctz blockSize + 2 ^ 64 - builtin_ctz a.minBlockSize) % 2 ^ 64

/-- Source `isAddressWithinBounds`. -/
def isAddressWithinBounds (a : BuddyAllocator) (address : Nat) : Bool :=
  let start := a.memoryStart
  let stop := (start + a.totalMemorySize) % 2 ^ 64
  decide (address ≥ start) && decide (address < stop)

/-- Source `removeFromFreeList`. -/
def removeFromFreeList (a : BuddyAllocator) (block index : Nat) : BuddyAllocator :=
  let a1 :=
    if (a.mem block).prev ≠ 0 then a.setNext (a.mem block).prev (a.mem block).next
    else a.setHead index (a.mem block).next
  let a2 :=
    if (a1.mem block).next ≠ 0 then a1.setPrev (a1.mem block).next (a1.mem block).prev
    else a1
  (a2.setPrev block 0).setNext block 0

/-- Source `addToFreeList`. -/
def addToFreeList (a : BuddyAllocator) (block index : Nat) : BuddyAllocator :=
  let a1 := a.setNext block (a.head index)
  let a2 := if a1.head index ≠ 0 then a1.setPrev (a1.head index) block else a1
  a2.setHead index block

/-- The `while` loop of `coalesce`.  The result carries the final state, the
final value of the local `block`, and whether the loop was left through the
`return` of the bounds check (`true`) instead of falling out or `break`ing.
The loop variable `index` grows by one per round and is bounded by
`freeLists.size() - 1`, so `fuel` equal to that distance is always enough. -/
def coalesceLoop : Nat → BuddyAllocator → Nat → Nat → BuddyAllocator × Nat × Bool
  | 0, a, block, _ => (a, block, false)
  | fuel + 1, a, block, index =>
    if index < (a.freeLists.length + 2 ^ 64 - 1) % 2 ^ 64
        ∧ (a.mem block).size < a.totalMemorySize then
      let blockAddress := block
      let buddyAddress := blockAddress ^^^ (a.mem block).size
      if !a.isAddressWithinBounds buddyAddress then
        (a, block, true)
      else
        let buddy := buddyAddress
        if block + (a.mem block).size ≥ a.memoryStart + a.totalMemorySize then
          (a, block, false)
        else if (a.mem buddy).size ≠ (a.mem block).size
            ∨ ((a.mem buddy).prev = 0 ∧ a.head index ≠ buddy) then
          (a, block, false)
        else
          let a1 := a.removeFromFreeList buddy index
          let block1 := if block < buddy then block else buddy
          let a2 := a1.setSize block1 (((a1.mem block1).size <<< 1) % 2 ^ 64)
          coalesceLoop fuel a2 block1 (index + 1)
    else
      (a, block, false)

/-- Source `coalesce`. -/
def coalesce (a : BuddyAllocator) (block : Nat) : BuddyAllocator :=
  let index := a.indexFromBlockSize (a.mem block).size
  let r := coalesceLoop ((a.freeLists.length + 2 ^ 64 - 1) % 2 ^ 64 - index) a block index
  if r.2.2 then r.1
  else r.1.addToFreeList r.2.1 (r.1.indexFromBlockSize (r.1.mem r.2.1).size)

/-- The constructor.  `mem0` is the content of the fresh `new char[totalSize]`
array at address `base`. -/
def construct (base : Nat) (mem0 : Nat → Block) (totalSize minimumBlockSize : Nat) :
    BuddyAllocator :=
  let listCount :=
    (builtin_ctz totalSize + 2 ^ 64 - builtin_ctz minimumBlockSize + 1) % 2 ^ 64
  let a : BuddyAllocator :=
    { freeLists := List.replicate listCount 0
      memoryStart := base
      totalMemorySize := totalSize
      minBlockSize := minimumBlockSize
      mem := mem0 }
  let initialBlock := base
  let a := a.setSize initialBlock totalSize
  let a := a.setPrev initialBlock 0
  let a := a.setNext initialBlock 0
  a.setHead (listCount - 1) initialBlock

/-- The size rounding at the top of `allocate`.  The cast
`(size_t)std::log2(size)` is the integer binary logarithm. -/
def roundedSize (a : BuddyAllocator) (size : Nat) : Nat :=
  let size := if size < a.minBlockSize then a.minBlockSize else size
  if size &&& (size - 1) ≠ 0 then intShiftOne (1 + Nat.log2 size) else size

/-- The `for` loop of `allocate`, looking for the first non-empty list at or
above `i`; `fuel` is `freeLists.size() - i`. -/
def findList (a : BuddyAllocator) : Nat → Nat → Option Nat
  | 0, _ => none
  | fuel + 1, i => if a.head i ≠ 0 then some i else findList a fuel (i + 1)

/-- The splitting `while` loop of `allocate`.  Each round halves
`block->size`, so `fuel = block->size` rounds are always enough. -/
def splitLoop : Nat → BuddyAllocator → Nat → Nat → BuddyAllocator
  | 0, a, _, _ => a
  | fuel + 1, a, block, size =>
    if (a.mem block).size > size then
      let halfSize := (a.mem block).size >>> 1
      let buddy := block + halfSize
      let a1 := a.setSize buddy halfSize
      let a2 := a1.setPrev buddy 0
      let a3 := a2.setNext buddy 0
      let a4 := a3.addToFreeList buddy (a3.indexFromBlockSize halfSize)
      let a5 := a4.setSize block halfSize
      splitLoop fuel a5 block size
    else a

/-- Source `allocate`: the new state and the returned pointer (`0` is `nullptr`). -/
def allocate (a : BuddyAllocator) (size : Nat) : BuddyAllocator × Nat :=
  let size := a.roundedSize size
  let listIndex := a.indexFromBlockSize size
  match a.findList (a.freeLists.length - listIndex) listIndex with
  | some i =>
    let block := a.head i
    let a1 := a.removeFromFreeList block i
    let a2 := a1.setPrev block 0
    let a3 := a2.setNext block 0
    (splitLoop (a3.mem block).size a3 block size, block)
  | none => (a, 0)

/-- Source `deallocate`.  The two operands of `&&` are evaluated left to right,
the second only when `block->prev` is null. -/
def deallocate (a : BuddyAllocator) (ptr : Nat) : BuddyAllocator :=
  if ptr = 0 then a
  else
    let block := ptr
    let index := a.indexFromBlockSize (a.mem block).size
    if (a.mem block).prev = 0 && a.head index != block then a.coalesce block
    else a

end BuddyAllocator

/-! ## Specification-side notions -/

/-- Search the powers of two in increasing order for the first one that is at
least `x`; `fuel` bounds the number of doublings. -/
def nextPow2From (x : Nat) : Nat → Nat → Nat
  | 0, p => p
  | fuel + 1, p => if x ≤ p then p else nextPow2From x fuel (2 * p)

/-- The spec's `next_pow2(x)`: the smallest power of two `≥ x`. -/
def next_pow2 (x : Nat) : Nat :=
  nextPow2From x x 1

/-- The spec's `round(n) = max(minBlockSize, next_pow2(n))`. -/
def roundUp (minBlockSize n : Nat) : Nat :=
  max minBlockSize (next_pow2 n)

/-- A configuration: the address of the arena and the binary logarithms of
`totalSize` and `minBlockSize`. -/
structure Config where
  base : Nat
  logTotal : Nat
  logMin : Nat

namespace Config

/-- The constructor argument `totalSize`. -/
def totalSize (c : Config) : Nat := 2 ^ c.logTotal

/-- The constructor argument `minimumBlockSize`. -/
def minSize (c : Config) : Nat := 2 ^ c.logMin

/-- The index of the last free list, `K - 1`. -/
def top (c : Config) : Nat := c.logTotal - c.logMin

/-- The size of the blocks of class `k`. -/
def classSize (c : Config) (k : Nat) : Nat := 2 ^ (c.logMin + k)

/-- The configurations the code is meant for: `minBlockSize ≤ totalSize`, a
block can hold a header, block sizes fit the 32-bit argument of
`__builtin_ctz`, and `new char[]` gave a non-null arena, placed at a multiple
of `totalSize` and ending inside the address space. -/
def Valid (c : Config) : Prop :=
  c.logMin ≤ c.logTotal ∧ c.logTotal < 32 ∧ sizeofBlock ≤ 2 ^ c.logMin ∧
    0 < c.base ∧ c.base % 2 ^ c.logTotal = 0 ∧ c.base + 2 ^ c.logTotal < 2 ^ 64

instance (c : Config) : Decidable c.Valid := by
  unfold Valid; infer_instance

end Config

/-- The calls a client makes.  `write q v` stores the words `v` at address `q`
of one of its blocks, past the header: `q` is a later multiple of
`minBlockSize` inside the block (the allocator reads headers at such addresses
only; bytes outside these windows are not part of the model). -/
inductive Op where
  | alloc (n : Nat)
  | free (p : Nat)
  | write (q : Nat) (v : Block)

/-- An allocator together with the bookkeeping of its client: the pointers
currently allocated, each with the size that was requested. -/
structure Client where
  heap : BuddyAllocator
  live : List (Nat × Nat)

/-- A freshly constructed allocator; `mem0` is the uninitialised arena. -/
def Client.init (c : Config) (mem0 : Nat → Block) : Client :=
  { heap := BuddyAllocator.construct c.base mem0 c.totalSize c.minSize, live := [] }

/-- One call under correct use; `none` when the call is not allowed: a
request above `2 ^ 31` (the 32-bit shift of the rounding is undefined there),
a `deallocate` of a pointer that is neither null nor currently allocated, or a
store outside the payload of the client's blocks. -/
def Client.step (s : Client) : Op → Option Client
  | .alloc n =>
    if n ≤ 2 ^ 31 then
      let r := s.heap.allocate n
      some { heap := r.1, live := if r.2 = 0 then s.live else (r.2, n) :: s.live }
    else none
  | .free p =>
    if p = 0 then some { heap := s.heap.deallocate 0, live := s.live }
    else if s.live.any (fun e => e.1 == p) then
      some { heap := s.heap.deallocate p, live := s.live.filter (fun e => e.1 != p) }
    else none
  | .write q v =>
    if s.live.any (fun e =>
        decide (e.1 < q) && decide (q < e.1 + roundUp s.heap.minBlockSize e.2)
          && decide (q % s.heap.minBlockSize = 0)) then
      some { heap := { s.heap with mem := fun x => if x = q then v else s.heap.mem x },
             live := s.live }
    else none

/-- A sequence of calls under correct use. -/
def Client.run (s : Client) : List Op → Option Client
  | [] => some s
  | op :: ops => (s.step op).bind (fun s1 => s1.run ops)

/-- An arena whose bytes are all zero. -/
def zeroMem : Nat → Block := fun _ => { size := 0, prev := 0, next := 0 }

/-- The arena `(1024, 32)` of the test suite, placed at address 4096. -/
def cfg1024 : Config := { base := 4096, logTotal := 10, logMin := 5 }

/-- The header a block shows after the client has filled it with the byte `A`. -/
def filledA : Block :=
  { size := 0x4141414141414141, prev := 0x4141414141414141, next := 0x4141414141414141 }

/-- The heap after the client has stored `v` over every header-sized window
of the `len` bytes at `p`, the header of the block included. -/
def fillBlock (a : BuddyAllocator) (p len : Nat) (v : Block) : BuddyAllocator :=
  { a with mem := fun x => if p ≤ x ∧ x + sizeofBlock ≤ p + len then v else a.mem x }

/-! ## The invariant of correct use

The free lists live in the heap; the invariant relates them to two abstract
objects: `fl k`, the sequence of block addresses of free list `k` from its head
on, and `al`, the blocks that are in no list: those handed out to the client
and, inside `allocate` and `coalesce`, the block that is being worked on. -/

/-- The addresses `l` form a doubly linked run of blocks of size `sz` in the
heap: the first one points back to `p`, the last one points on to `n`. -/
def Seg (mem : Nat → Block) (sz : Nat) : Nat → List Nat → Nat → Prop
  | _, [], _ => True
  | p, b :: rest, n =>
    b ≠ 0 ∧ (mem b).prev = p ∧ (mem b).size = sz ∧ (mem b).next = rest.headD n ∧
      Seg mem sz b rest n

/-- The block at `b` of size `s` is in one of the free lists. -/
def FreeAt (c : Config) (fl : Nat → List Nat) (b s : Nat) : Prop :=
  ∃ k, k ≤ c.top ∧ s = c.classSize k ∧ b ∈ fl k

/-- The blocks of the arena: free ones and those out of the lists. -/
def Blk (c : Config) (fl : Nat → List Nat) (al : List (Nat × Nat)) (b s : Nat) : Prop :=
  FreeAt c fl b s ∨ (b, s) ∈ al

/-- The blocks `B` tile the arena: each has a class size, lies inside the
arena at a multiple of its size, two of them never overlap, and every address
of the arena belongs to one. -/
structure Tiling (c : Config) (B : Nat → Nat → Prop) : Prop where
  size : ∀ b s, B b s → ∃ k, k ≤ c.top ∧ s = c.classSize k
  inside : ∀ b s, B b s → c.base ≤ b ∧ b + s ≤ c.base + c.totalSize
  aligned : ∀ b s, B b s → s ∣ b
  disj : ∀ b s b2 s2, B b s → B b2 s2 → (b = b2 ∧ s = s2) ∨ b + s ≤ b2 ∨ b2 + s2 ≤ b
  cover : ∀ x, c.base ≤ x → x < c.base + c.totalSize → ∃ b s, B b s ∧ b ≤ x ∧ x < b + s

/-- The invariant that `allocate` and `deallocate` maintain under correct use. -/
structure Inv (c : Config) (a : BuddyAllocator) (fl : Nat → List Nat)
    (al : List (Nat × Nat)) : Prop where
  start : a.memoryStart = c.base
  total : a.totalMemorySize = c.totalSize
  minb : a.minBlockSize = c.minSize
  len : a.freeLists.length = c.top + 1
  heads : ∀ k, k ≤ c.top → a.head k = (fl k).headD 0
  seg : ∀ k, k ≤ c.top → Seg a.mem (c.classSize k) 0 (fl k) 0
  flNodup : ∀ k, k ≤ c.top → (fl k).Nodup
  alHdr : ∀ p s, (p, s) ∈ al → a.mem p = { size := s, prev := 0, next := 0 }
  alNodup : (al.map Prod.fst).Nodup
  freeNotLive : ∀ k b s, k ≤ c.top → b ∈ fl k → (b, s) ∉ al
  tiling : Tiling c (Blk c fl al)

/-- The blocks held by the client: each live pointer with the size it was
served with, `round(n)` for the request `n`. -/
def liveBlocks (minBlockSize : Nat) (live : List (Nat × Nat)) : List (Nat × Nat) :=
  live.map (fun e => (e.1, roundUp minBlockSize e.2))

/-- The correct-use sequence `a = allocate(512); b = allocate(512);
deallocate(a); deallocate(b)` on the arena `cfg1024`. -/
def traceHalves : List Op :=
  [.alloc 512, .alloc 512, .free 4096, .free 4608]

/-- The calls of `testFragmentation` on the arena `cfg1024`: four blocks of 128
bytes, the first and third released, a block of 256 bytes, then the rest
released. -/
def traceFragmentation : List Op :=
  [.alloc 128, .alloc 128, .alloc 128, .alloc 128, .free 4096, .free 4352, .alloc 256,
    .free 4224, .free 4480, .free 4608]

/-- A correct-use sequence on the arena `cfg1024` with a split, a store into a
payload, a release and a further request. -/
def traceMixed : List Op :=
  [.alloc 64, .alloc 30, .write 4128 filledA, .free 4096, .alloc 512]

/-- Four requests of 128 bytes on the arena `cfg1024`. -/
def traceQuarters : List Op :=
  [.alloc 128, .alloc 128, .alloc 128, .alloc 128]

/-- The state of a client satisfies the invariant for some layout of the free
lists. -/
def Client.Good (c : Config) (s : Client) : Prop :=
  ∃ fl, Inv c s.heap fl (liveBlocks c.minSize s.live)

/-! ## Observations used by the claims -/

/-- The blocks met from `p` on by following `next` until the null pointer, at
most `fuel` of them. -/
def walk (mem : Nat → Block) : Nat → Nat → List Nat
  | 0, _ => []
  | fuel + 1, p => if p = 0 then [] else p :: walk mem fuel (mem p).next

/-- The members of free list `index`: the blocks reached from
`freeLists[index]` through `next`.  Distinct blocks of the arena start at
distinct addresses, so `totalMemorySize` steps reach every member. -/
def BuddyAllocator.listBlocks (a : BuddyAllocator) (index : Nat) : List Nat :=
  walk a.mem a.totalMemorySize (a.head index)

/-- The arena `(1024, 32)` placed at address 4608, a multiple of 512 but not of
1024. -/
def cfgUnaligned : Config := { base := 4608, logTotal := 10, logMin := 5 }

/-- The arena `(2048, 32)` placed at address 4608. -/
def cfgUnaligned2048 : Config := { base := 4608, logTotal := 11, logMin := 5 }

/-- Both halves of the arena `cfgUnaligned` requested and released. -/
def traceUnalignedHalves : List Op :=
  [.alloc 512, .alloc 512, .free 4608, .free 5120]

/-- The four quarters of the arena `cfgUnaligned2048` requested, then the
third and the second released. -/
def traceWrongBuddy : List Op :=
  [.alloc 512, .alloc 512, .alloc 512, .alloc 512, .free 5632, .free 5120]

/-- The free blocks as the heap shows them: every member of every free list,
with the size recorded in its header. -/
def BuddyAllocator.freeBlocks (a : BuddyAllocator) : List (Nat × Nat) :=
  (List.range a.freeLists.length).flatMap
    (fun k => (a.listBlocks k).map (fun x => (x, (a.mem x).size)))

/-- The blocks of the arena, as address and recorded size: the free ones and
the ones the client holds. -/
def Client.blocks (s : Client) : List (Nat × Nat) :=
  s.heap.freeBlocks ++ s.live.map (fun e => (e.1, (s.heap.mem e.1).size))

/-! # Theorems -/

open BuddyAllocator

/-! ## Arithmetic of the integer helpers -/

theorem ctz_two_pow (j : Nat) (h : j < 32) : builtin_ctz (2 ^ j) = j := by
  interval_cases j <;> rfl

theorem ctz_int_min : builtin_ctz (2 ^ 64 - 2 ^ 31) = 31 := by rfl

theorem index_two_pow (a : BuddyAllocator) (ml j : Nat) (hm : a.minBlockSize = 2 ^ ml)
    (h1 : ml ≤ j) (h2 : j < 32) : a.indexFromBlockSize (2 ^ j) = j - ml := by
  unfold BuddyAllocator.indexFromBlockSize
  rw [hm, ctz_two_pow j h2, ctz_two_pow ml (by omega)]
  omega

theorem index_int_min (a : BuddyAllocator) (ml : Nat) (hm : a.minBlockSize = 2 ^ ml)
    (h1 : ml ≤ 31) : a.indexFromBlockSize (2 ^ 64 - 2 ^ 31) = 31 - ml := by
  unfold BuddyAllocator.indexFromBlockSize
  rw [hm, ctz_int_min, ctz_two_pow ml (by omega)]
  omega

theorem nextPow2From_spec (x : Nat) : ∀ (f i : Nat), x ≤ 2 ^ (i + f) → (∀ j, j < i → 2 ^ j < x) →
    ∃ k, nextPow2From x f (2 ^ i) = 2 ^ k ∧ x ≤ 2 ^ k ∧ ∀ j, j < k → 2 ^ j < x := by
  intro f
  induction f with
  | zero => intro i h1 h2; exact ⟨i, rfl, by simpa using h1, h2⟩
  | succ f ih =>
    intro i h1 h2
    unfold nextPow2From
    by_cases hx : x ≤ 2 ^ i
    · rw [if_pos hx]; exact ⟨i, rfl, hx, h2⟩
    · rw [if_neg hx]
      have h3 : 2 * 2 ^ i = 2 ^ (i + 1) := by rw [pow_succ]; ring
      rw [h3]
      apply ih (i + 1)
      · have : i + 1 + f = i + (f + 1) := by omega
        rw [this]; exact h1
      · intro j hj
        rcases Nat.lt_succ_iff_lt_or_eq.mp hj with h | h
        · exact h2 j h
        · subst h; omega

theorem next_pow2_spec (x : Nat) :
    ∃ k, next_pow2 x = 2 ^ k ∧ x ≤ 2 ^ k ∧ ∀ j, j < k → 2 ^ j < x := by
  have h := nextPow2From_spec x x 0 (by simpa using (Nat.lt_two_pow x).le) (by intro j hj; omega)
  simpa [next_pow2] using h

theorem pow_le_of_minimal {x k i : Nat} (hk : ∀ j, j < k → 2 ^ j < x) (hi : x ≤ 2 ^ i) : k ≤ i := by
  by_contra h
  have := hk i (by omega)
  omega

theorem next_pow2_isLeast (x : Nat) :
    IsLeast {p | (∃ k, p = 2 ^ k) ∧ x ≤ p} (next_pow2 x) := by
  obtain ⟨k, h1, h2, h3⟩ := next_pow2_spec x
  refine ⟨⟨⟨k, h1⟩, h1 ▸ h2⟩, ?_⟩
  rintro p ⟨⟨i, rfl⟩, hp⟩
  rw [h1]
  exact Nat.pow_le_pow_right (by decide) (pow_le_of_minimal h3 hp)

theorem two_pow_and_pred (j : Nat) : 2 ^ j &&& (2 ^ j - 1) = 0 := by
  rw [Nat.and_pow_two_sub_one_eq_mod]; simp

theorem testBit_of_range {m i : Nat} (h1 : 2 ^ i ≤ m) (h2 : m < 2 ^ (i + 1)) :
    m.testBit i = true := by
  rw [Nat.testBit_to_div_mod]
  have : m / 2 ^ i = 1 := by
    apply Nat.div_eq_of_lt_le
    · simpa using h1
    · rw [pow_succ] at h2; omega
  simp [this]

theorem two_pow_of_and_pred {n : Nat} (hn : 0 < n) (h : n &&& (n - 1) = 0) :
    n = 2 ^ Nat.log2 n := by
  have h1 := Nat.log2_self_le (Nat.pos_iff_ne_zero.mp hn)
  have h2 := @Nat.lt_log2_self n
  by_contra hne
  have h3 : 2 ^ Nat.log2 n ≤ n - 1 := by omega
  have t1 := testBit_of_range h1 h2
  have t2 := testBit_of_range h3 (by omega)
  have := Nat.testBit_and n (n - 1) (Nat.log2 n)
  rw [h, t1, t2] at this
  simp at this

theorem intShiftOne_small {k : Nat} (h : k ≤ 30) : intShiftOne k = 2 ^ k := by
  interval_cases k <;> rfl

theorem intShiftOne_31 : intShiftOne 31 = 2 ^ 64 - 2 ^ 31 := by rfl

/-- The shape of the rounded size for requests up to `2 ^ 31`. -/
theorem roundedSize_cases (a : BuddyAllocator) (ml n : Nat) (hm : a.minBlockSize = 2 ^ ml)
    (hn : n ≤ 2 ^ 31) :
    ∃ j, ml ≤ j ∧ (j ≤ 31 ∨ j = ml) ∧ roundUp (2 ^ ml) n = 2 ^ j ∧
      (a.roundedSize n = 2 ^ j ∨
        (j = 31 ∧ 2 ^ 30 < n ∧ a.roundedSize n = 2 ^ 64 - 2 ^ 31)) := by
  obtain ⟨k, hk1, hk2, hk3⟩ := next_pow2_spec n
  unfold BuddyAllocator.roundedSize roundUp
  rw [hm, hk1]
  by_cases hlt : n < 2 ^ ml
  · simp only [if_pos hlt, two_pow_and_pred, ne_eq, not_true_eq_false, if_false]
    have hkm : k ≤ ml := pow_le_of_minimal hk3 hlt.le
    have : 2 ^ k ≤ 2 ^ ml := Nat.pow_le_pow_right (by decide) hkm
    exact ⟨ml, le_refl _, Or.inr rfl, max_eq_left this, Or.inl rfl⟩
  · simp only [if_neg hlt]
    have hn0 : 0 < n := by
      have : 0 < 2 ^ ml := Nat.two_pow_pos ml
      omega
    have hmk : ml ≤ k := by
      by_contra hc
      have : 2 ^ k < 2 ^ ml := Nat.pow_lt_pow_right (by decide) (by omega)
      omega
    have hmax : max (2 ^ ml) (2 ^ k) = 2 ^ k :=
      max_eq_right (Nat.pow_le_pow_right (by decide) hmk)
    have hk31 : k ≤ 31 := pow_le_of_minimal hk3 hn
    by_cases hand : n &&& (n - 1) = 0
    · simp only [hand, ne_eq, not_true_eq_false, if_false]
      have hp := two_pow_of_and_pred hn0 hand
      have hkl : k ≤ Nat.log2 n := pow_le_of_minimal hk3 hp.le
      have : n = 2 ^ k := by
        apply le_antisymm hk2
        calc 2 ^ k ≤ 2 ^ Nat.log2 n := Nat.pow_le_pow_right (by decide) hkl
          _ = n := hp.symm
      exact ⟨k, hmk, Or.inl hk31, hmax, Or.inl this⟩
    · simp only [ne_eq, hand, not_false_eq_true, if_true]
      have h1 := Nat.log2_self_le (Nat.pos_iff_ne_zero.mp hn0)
      have h2 := @Nat.lt_log2_self n
      have hk_le : k ≤ Nat.log2 n + 1 := pow_le_of_minimal hk3 h2.le
      have hk_gt : Nat.log2 n < k := by
        by_contra hc
        have h3 : 2 ^ k ≤ 2 ^ Nat.log2 n := Nat.pow_le_pow_right (by decide) (by omega)
        have h4 : n = 2 ^ k := by omega
        rw [h4, two_pow_and_pred] at hand
        exact hand rfl
      have hk : 1 + Nat.log2 n = k := by omega
      rw [hk]
      refine ⟨k, hmk, Or.inl hk31, hmax, ?_⟩
      rcases Nat.lt_or_ge k 31 with h | h
      · exact Or.inl (intShiftOne_small (by omega))
      · have hk : k = 31 := by omega
        subst hk
        refine Or.inr ⟨rfl, ?_, intShiftOne_31⟩
        have := hk3 30 (by omega)
        exact this

/-- Up to `2 ^ 30` the code's rounding is the spec's `round`. -/
theorem roundedSize_eq_roundUp (a : BuddyAllocator) (ml n : Nat) (hm : a.minBlockSize = 2 ^ ml)
    (hn : n ≤ 2 ^ 30) : a.roundedSize n = roundUp (2 ^ ml) n := by
  obtain ⟨j, _, _, h3, h4⟩ := roundedSize_cases a ml n hm (by omega)
  rcases h4 with h | ⟨_, h, _⟩
  · rw [h, h3]
  · omega

/-! ## Buddy addresses -/

theorem xor_two_pow_even (j r : Nat) : (2 ^ (j + 1) * r) ^^^ 2 ^ j = 2 ^ (j + 1) * r + 2 ^ j := by
  apply Nat.eq_of_testBit_eq
  intro i
  have hlt : 2 ^ j < 2 ^ (j + 1) := Nat.pow_lt_pow_right (by decide) (by omega)
  have h0 : (0 : Nat) < 2 ^ (j + 1) := Nat.two_pow_pos _
  rw [Nat.testBit_xor, Nat.testBit_mul_pow_two_add r hlt i, Nat.testBit_two_pow]
  have h1 := Nat.testBit_mul_pow_two_add r h0 i
  simp only [Nat.add_zero, Nat.zero_testBit] at h1
  rw [h1]
  by_cases hi : i < j + 1
  · simp [hi]
  · have : ¬ j = i := by omega
    simp [hi, this]

theorem xor_two_pow_odd (j r : Nat) : (2 ^ (j + 1) * r + 2 ^ j) ^^^ 2 ^ j = 2 ^ (j + 1) * r := by
  rw [← xor_two_pow_even, Nat.xor_assoc, Nat.xor_self, Nat.xor_zero]

theorem dvd_lt_add_le {d x y : Nat} (hx : d ∣ x) (hy : d ∣ y) (h : x < y) : x + d ≤ y := by
  obtain ⟨m, rfl⟩ := hx
  obtain ⟨n, rfl⟩ := hy
  have hd : 0 < d := by
    rcases Nat.eq_zero_or_pos d with h0 | h0
    · subst h0; simp at h
    · exact h0
  have hmn : m < n := lt_of_mul_lt_mul_left h (Nat.zero_le d)
  calc d * m + d = d * (m + 1) := by ring
    _ ≤ d * n := Nat.mul_le_mul_left d hmn

theorem eq_of_dvd_of_range {t d x : Nat} (hd : t ∣ d) (hx : t ∣ x) (h1 : d ≤ x) (h2 : x < d + t) :
    d = x := by
  rcases Nat.lt_or_ge d x with h | h
  · have := dvd_lt_add_le hd hx h; omega
  · omega

/-- The buddy address of an aligned block: the other half of the enclosing
block of twice the size. -/
theorem xor_buddy {b j : Nat} (hb : 2 ^ j ∣ b) :
    (b ^^^ 2 ^ j = b + 2 ^ j ∧ 2 ^ (j + 1) ∣ b) ∨
      (b = (b ^^^ 2 ^ j) + 2 ^ j ∧ 2 ^ (j + 1) ∣ (b ^^^ 2 ^ j)) := by
  obtain ⟨q, rfl⟩ := hb
  rcases Nat.even_or_odd' q with ⟨r, hr | hr⟩
  · left
    have : 2 ^ j * q = 2 ^ (j + 1) * r := by rw [hr, pow_succ]; ring
    rw [this, xor_two_pow_even]
    exact ⟨rfl, Dvd.intro _ rfl⟩
  · right
    have : 2 ^ j * q = 2 ^ (j + 1) * r + 2 ^ j := by rw [hr, pow_succ]; ring
    rw [this, xor_two_pow_odd]
    exact ⟨rfl, Dvd.intro _ rfl⟩

/-! ## Tilings of the arena -/

theorem classSize_pos (c : Config) (k : Nat) : 0 < c.classSize k := Nat.two_pow_pos _

theorem classSize_succ (c : Config) (k : Nat) : c.classSize (k + 1) = 2 * c.classSize k := by
  unfold Config.classSize
  rw [← Nat.add_assoc, pow_succ]; ring

theorem classSize_dvd (c : Config) {k k2 : Nat} (h : k ≤ k2) : c.classSize k ∣ c.classSize k2 :=
  pow_dvd_pow 2 (by omega)

theorem classSize_le (c : Config) {k k2 : Nat} (h : k ≤ k2) : c.classSize k ≤ c.classSize k2 :=
  Nat.pow_le_pow_right (by decide) (by omega)

theorem classSize_lt (c : Config) {k k2 : Nat} (h : k < k2) : c.classSize k < c.classSize k2 :=
  Nat.pow_lt_pow_right (by decide) (by omega)

theorem classSize_inj (c : Config) {k k2 : Nat} (h : c.classSize k = c.classSize k2) : k = k2 := by
  have := Nat.pow_right_injective (le_refl 2) h
  omega

theorem classSize_top (c : Config) (hc : c.Valid) : c.classSize c.top = c.totalSize := by
  unfold Config.classSize Config.top Config.totalSize
  have := hc.1
  congr 1; omega

theorem classSize_dvd_total (c : Config) (hc : c.Valid) {k : Nat} (h : k ≤ c.top) :
    c.classSize k ∣ c.totalSize := by
  rw [← classSize_top c hc]; exact classSize_dvd c h

theorem total_dvd_base (c : Config) (hc : c.Valid) : c.totalSize ∣ c.base :=
  Nat.dvd_of_mod_eq_zero hc.2.2.2.2.1

theorem classSize_dvd_base (c : Config) (hc : c.Valid) {k : Nat} (h : k ≤ c.top) :
    c.classSize k ∣ c.base :=
  Dvd.dvd.trans (classSize_dvd_total c hc h) (total_dvd_base c hc)

theorem Tiling.of_iff {c : Config} {B1 B2 : Nat → Nat → Prop} (h : ∀ x t, B2 x t ↔ B1 x t)
    (ht : Tiling c B1) : Tiling c B2 where
  size := fun b s hb => ht.size b s ((h b s).mp hb)
  inside := fun b s hb => ht.inside b s ((h b s).mp hb)
  aligned := fun b s hb => ht.aligned b s ((h b s).mp hb)
  disj := fun b s b2 s2 hb hb2 => ht.disj b s b2 s2 ((h b s).mp hb) ((h b2 s2).mp hb2)
  cover := fun x h1 h2 => by
    obtain ⟨b, s, hb, h3⟩ := ht.cover x h1 h2
    exact ⟨b, s, (h b s).mpr hb, h3⟩

/-- In a tiling, the buddy address of a block smaller than the arena lies in
the arena and is the start of a block that is not larger. -/
theorem Tiling.buddy {c : Config} {B : Nat → Nat → Prop} (hc : c.Valid) (ht : Tiling c B)
    {b k : Nat} (hb : B b (c.classSize k)) (hk : k < c.top) :
    c.base ≤ b ^^^ c.classSize k ∧
    (b ^^^ c.classSize k) + c.classSize k ≤ c.base + c.totalSize ∧
    ((b ^^^ c.classSize k = b + c.classSize k ∧ c.classSize (k + 1) ∣ b) ∨
      (b = (b ^^^ c.classSize k) + c.classSize k ∧
        c.classSize (k + 1) ∣ (b ^^^ c.classSize k))) ∧
    ∃ t, B (b ^^^ c.classSize k) t ∧ t ≤ c.classSize k := by
  have hin := ht.inside _ _ hb
  have hal := ht.aligned _ _ hb
  have hpos := classSize_pos c k
  have h2s := classSize_succ c k
  have hdb : c.classSize (k + 1) ∣ c.base := classSize_dvd_base c hc (by omega)
  have hdt : c.classSize (k + 1) ∣ c.base + c.totalSize :=
    Dvd.dvd.add hdb (classSize_dvd_total c hc (by omega))
  have hx : (b ^^^ c.classSize k = b + c.classSize k ∧ c.classSize (k + 1) ∣ b) ∨
      (b = (b ^^^ c.classSize k) + c.classSize k ∧
        c.classSize (k + 1) ∣ (b ^^^ c.classSize k)) := xor_buddy hal
  generalize b ^^^ c.classSize k = b2 at hx ⊢
  -- the enclosing block of twice the size starts at `u`
  obtain ⟨u, hu, hub, hub2⟩ : ∃ u, c.classSize (k + 1) ∣ u ∧
      (u = b ∨ u = b2) ∧ ((u = b ∧ b2 = b + c.classSize k) ∨
        (u = b2 ∧ b = b2 + c.classSize k)) := by
    rcases hx with ⟨h1, h2⟩ | ⟨h1, h2⟩
    · exact ⟨b, h2, Or.inl rfl, Or.inl ⟨rfl, h1⟩⟩
    · exact ⟨b2, h2, Or.inr rfl, Or.inr ⟨rfl, h1⟩⟩
  have hu1 : c.base ≤ u := by
    by_contra hlt
    have := dvd_lt_add_le hu hdb (by omega)
    omega
  have hu2 : u + c.classSize (k + 1) ≤ c.base + c.totalSize :=
    dvd_lt_add_le hu hdt (by omega)
  have hb2in : c.base ≤ b2 ∧ b2 + c.classSize k ≤ c.base + c.totalSize := by omega
  refine ⟨hb2in.1, hb2in.2, hx, ?_⟩
  obtain ⟨d, t, hd, hd1, hd2⟩ := ht.cover b2 hb2in.1 (by omega)
  obtain ⟨k2, hk2, rfl⟩ := ht.size _ _ hd
  have hdal := ht.aligned _ _ hd
  have hsb2 : c.classSize k ∣ b2 := by
    rcases hub2 with ⟨_, h⟩ | ⟨h, _⟩
    · rw [h]; exact Dvd.dvd.add hal (dvd_refl _)
    · rw [← h]; exact Dvd.dvd.trans (classSize_dvd c (by omega)) hu
  rcases Nat.lt_or_ge k k2 with hlt | hge
  · exfalso
    have h2t : c.classSize (k + 1) ∣ c.classSize k2 := classSize_dvd c (by omega)
    have hlt2 := classSize_lt c hlt
    have hdd : c.classSize (k + 1) ∣ d := Dvd.dvd.trans h2t hdal
    have hde : c.classSize (k + 1) ∣ d + c.classSize k2 := Dvd.dvd.add hdd h2t
    have hdu : d ≤ u := by
      by_contra hlt
      have := dvd_lt_add_le hu hdd (by omega)
      omega
    have hue : u + c.classSize (k + 1) ≤ d + c.classSize k2 :=
      dvd_lt_add_le hu hde (by omega)
    rcases ht.disj _ _ _ _ hb hd with ⟨_, h⟩ | h | h <;> omega
  · have hle := classSize_le c hge
    have htb2 : c.classSize k2 ∣ b2 := Dvd.dvd.trans (classSize_dvd c hge) hsb2
    have : d = b2 := eq_of_dvd_of_range hdal htb2 hd1 hd2
    subst this
    exact ⟨_, hd, hle⟩

/-- Splitting a block of a tiling into its two halves gives a tiling. -/
theorem Tiling.halve {c : Config} {B : Nat → Nat → Prop} (ht : Tiling c B)
    {b k : Nat} (hb : B b (c.classSize (k + 1))) :
    Tiling c (fun x t => (B x t ∧ x ≠ b) ∨ (x = b ∧ t = c.classSize k) ∨
      (x = b + c.classSize k ∧ t = c.classSize k)) := by
  have hin := ht.inside _ _ hb
  have hal := ht.aligned _ _ hb
  have hpos := classSize_pos c k
  have h2s := classSize_succ c k
  obtain ⟨k1, hk1, hk1e⟩ := ht.size _ _ hb
  have hk : k + 1 ≤ c.top := by rw [← classSize_inj c hk1e] at hk1; exact hk1
  have hdv : c.classSize k ∣ b := Dvd.dvd.trans (classSize_dvd c (by omega)) hal
  constructor
  · rintro x t (⟨h, _⟩ | ⟨_, rfl⟩ | ⟨_, rfl⟩)
    · exact ht.size _ _ h
    · exact ⟨k, by omega, rfl⟩
    · exact ⟨k, by omega, rfl⟩
  · rintro x t (⟨h, _⟩ | ⟨rfl, rfl⟩ | ⟨rfl, rfl⟩)
    · exact ht.inside _ _ h
    · omega
    · omega
  · rintro x t (⟨h, _⟩ | ⟨rfl, rfl⟩ | ⟨rfl, rfl⟩)
    · exact ht.aligned _ _ h
    · exact hdv
    · exact Dvd.dvd.add hdv (dvd_refl _)
  · rintro x t x2 t2 (⟨h, hne⟩ | ⟨rfl, rfl⟩ | ⟨rfl, rfl⟩)
      (⟨h2, hne2⟩ | ⟨rfl, rfl⟩ | ⟨rfl, rfl⟩)
    · exact ht.disj _ _ _ _ h h2
    · rcases ht.disj _ _ _ _ h hb with ⟨h3, _⟩ | h3 | h3 <;> omega
    · rcases ht.disj _ _ _ _ h hb with ⟨h3, _⟩ | h3 | h3 <;> omega
    · rcases ht.disj _ _ _ _ hb h2 with ⟨h3, _⟩ | h3 | h3 <;> omega
    · omega
    · omega
    · rcases ht.disj _ _ _ _ hb h2 with ⟨h3, _⟩ | h3 | h3 <;> omega
    · omega
    · omega
  · intro x h1 h2
    obtain ⟨d, t, hd, hd1, hd2⟩ := ht.cover x h1 h2
    by_cases hdb : d = b
    · subst hdb
      have : t = c.classSize (k + 1) := by
        rcases ht.disj _ _ _ _ hd hb with ⟨_, h3⟩ | h3 | h3
        · exact h3
        · omega
        · omega
      subst this
      by_cases hx : x < d + c.classSize k
      · exact ⟨d, _, Or.inr (Or.inl ⟨rfl, rfl⟩), by omega, by omega⟩
      · exact ⟨d + c.classSize k, _, Or.inr (Or.inr ⟨rfl, rfl⟩), by omega, by omega⟩
    · exact ⟨d, t, Or.inl ⟨hd, hdb⟩, hd1, hd2⟩

/-- Merging two buddies of a tiling into one block gives a tiling. -/
theorem Tiling.join {c : Config} {B : Nat → Nat → Prop} (ht : Tiling c B)
    {b k : Nat} (hk : k < c.top) (hb : B b (c.classSize k))
    (hb2 : B (b + c.classSize k) (c.classSize k)) (hal : c.classSize (k + 1) ∣ b) :
    Tiling c (fun x t => (B x t ∧ x ≠ b ∧ x ≠ b + c.classSize k) ∨
      (x = b ∧ t = c.classSize (k + 1))) := by
  have hin := ht.inside _ _ hb
  have hin2 := ht.inside _ _ hb2
  have hpos := classSize_pos c k
  have h2s := classSize_succ c k
  constructor
  · rintro x t (⟨h, _⟩ | ⟨_, rfl⟩)
    · exact ht.size _ _ h
    · exact ⟨k + 1, by omega, rfl⟩
  · rintro x t (⟨h, _⟩ | ⟨rfl, rfl⟩)
    · exact ht.inside _ _ h
    · omega
  · rintro x t (⟨h, _⟩ | ⟨rfl, rfl⟩)
    · exact ht.aligned _ _ h
    · exact hal
  · rintro x t x2 t2 (⟨h, hne, hne1⟩ | ⟨rfl, rfl⟩) (⟨h2, hne2, hne3⟩ | ⟨rfl, rfl⟩)
    · exact ht.disj _ _ _ _ h h2
    · rcases ht.disj _ _ _ _ h hb with ⟨h3, _⟩ | h3 | h3 <;>
        rcases ht.disj _ _ _ _ h hb2 with ⟨h4, _⟩ | h4 | h4 <;> omega
    · rcases ht.disj _ _ _ _ hb h2 with ⟨h3, _⟩ | h3 | h3 <;>
        rcases ht.disj _ _ _ _ hb2 h2 with ⟨h4, _⟩ | h4 | h4 <;> omega
    · omega
  · intro x h1 h2
    obtain ⟨d, t, hd, hd1, hd2⟩ := ht.cover x h1 h2
    by_cases hdb : d = b
    · subst hdb
      exact ⟨d, _, Or.inr ⟨rfl, rfl⟩, hd1, by
        rcases ht.disj _ _ _ _ hd hb with ⟨_, h3⟩ | h3 | h3 <;> omega⟩
    · by_cases hdb2 : d = b + c.classSize k
      · subst hdb2
        exact ⟨b, _, Or.inr ⟨rfl, rfl⟩, by omega, by
          rcases ht.disj _ _ _ _ hd hb2 with ⟨_, h3⟩ | h3 | h3 <;> omega⟩
      · exact ⟨d, t, Or.inl ⟨hd, hdb, hdb2⟩, hd1, hd2⟩

/-! ## Loads and stores -/

namespace BuddyAllocator

@[simp]
theorem mem_setSize (a : BuddyAllocator) (p v q : Nat) :
    (a.setSize p v).mem q = if q = p then { a.mem q with size := v } else a.mem q := rfl
@[simp]
theorem mem_setPrev (a : BuddyAllocator) (p v q : Nat) :
    (a.setPrev p v).mem q = if q = p then { a.mem q with prev := v } else a.mem q := rfl
@[simp]
theorem mem_setNext (a : BuddyAllocator) (p v q : Nat) :
    (a.setNext p v).mem q = if q = p then { a.mem q with next := v } else a.mem q := rfl
@[simp]
theorem mem_setHead (a : BuddyAllocator) (i v : Nat) : (a.setHead i v).mem = a.mem := rfl

@[simp]
theorem freeLists_setSize (a : BuddyAllocator) (p v : Nat) :
    (a.setSize p v).freeLists = a.freeLists := rfl
@[simp]
theorem freeLists_setPrev (a : BuddyAllocator) (p v : Nat) :
    (a.setPrev p v).freeLists = a.freeLists := rfl
@[simp]
theorem freeLists_setNext (a : BuddyAllocator) (p v : Nat) :
    (a.setNext p v).freeLists = a.freeLists := rfl
@[simp]
theorem freeLists_setHead (a : BuddyAllocator) (i v : Nat) :
    (a.setHead i v).freeLists = a.freeLists.set i v := rfl

@[simp]
theorem head_setSize (a : BuddyAllocator) (p v i : Nat) :
    (a.setSize p v).head i = a.head i := rfl
@[simp]
theorem head_setPrev (a : BuddyAllocator) (p v i : Nat) :
    (a.setPrev p v).head i = a.head i := rfl
@[simp]
theorem head_setNext (a : BuddyAllocator) (p v i : Nat) :
    (a.setNext p v).head i = a.head i := rfl

theorem head_setHead (a : BuddyAllocator) (i v j : Nat) :
    (a.setHead i v).head j = if i = j ∧ i < a.freeLists.length then v else a.head j := by
  unfold head setHead
  simp only [List.getD_eq_getElem?_getD, List.getElem?_set]
  by_cases hij : i = j
  · subst hij
    by_cases hl : i < a.freeLists.length
    · simp [hl]
    · simp [hl, List.getElem?_eq_none (Nat.le_of_not_lt hl)]
  · simp [hij]

@[simp]
theorem memoryStart_setSize (a : BuddyAllocator) (p v : Nat) :
    (a.setSize p v).memoryStart = a.memoryStart := rfl
@[simp]
theorem memoryStart_setPrev (a : BuddyAllocator) (p v : Nat) :
    (a.setPrev p v).memoryStart = a.memoryStart := rfl
@[simp]
theorem memoryStart_setNext (a : BuddyAllocator) (p v : Nat) :
    (a.setNext p v).memoryStart = a.memoryStart := rfl
@[simp]
theorem memoryStart_setHead (a : BuddyAllocator) (p v : Nat) :
    (a.setHead p v).memoryStart = a.memoryStart := rfl
@[simp]
theorem totalMemorySize_setSize (a : BuddyAllocator) (p v : Nat) :
    (a.setSize p v).totalMemorySize = a.totalMemorySize := rfl
@[simp]
theorem totalMemorySize_setPrev (a : BuddyAllocator) (p v : Nat) :
    (a.setPrev p v).totalMemorySize = a.totalMemorySize := rfl
@[simp]
theorem totalMemorySize_setNext (a : BuddyAllocator) (p v : Nat) :
    (a.setNext p v).totalMemorySize = a.totalMemorySize := rfl
@[simp]
theorem totalMemorySize_setHead (a : BuddyAllocator) (p v : Nat) :
    (a.setHead p v).totalMemorySize = a.totalMemorySize := rfl
@[simp]
theorem minBlockSize_setSize (a : BuddyAllocator) (p v : Nat) :
    (a.setSize p v).minBlockSize = a.minBlockSize := rfl
@[simp]
theorem minBlockSize_setPrev (a : BuddyAllocator) (p v : Nat) :
    (a.setPrev p v).minBlockSize = a.minBlockSize := rfl
@[simp]
theorem minBlockSize_setNext (a : BuddyAllocator) (p v : Nat) :
    (a.setNext p v).minBlockSize = a.minBlockSize := rfl
@[simp]
theorem minBlockSize_setHead (a : BuddyAllocator) (p v : Nat) :
    (a.setHead p v).minBlockSize = a.minBlockSize := rfl

/-! ### What `removeFromFreeList` does -/

theorem remove_memoryStart (a : BuddyAllocator) (b k : Nat) :
    (a.removeFromFreeList b k).memoryStart = a.memoryStart := by
  unfold removeFromFreeList; simp only []; split_ifs <;> rfl

theorem remove_totalMemorySize (a : BuddyAllocator) (b k : Nat) :
    (a.removeFromFreeList b k).totalMemorySize = a.totalMemorySize := by
  unfold removeFromFreeList; simp only []; split_ifs <;> rfl

theorem remove_minBlockSize (a : BuddyAllocator) (b k : Nat) :
    (a.removeFromFreeList b k).minBlockSize = a.minBlockSize := by
  unfold removeFromFreeList; simp only []; split_ifs <;> rfl

theorem remove_freeLists (a : BuddyAllocator) (b k : Nat) :
    (a.removeFromFreeList b k).freeLists =
      if (a.mem b).prev ≠ 0 then a.freeLists else a.freeLists.set k (a.mem b).next := by
  unfold removeFromFreeList; simp only []; split_ifs <;> rfl

theorem remove_unfold (a : BuddyAllocator) (b k : Nat) (hpb : (a.mem b).prev ≠ b) :
    (a.removeFromFreeList b k).mem =
      (((if (a.mem b).next ≠ 0 then
          (if (a.mem b).prev ≠ 0 then a.setNext (a.mem b).prev (a.mem b).next
            else a.setHead k (a.mem b).next).setPrev (a.mem b).next (a.mem b).prev
        else (if (a.mem b).prev ≠ 0 then a.setNext (a.mem b).prev (a.mem b).next
            else a.setHead k (a.mem b).next)).setPrev b 0).setNext b 0).mem := by
  unfold removeFromFreeList
  have e : (if (a.mem b).prev ≠ 0 then a.setNext (a.mem b).prev (a.mem b).next
      else a.setHead k (a.mem b).next).mem b = a.mem b := by
    by_cases hp : (a.mem b).prev ≠ 0
    · rw [if_pos hp, mem_setNext, if_neg (Ne.symm hpb)]
    · rw [if_neg hp, mem_setHead]
  simp only [e]

theorem remove_mem_self (a : BuddyAllocator) (b k : Nat) (hpb : (a.mem b).prev ≠ b)
    (hnb : (a.mem b).next ≠ b) :
    (a.removeFromFreeList b k).mem b = { size := (a.mem b).size, prev := 0, next := 0 } := by
  rw [remove_unfold a b k hpb]
  by_cases hp : (a.mem b).prev ≠ 0 <;> by_cases hn : (a.mem b).next ≠ 0 <;>
    simp only [hp, hn, if_true, if_false, ne_eq, not_true_eq_false, not_false_eq_true,
      mem_setNext, mem_setPrev, mem_setHead, Ne.symm hpb, Ne.symm hnb]

theorem remove_mem_other (a : BuddyAllocator) (b k x : Nat) (h1 : x ≠ b)
    (h2 : x ≠ (a.mem b).prev) (h3 : x ≠ (a.mem b).next) (hpb : (a.mem b).prev ≠ b) :
    (a.removeFromFreeList b k).mem x = a.mem x := by
  rw [remove_unfold a b k hpb]
  by_cases hp : (a.mem b).prev ≠ 0 <;> by_cases hn : (a.mem b).next ≠ 0 <;>
    simp only [hp, hn, if_true, if_false, ne_eq, not_true_eq_false, not_false_eq_true,
      mem_setNext, mem_setPrev, mem_setHead, h1, h2, h3]

theorem remove_mem_prev (a : BuddyAllocator) (b k x : Nat) (h1 : x ≠ b)
    (h2 : x = (a.mem b).prev) (h0 : x ≠ 0) (h3 : x ≠ (a.mem b).next) :
    (a.removeFromFreeList b k).mem x = { a.mem x with next := (a.mem b).next } := by
  have hpb : (a.mem b).prev ≠ b := by rw [← h2]; exact h1
  have hp : (a.mem b).prev ≠ 0 := by rw [← h2]; exact h0
  rw [remove_unfold a b k hpb]
  by_cases hn : (a.mem b).next ≠ 0 <;>
    simp only [hp, hn, if_true, if_false, ne_eq, not_true_eq_false, not_false_eq_true,
      mem_setNext, mem_setPrev, mem_setHead, h1, h3] <;>
    rw [if_pos h2]

theorem remove_mem_next (a : BuddyAllocator) (b k x : Nat) (h1 : x ≠ b)
    (h2 : x = (a.mem b).next) (h0 : x ≠ 0) (h3 : x ≠ (a.mem b).prev)
    (hpb : (a.mem b).prev ≠ b) :
    (a.removeFromFreeList b k).mem x = { a.mem x with prev := (a.mem b).prev } := by
  have hn : (a.mem b).next ≠ 0 := by rw [← h2]; exact h0
  rw [remove_unfold a b k hpb]
  by_cases hp : (a.mem b).prev ≠ 0 <;>
    simp only [hp, hn, if_true, if_false, ne_eq, not_true_eq_false, not_false_eq_true,
      mem_setNext, mem_setPrev, mem_setHead, h1, h3] <;>
    rw [if_pos h2]

/-! ### What `addToFreeList` does -/

theorem add_memoryStart (a : BuddyAllocator) (b k : Nat) :
    (a.addToFreeList b k).memoryStart = a.memoryStart := by
  unfold addToFreeList; simp only []; split_ifs <;> rfl

theorem add_totalMemorySize (a : BuddyAllocator) (b k : Nat) :
    (a.addToFreeList b k).totalMemorySize = a.totalMemorySize := by
  unfold addToFreeList; simp only []; split_ifs <;> rfl

theorem add_minBlockSize (a : BuddyAllocator) (b k : Nat) :
    (a.addToFreeList b k).minBlockSize = a.minBlockSize := by
  unfold addToFreeList; simp only []; split_ifs <;> rfl

theorem add_freeLists (a : BuddyAllocator) (b k : Nat) :
    (a.addToFreeList b k).freeLists = a.freeLists.set k b := by
  unfold addToFreeList; simp only []; split_ifs <;> rfl

theorem add_mem_self (a : BuddyAllocator) (b k : Nat) (h : a.head k ≠ b) :
    (a.addToFreeList b k).mem b = { a.mem b with next := a.head k } := by
  unfold addToFreeList
  by_cases h0 : a.head k ≠ 0 <;>
    simp only [h0, if_true, if_false, ne_eq, not_true_eq_false, not_false_eq_true,
      mem_setNext, mem_setPrev, mem_setHead, head_setNext, Ne.symm h]

theorem add_mem_other (a : BuddyAllocator) (b k x : Nat) (h1 : x ≠ b) (h2 : x ≠ a.head k) :
    (a.addToFreeList b k).mem x = a.mem x := by
  unfold addToFreeList
  by_cases h0 : a.head k ≠ 0 <;>
    simp only [h0, if_true, if_false, ne_eq, not_true_eq_false, not_false_eq_true,
      mem_setNext, mem_setPrev, mem_setHead, head_setNext, h1, h2]

theorem add_mem_head (a : BuddyAllocator) (b k x : Nat) (h1 : x ≠ b) (h2 : x = a.head k)
    (h0 : x ≠ 0) : (a.addToFreeList b k).mem x = { a.mem x with prev := b } := by
  have h0k : a.head k ≠ 0 := by rw [← h2]; exact h0
  unfold addToFreeList
  simp only [h0k, if_true, ne_eq, not_false_eq_true,
    mem_setNext, mem_setPrev, mem_setHead, head_setNext, h1, if_false]
  rw [if_pos h2]

theorem add_setSize_comm (a : BuddyAllocator) (b k p v : Nat) :
    (a.addToFreeList b k).setSize p v = (a.setSize p v).addToFreeList b k := by
  unfold addToFreeList; simp only [head_setNext, head_setSize]
  by_cases h : a.head k ≠ 0
  · simp only [h, ne_eq, not_false_eq_true, if_true]
    unfold setSize setPrev setNext setHead
    simp only [BuddyAllocator.mk.injEq, true_and]
    funext q
    split_ifs <;> rfl
  · simp only [h, if_false]
    unfold setSize setNext setHead
    simp only [BuddyAllocator.mk.injEq, true_and]
    funext q
    split_ifs <;> rfl

end BuddyAllocator

/-! ## Doubly linked runs -/

theorem seg_cons (m : Nat → Block) (sz p b n : Nat) (rest : List Nat) :
    Seg m sz p (b :: rest) n ↔
      (b ≠ 0 ∧ (m b).prev = p ∧ (m b).size = sz ∧ (m b).next = rest.headD n ∧
        Seg m sz b rest n) := Iff.rfl

theorem Seg.frame {m m2 : Nat → Block} {sz : Nat} :
    ∀ (l : List Nat) (p n : Nat), (∀ x, x ∈ l → m2 x = m x) → Seg m sz p l n → Seg m2 sz p l n
  | [], _, _, _, _ => trivial
  | b :: rest, p, n, h, hs => by
    obtain ⟨h1, h2, h3, h4, h5⟩ := hs
    have e := h b (List.mem_cons_self _ _)
    refine ⟨h1, ?_, ?_, ?_, Seg.frame rest b n (fun x hx => h x (List.mem_cons_of_mem _ hx)) h5⟩
    · rw [e]; exact h2
    · rw [e]; exact h3
    · rw [e]; exact h4

theorem Seg.ne_zero {m : Nat → Block} {sz : Nat} :
    ∀ (l : List Nat) (p n : Nat), Seg m sz p l n → ∀ x, x ∈ l → x ≠ 0
  | [], _, _, _, x, hx => by simp at hx
  | b :: rest, _, n, hs, x, hx => by
    obtain ⟨h1, _, _, _, h5⟩ := hs
    rcases List.mem_cons.mp hx with rfl | hx
    · exact h1
    · exact Seg.ne_zero rest _ n h5 x hx

theorem Seg.size_eq {m : Nat → Block} {sz : Nat} :
    ∀ (l : List Nat) (p n : Nat), Seg m sz p l n → ∀ x, x ∈ l → (m x).size = sz
  | [], _, _, _, x, hx => by simp at hx
  | b :: rest, _, n, hs, x, hx => by
    obtain ⟨_, _, h3, _, h5⟩ := hs
    rcases List.mem_cons.mp hx with rfl | hx
    · exact h3
    · exact Seg.size_eq rest _ n h5 x hx

theorem Seg.mid {m : Nat → Block} {sz b n : Nat} {l2 : List Nat} :
    ∀ (l1 : List Nat) (p : Nat), Seg m sz p (l1 ++ b :: l2) n →
      (m b).prev = l1.getLastD p ∧ (m b).next = l2.headD n
  | [], _, hs => by
    obtain ⟨_, h2, _, h4, _⟩ := hs
    exact ⟨h2, h4⟩
  | d :: l1, _, hs => by
    obtain ⟨_, _, _, _, h5⟩ := hs
    rw [List.getLastD_cons]
    exact Seg.mid l1 d h5

theorem getLastD_mem (l : List Nat) (d : Nat) : (l = [] ∧ l.getLastD d = d) ∨ l.getLastD d ∈ l := by
  induction l generalizing d with
  | nil => exact Or.inl ⟨rfl, rfl⟩
  | cons a l ih =>
    right
    rw [List.getLastD_cons]
    rcases ih a with ⟨_, h⟩ | h
    · rw [h]; exact List.mem_cons_self _ _
    · exact List.mem_cons_of_mem _ h

theorem headD_mem (l : List Nat) (d : Nat) : (l = [] ∧ l.headD d = d) ∨ l.headD d ∈ l := by
  cases l with
  | nil => exact Or.inl ⟨rfl, rfl⟩
  | cons a l => exact Or.inr (List.mem_cons_self _ _)

/-- Unlinking `b` from a run: the neighbours are joined. -/
theorem Seg.unlink {m m2 : Nat → Block} {sz b : Nat} {l2 : List Nat} :
    ∀ (l1 : List Nat) (p0 : Nat), Seg m sz p0 (l1 ++ b :: l2) 0 → (l1 ++ b :: l2).Nodup →
      p0 ∉ l1 ++ b :: l2 →
      (∀ x, x ∈ l1 ++ l2 → x ≠ (m b).prev → x ≠ (m b).next → m2 x = m x) →
      (∀ x, x ∈ l1 ++ l2 → x = (m b).prev → m2 x = { m x with next := (m b).next }) →
      (∀ x, x ∈ l1 ++ l2 → x = (m b).next → m2 x = { m x with prev := (m b).prev }) →
      Seg m2 sz p0 (l1 ++ l2) 0
  | [], p0, hs, hnd, hp0, ho, _, hn => by
    obtain ⟨_, h2, _, h4, h5⟩ := hs
    simp only [List.nil_append] at *
    cases l2 with
    | nil => trivial
    | cons c l3 =>
      obtain ⟨g1, _, g3, g4, g5⟩ := h5
      simp only [List.headD_cons] at h4
      have hnd2 := (List.nodup_cons.mp hnd).2
      have hc3 : c ∉ l3 := (List.nodup_cons.mp hnd2).1
      have e := hn c (List.mem_cons_self _ _) h4.symm
      refine ⟨g1, ?_, ?_, ?_, ?_⟩
      · rw [e]; exact h2
      · rw [e]; exact g3
      · rw [e]; exact g4
      · apply Seg.frame l3 c 0 _ g5
        intro x hx
        apply ho x (List.mem_cons_of_mem _ hx)
        · rw [h2]; intro hxp; subst hxp
          exact hp0 (List.mem_cons_of_mem _ (List.mem_cons_of_mem _ hx))
        · rw [h4]; intro hxc; subst hxc; exact hc3 hx
  | d :: l1, p0, hs, hnd, _, ho, hp, hn => by
    obtain ⟨h1, h2, h3, h4, h5⟩ := hs
    have hmid := Seg.mid l1 d h5
    simp only [List.cons_append] at hnd ⊢
    have hd : d ∉ l1 ++ b :: l2 := (List.nodup_cons.mp hnd).1
    have hnd2 := (List.nodup_cons.mp hnd).2
    have hd1 : d ∉ l1 := fun h => hd (List.mem_append_left _ h)
    have hd2 : d ∉ l2 := fun h => hd (List.mem_append_right _ (List.mem_cons_of_mem _ h))
    have hdn : d ≠ (m b).next := by
      rw [hmid.2]
      rcases headD_mem l2 0 with ⟨_, h⟩ | h
      · rw [h]; exact h1
      · intro hh; rw [← hh] at h; exact hd2 h
    have hsub : ∀ x, x ∈ l1 ++ l2 → x ∈ d :: (l1 ++ l2) := fun x hx => List.mem_cons_of_mem _ hx
    have ih := Seg.unlink l1 d h5 hnd2 hd (fun x hx => ho x (hsub x hx))
      (fun x hx => hp x (hsub x hx)) (fun x hx => hn x (hsub x hx))
    refine ⟨h1, ?_, ?_, ?_, ih⟩
    all_goals
      cases l1 with
      | nil =>
        simp only [List.getLastD_nil] at hmid
        have e := hp d (List.mem_cons_self _ _) hmid.1.symm
        rw [e]
        first
          | exact h2
          | exact h3
          | (simp only [List.nil_append]; exact hmid.2)
      | cons f l4 =>
        have hf : (m b).prev ∈ f :: l4 := by
          rw [hmid.1]
          rcases getLastD_mem (f :: l4) d with ⟨h, _⟩ | h
          · cases h
          · exact h
        have e := ho d (List.mem_cons_self _ _) (fun hh => hd1 (hh ▸ hf)) hdn
        rw [e]
        first
          | exact h2
          | exact h3
          | (simpa using h4)

/-- Linking `b` in front of a run. -/
theorem Seg.link {m m2 : Nat → Block} {sz b : Nat} {l : List Nat} (hs : Seg m sz 0 l 0)
    (hb0 : b ≠ 0) (hbl : b ∉ l) (hnd : l.Nodup)
    (hb : m2 b = { size := sz, prev := 0, next := l.headD 0 })
    (ho : ∀ x, x ∈ l → x ≠ l.headD 0 → m2 x = m x)
    (hh : ∀ x, x ∈ l → x = l.headD 0 → m2 x = { m x with prev := b }) :
    Seg m2 sz 0 (b :: l) 0 := by
  refine ⟨hb0, by rw [hb], by rw [hb], by rw [hb], ?_⟩
  cases l with
  | nil => trivial
  | cons c l3 =>
    obtain ⟨g1, _, g3, g4, g5⟩ := hs
    have e := hh c (List.mem_cons_self _ _) rfl
    have hc3 : c ∉ l3 := (List.nodup_cons.mp hnd).1
    refine ⟨g1, by rw [e], by rw [e]; exact g3, by rw [e]; exact g4, ?_⟩
    apply Seg.frame l3 c 0 _ g5
    intro x hx
    apply ho x (List.mem_cons_of_mem _ hx)
    simp only [List.headD_cons]
    intro hxc; subst hxc; exact hc3 hx

/-! ## The invariant under the list primitives -/

theorem head_congr {a a2 : BuddyAllocator} (h : a2.freeLists = a.freeLists) (i : Nat) :
    a2.head i = a.head i := by
  unfold BuddyAllocator.head; rw [h]

theorem head_of_set {a a2 : BuddyAllocator} {k v : Nat} (h : a2.freeLists = a.freeLists.set k v)
    (i : Nat) : a2.head i = if k = i ∧ k < a.freeLists.length then v else a.head i := by
  rw [← head_setHead]
  exact head_congr (by rw [h]; rfl) i

theorem Inv.base_pos {c : Config} (hc : c.Valid) : 0 < c.base := hc.2.2.2.1

theorem Inv.blk_ne_zero {c : Config} {a : BuddyAllocator} {fl : Nat → List Nat}
    {al : List (Nat × Nat)} (hc : c.Valid) (h : Inv c a fl al) {b s : Nat}
    (hb : Blk c fl al b s) : b ≠ 0 := by
  have := (h.tiling.inside b s hb).1
  have := Inv.base_pos hc
  omega

theorem Inv.free_blk {c : Config} {fl : Nat → List Nat} {al : List (Nat × Nat)} {k b : Nat}
    (hk : k ≤ c.top) (hb : b ∈ fl k) : Blk c fl al b (c.classSize k) :=
  Or.inl ⟨k, hk, rfl, hb⟩

theorem Inv.free_unique {c : Config} {a : BuddyAllocator} {fl : Nat → List Nat}
    {al : List (Nat × Nat)} (h : Inv c a fl al) {k k2 b : Nat} (hk : k ≤ c.top)
    (hk2 : k2 ≤ c.top) (hb : b ∈ fl k) (hb2 : b ∈ fl k2) : k = k2 := by
  have h1 : Blk c fl al b (c.classSize k) := Inv.free_blk hk hb
  have h2 : Blk c fl al b (c.classSize k2) := Inv.free_blk hk2 hb2
  have p1 := classSize_pos c k
  have p2 := classSize_pos c k2
  rcases h.tiling.disj _ _ _ _ h1 h2 with ⟨_, h3⟩ | h3 | h3
  · exact classSize_inj c h3
  · omega
  · omega

theorem Inv.al_ne_zero {c : Config} {a : BuddyAllocator} {fl : Nat → List Nat}
    {al : List (Nat × Nat)} (hc : c.Valid) (h : Inv c a fl al) {p s : Nat}
    (hp : (p, s) ∈ al) : p ≠ 0 :=
  Inv.blk_ne_zero hc h (Or.inr hp)

/-- Taking a block out of its free list: it joins the blocks out of the lists. -/
theorem Inv.take_out {c : Config} {a : BuddyAllocator} {fl : Nat → List Nat}
    {al : List (Nat × Nat)} (hc : c.Valid) (h : Inv c a fl al) {k b : Nat} (hk : k ≤ c.top)
    (hb : b ∈ fl k) :
    Inv c (a.removeFromFreeList b k) (Function.update fl k ((fl k).erase b))
      ((b, c.classSize k) :: al) := by
  obtain ⟨l1, l2, hl⟩ := List.append_of_mem hb
  have hnd := h.flNodup k hk
  have hseg := h.seg k hk
  rw [hl] at hnd hseg
  have hmid := Seg.mid l1 0 hseg
  have hnz := Seg.ne_zero _ _ _ hseg
  have hb0 : b ≠ 0 := hnz b (by simp)
  have hb1 : b ∉ l1 := fun hx => by
    have := List.disjoint_of_nodup_append hnd hx
    exact this (List.mem_cons_self _ _)
  have hb2 : b ∉ l2 := by
    have := (List.nodup_append.mp hnd).2.1
    exact (List.nodup_cons.mp this).1
  have hl12 : ∀ x, x ∈ l1 → x ∉ l2 := fun x hx hx2 =>
    List.disjoint_of_nodup_append hnd hx (List.mem_cons_of_mem _ hx2)
  have herase : (fl k).erase b = l1 ++ l2 := by
    rw [hl, List.erase_append_right _ hb1, List.erase_cons_head]
  have hpv : (l1 = [] ∧ (a.mem b).prev = 0) ∨ (a.mem b).prev ∈ l1 := by
    rw [hmid.1]; exact getLastD_mem l1 0
  have hnx : (l2 = [] ∧ (a.mem b).next = 0) ∨ (a.mem b).next ∈ l2 := by
    rw [hmid.2]; exact headD_mem l2 0
  have hsub1 : ∀ x, x ∈ l1 → x ∈ fl k := fun x hx => by rw [hl]; exact List.mem_append_left _ hx
  have hsub2 : ∀ x, x ∈ l2 → x ∈ fl k := fun x hx => by
    rw [hl]; exact List.mem_append_right _ (List.mem_cons_of_mem _ hx)
  have hpvb : (a.mem b).prev ≠ b := by
    rcases hpv with ⟨_, h0⟩ | hin
    · rw [h0]; exact Ne.symm hb0
    · intro hh; rw [hh] at hin; exact hb1 hin
  have hnxb : (a.mem b).next ≠ b := by
    rcases hnx with ⟨_, h0⟩ | hin
    · rw [h0]; exact Ne.symm hb0
    · intro hh; rw [hh] at hin; exact hb2 hin
  -- blocks outside list `k` keep their headers
  have hframe : ∀ x, x ≠ 0 → x ∉ fl k → (a.removeFromFreeList b k).mem x = a.mem x := by
    intro x hx0 hxk
    apply remove_mem_other a b k x (fun hh => hxk (hh ▸ hb)) _ _ hpvb
    · rcases hpv with ⟨_, h0⟩ | hin
      · rw [h0]; exact hx0
      · intro hh; rw [← hh] at hin; exact hxk (hsub1 x hin)
    · rcases hnx with ⟨_, h0⟩ | hin
      · rw [h0]; exact hx0
      · intro hh; rw [← hh] at hin; exact hxk (hsub2 x hin)
  have hupd_ne : ∀ k2, k2 ≠ k → Function.update fl k ((fl k).erase b) k2 = fl k2 :=
    fun k2 hne => Function.update_noteq hne _ _
  have hupd_eq : Function.update fl k ((fl k).erase b) k = l1 ++ l2 := by
    rw [Function.update_same, herase]
  have hmem_upd : ∀ k2 x, k2 ≤ c.top → x ∈ Function.update fl k ((fl k).erase b) k2 →
      x ∈ fl k2 ∧ x ≠ b := by
    intro k2 x hk2t hx
    by_cases hk2 : k2 = k
    · subst hk2
      rw [hupd_eq] at hx
      rcases List.mem_append.mp hx with h1 | h2
      · exact ⟨hsub1 x h1, fun hh => hb1 (hh ▸ h1)⟩
      · exact ⟨hsub2 x h2, fun hh => hb2 (hh ▸ h2)⟩
    · rw [hupd_ne k2 hk2] at hx
      refine ⟨hx, fun hh => ?_⟩
      subst hh
      exact hk2 (h.free_unique hk2t hk hx hb)
  have hmem_upd2 : ∀ k2 x, x ∈ fl k2 → x ≠ b → x ∈ Function.update fl k ((fl k).erase b) k2 := by
    intro k2 x hx hne
    by_cases hk2 : k2 = k
    · subst hk2
      rw [Function.update_same]
      exact (List.mem_erase_of_ne hne).mpr hx
    · rw [hupd_ne k2 hk2]; exact hx
  have hbal : ∀ s, (b, s) ∉ al := fun s => h.freeNotLive k b s hk hb
  have hlen : k < a.freeLists.length := by rw [h.len]; omega
  constructor
  · rw [remove_memoryStart]; exact h.start
  · rw [remove_totalMemorySize]; exact h.total
  · rw [remove_minBlockSize]; exact h.minb
  · rw [remove_freeLists]; split_ifs
    · exact h.len
    · rw [List.length_set]; exact h.len
  · -- heads
    intro k2 hk2
    by_cases hkk : k2 = k
    · subst hkk
      rw [hupd_eq]
      rcases hpv with ⟨hl1, h0⟩ | hin
      · have hfl : (a.removeFromFreeList b k2).freeLists = a.freeLists.set k2 (a.mem b).next := by
          rw [remove_freeLists, if_neg (by simp [h0])]
        rw [head_of_set hfl, if_pos ⟨rfl, hlen⟩, hl1, List.nil_append, hmid.2]
      · have hp0 : (a.mem b).prev ≠ 0 := hnz _ (List.mem_append_left _ hin)
        have hfl : (a.removeFromFreeList b k2).freeLists = a.freeLists := by
          rw [remove_freeLists, if_pos hp0]
        rw [head_congr hfl, h.heads k2 hk2, hl]
        cases l1 with
        | nil => simp at hin
        | cons d l3 => rfl
    · rw [hupd_ne k2 hkk, ← h.heads k2 hk2]
      by_cases hp0 : (a.mem b).prev ≠ 0
      · exact head_congr (by rw [remove_freeLists, if_pos hp0]) k2
      · have hfl : (a.removeFromFreeList b k).freeLists = a.freeLists.set k (a.mem b).next := by
          rw [remove_freeLists, if_neg hp0]
        rw [head_of_set hfl, if_neg (fun hh => hkk hh.1.symm)]
  · -- the linked runs
    intro k2 hk2
    by_cases hkk : k2 = k
    · subst hkk
      rw [hupd_eq]
      apply Seg.unlink l1 0 hseg hnd (fun hh => hnz 0 hh rfl)
      · intro x hx h1 h2
        have hxb : x ≠ b := by
          rcases List.mem_append.mp hx with h3 | h3
          · exact fun hh => hb1 (hh ▸ h3)
          · exact fun hh => hb2 (hh ▸ h3)
        exact remove_mem_other a b k2 x hxb h1 h2 hpvb
      · intro x hx h1
        have hx0 : x ≠ 0 := by
          rcases List.mem_append.mp hx with h3 | h3
          · exact hnz x (List.mem_append_left _ h3)
          · exact hnz x (List.mem_append_right _ (List.mem_cons_of_mem _ h3))
        have hxb : x ≠ b := by rw [h1]; exact hpvb
        have hxl1 : x ∈ l1 := by
          rcases hpv with ⟨_, h0⟩ | hin
          · exact absurd (h1.trans h0) hx0
          · rw [h1]; exact hin
        apply remove_mem_prev a b k2 x hxb h1 hx0
        rcases hnx with ⟨_, h0⟩ | hin
        · rw [h0]; exact hx0
        · intro hh; rw [← hh] at hin; exact hl12 x hxl1 hin
      · intro x hx h1
        have hx0 : x ≠ 0 := by
          rcases List.mem_append.mp hx with h3 | h3
          · exact hnz x (List.mem_append_left _ h3)
          · exact hnz x (List.mem_append_right _ (List.mem_cons_of_mem _ h3))
        have hxb : x ≠ b := by rw [h1]; exact hnxb
        have hxl2 : x ∈ l2 := by
          rcases hnx with ⟨_, h0⟩ | hin
          · exact absurd (h1.trans h0) hx0
          · rw [h1]; exact hin
        apply remove_mem_next a b k2 x hxb h1 hx0 _ hpvb
        rcases hpv with ⟨_, h0⟩ | hin
        · rw [h0]; exact hx0
        · intro hh; rw [← hh] at hin; exact hl12 x hin hxl2
    · rw [hupd_ne k2 hkk]
      apply Seg.frame _ _ _ _ (h.seg k2 hk2)
      intro x hx
      apply hframe x (Seg.ne_zero _ _ _ (h.seg k2 hk2) x hx)
      intro hxk
      exact hkk (h.free_unique hk2 hk hx hxk)
  · -- no repetition in the lists
    intro k2 hk2
    by_cases hkk : k2 = k
    · subst hkk
      rw [Function.update_same]
      exact (h.flNodup k2 hk2).erase b
    · rw [hupd_ne k2 hkk]; exact h.flNodup k2 hk2
  · -- headers of the blocks out of the lists
    intro p s hp
    rcases List.mem_cons.mp hp with heq | hp
    · cases heq
      rw [remove_mem_self a b k hpvb hnxb, Seg.size_eq _ _ _ hseg b (by simp)]
    · rw [hframe p (h.al_ne_zero hc hp) (fun hh => h.freeNotLive k p s hk hh hp)]
      exact h.alHdr p s hp
  · rw [List.map_cons, List.nodup_cons]
    refine ⟨?_, h.alNodup⟩
    intro hh
    obtain ⟨⟨p, s⟩, he, hpe⟩ := List.mem_map.mp hh
    simp only at hpe
    subst hpe
    exact hbal s he
  · intro k2 x s hk2 hx hxs
    obtain ⟨hx1, hx2⟩ := hmem_upd k2 x hk2 hx
    rcases List.mem_cons.mp hxs with heq | hxs
    · cases heq; exact hx2 rfl
    · exact h.freeNotLive k2 x s hk2 hx1 hxs
  · apply Tiling.of_iff _ h.tiling
    intro x t
    constructor
    · rintro (⟨k2, hk2, ht, hx⟩ | hx)
      · exact Or.inl ⟨k2, hk2, ht, (hmem_upd k2 x hk2 hx).1⟩
      · rcases List.mem_cons.mp hx with heq | hx
        · cases heq; exact Or.inl ⟨k, hk, rfl, hb⟩
        · exact Or.inr hx
    · rintro (⟨k2, hk2, ht, hx⟩ | hx)
      · by_cases hxb : x = b
        · subst hxb
          have := h.free_unique hk2 hk hx hb
          subst this
          exact Or.inr (by rw [ht]; exact List.mem_cons_self _ _)
        · exact Or.inl ⟨k2, hk2, ht, hmem_upd2 k2 x hx hxb⟩
      · exact Or.inr (List.mem_cons_of_mem _ hx)

/-- Putting a block that is out of the lists at the head of the free list of
its class. -/
theorem Inv.put_back {c : Config} {a : BuddyAllocator} {fl : Nat → List Nat}
    {al : List (Nat × Nat)} {k b : Nat} (hc : c.Valid)
    (h : Inv c a fl ((b, c.classSize k) :: al)) (hk : k ≤ c.top) :
    Inv c (a.addToFreeList b k) (Function.update fl k (b :: fl k)) al := by
  have hbin : (b, c.classSize k) ∈ (b, c.classSize k) :: al := List.mem_cons_self _ _
  have hb0 : b ≠ 0 := h.al_ne_zero hc hbin
  have hbfree : ∀ k2, k2 ≤ c.top → b ∉ fl k2 := fun k2 hk2 hh =>
    h.freeNotLive k2 b _ hk2 hh hbin
  have hbal : b ∉ al.map Prod.fst := by
    have := h.alNodup
    rw [List.map_cons, List.nodup_cons] at this
    exact this.1
  have hbal2 : ∀ s, (b, s) ∉ al := fun s hh => hbal (List.mem_map.mpr ⟨(b, s), hh, rfl⟩)
  have hhdr := h.alHdr b _ hbin
  have hseg := h.seg k hk
  have hnd := h.flNodup k hk
  have hhead := h.heads k hk
  have hhd : (fl k = [] ∧ a.head k = 0) ∨ a.head k ∈ fl k := by
    rw [hhead]; exact headD_mem (fl k) 0
  have hhb : a.head k ≠ b := by
    rcases hhd with ⟨_, h0⟩ | hin
    · rw [h0]; exact Ne.symm hb0
    · intro hh; rw [hh] at hin; exact hbfree k hk hin
  have hlen : k < a.freeLists.length := by rw [h.len]; omega
  have hframe : ∀ x, x ≠ 0 → x ≠ b → x ∉ fl k → (a.addToFreeList b k).mem x = a.mem x := by
    intro x hx0 hxb hxk
    apply add_mem_other a b k x hxb
    rcases hhd with ⟨_, h0⟩ | hin
    · rw [h0]; exact hx0
    · intro hh; rw [← hh] at hin; exact hxk hin
  have hupd_ne : ∀ k2, k2 ≠ k → Function.update fl k (b :: fl k) k2 = fl k2 :=
    fun k2 hne => Function.update_noteq hne _ _
  constructor
  · rw [add_memoryStart]; exact h.start
  · rw [add_totalMemorySize]; exact h.total
  · rw [add_minBlockSize]; exact h.minb
  · rw [add_freeLists, List.length_set]; exact h.len
  · intro k2 hk2
    rw [head_of_set (add_freeLists a b k)]
    by_cases hkk : k2 = k
    · subst hkk
      rw [if_pos ⟨rfl, hlen⟩, Function.update_same]; rfl
    · rw [if_neg (fun hh => hkk hh.1.symm), hupd_ne k2 hkk]; exact h.heads k2 hk2
  · intro k2 hk2
    by_cases hkk : k2 = k
    · subst hkk
      rw [Function.update_same]
      apply Seg.link hseg hb0 (hbfree k2 hk2) hnd
      · rw [add_mem_self a b k2 hhb, hhdr, hhead]
      · intro x hx hne
        exact add_mem_other a b k2 x (fun hh => hbfree k2 hk2 (hh ▸ hx)) (by rw [hhead]; exact hne)
      · intro x hx he
        exact add_mem_head a b k2 x (fun hh => hbfree k2 hk2 (hh ▸ hx)) (by rw [hhead]; exact he)
          (Seg.ne_zero _ _ _ hseg x hx)
    · rw [hupd_ne k2 hkk]
      apply Seg.frame _ _ _ _ (h.seg k2 hk2)
      intro x hx
      apply hframe x (Seg.ne_zero _ _ _ (h.seg k2 hk2) x hx) (fun hh => hbfree k2 hk2 (hh ▸ hx))
      intro hxk
      exact hkk (h.free_unique hk2 hk hx hxk)
  · intro k2 hk2
    by_cases hkk : k2 = k
    · subst hkk
      rw [Function.update_same]
      exact List.nodup_cons.mpr ⟨hbfree k2 hk2, hnd⟩
    · rw [hupd_ne k2 hkk]; exact h.flNodup k2 hk2
  · intro p s hp
    have hp2 : (p, s) ∈ (b, c.classSize k) :: al := List.mem_cons_of_mem _ hp
    have hpb : p ≠ b := fun hh => hbal2 s (hh ▸ hp)
    rw [hframe p (h.al_ne_zero hc hp2) hpb (fun hh => h.freeNotLive k p s hk hh hp2)]
    exact h.alHdr p s hp2
  · have := h.alNodup
    rw [List.map_cons, List.nodup_cons] at this
    exact this.2
  · intro k2 x s hk2 hx hxs
    by_cases hkk : k2 = k
    · subst hkk
      rw [Function.update_same] at hx
      rcases List.mem_cons.mp hx with heq | hx
      · subst heq; exact hbal2 s hxs
      · exact h.freeNotLive k2 x s hk2 hx (List.mem_cons_of_mem _ hxs)
    · rw [hupd_ne k2 hkk] at hx
      exact h.freeNotLive k2 x s hk2 hx (List.mem_cons_of_mem _ hxs)
  · apply Tiling.of_iff _ h.tiling
    intro x t
    constructor
    · rintro (⟨k2, hk2, ht, hx⟩ | hx)
      · by_cases hkk : k2 = k
        · subst hkk
          rw [Function.update_same] at hx
          rcases List.mem_cons.mp hx with heq | hx
          · subst heq; exact Or.inr (by rw [ht]; exact List.mem_cons_self _ _)
          · exact Or.inl ⟨k2, hk2, ht, hx⟩
        · rw [hupd_ne k2 hkk] at hx
          exact Or.inl ⟨k2, hk2, ht, hx⟩
      · exact Or.inr (List.mem_cons_of_mem _ hx)
    · rintro (⟨k2, hk2, ht, hx⟩ | hx)
      · refine Or.inl ⟨k2, hk2, ht, ?_⟩
        by_cases hkk : k2 = k
        · subst hkk
          rw [Function.update_same]; exact List.mem_cons_of_mem _ hx
        · rw [hupd_ne k2 hkk]; exact hx
      · rcases List.mem_cons.mp hx with heq | hx
        · cases heq
          exact Or.inl ⟨k, hk, rfl, by rw [Function.update_same]; exact List.mem_cons_self _ _⟩
        · exact Or.inr hx

/-- The invariant only looks at which blocks are out of the lists. -/
theorem Inv.al_congr {c : Config} {a : BuddyAllocator} {fl : Nat → List Nat}
    {al al2 : List (Nat × Nat)} (h : Inv c a fl al) (hmem : ∀ e, e ∈ al2 ↔ e ∈ al)
    (hnd : (al2.map Prod.fst).Nodup) : Inv c a fl al2 where
  start := h.start
  total := h.total
  minb := h.minb
  len := h.len
  heads := h.heads
  seg := h.seg
  flNodup := h.flNodup
  alHdr := fun p s hp => h.alHdr p s ((hmem _).mp hp)
  alNodup := hnd
  freeNotLive := fun k b s hk hb hbs => h.freeNotLive k b s hk hb ((hmem _).mp hbs)
  tiling := by
    apply Tiling.of_iff _ h.tiling
    intro x t
    unfold Blk
    rw [hmem]

/-- The heap changes only at addresses that are not block starts of a list. -/
theorem Inv.mem_congr {c : Config} {a a2 : BuddyAllocator} {fl : Nat → List Nat}
    {al al2 : List (Nat × Nat)} (h : Inv c a fl al)
    (h1 : a2.memoryStart = a.memoryStart) (h2 : a2.totalMemorySize = a.totalMemorySize)
    (h3 : a2.minBlockSize = a.minBlockSize) (h4 : a2.freeLists = a.freeLists)
    (hfree : ∀ k x, k ≤ c.top → x ∈ fl k → a2.mem x = a.mem x)
    (hhdr : ∀ p s, (p, s) ∈ al2 → a2.mem p = { size := s, prev := 0, next := 0 })
    (hnd : (al2.map Prod.fst).Nodup)
    (hfnl : ∀ k b s, k ≤ c.top → b ∈ fl k → (b, s) ∉ al2)
    (ht : Tiling c (Blk c fl al2)) : Inv c a2 fl al2 where
  start := by rw [h1]; exact h.start
  total := by rw [h2]; exact h.total
  minb := by rw [h3]; exact h.minb
  len := by rw [h4]; exact h.len
  heads := fun k hk => by rw [head_congr h4]; exact h.heads k hk
  seg := fun k hk => Seg.frame _ _ _ (fun x hx => hfree k x hk hx) (h.seg k hk)
  flNodup := h.flNodup
  alHdr := hhdr
  alNodup := hnd
  freeNotLive := hfnl
  tiling := ht

/-- Halving a block that is out of the lists. -/
theorem Inv.split_block {c : Config} {a : BuddyAllocator} {fl : Nat → List Nat}
    {al : List (Nat × Nat)} {b : Nat} (k : Nat) (_hc : c.Valid)
    (h : Inv c a fl ((b, c.classSize (k + 1)) :: al)) :
    Inv c ((((a.setSize (b + c.classSize k) (c.classSize k)).setPrev (b + c.classSize k) 0).setNext
        (b + c.classSize k) 0).setSize b (c.classSize k)) fl
      ((b + c.classSize k, c.classSize k) :: (b, c.classSize k) :: al) := by
  have hpos := classSize_pos c k
  have h2s := classSize_succ c k
  have hbin : (b, c.classSize (k + 1)) ∈ (b, c.classSize (k + 1)) :: al := List.mem_cons_self _ _
  have hB : Blk c fl ((b, c.classSize (k + 1)) :: al) b (c.classSize (k + 1)) := Or.inr hbin
  have hhdr := h.alHdr b _ hbin
  have hnd := h.alNodup
  rw [List.map_cons, List.nodup_cons] at hnd
  have hbal : ∀ s, (b, s) ∉ al := fun s hh => hnd.1 (List.mem_map.mpr ⟨(b, s), hh, rfl⟩)
  -- the midpoint is not the start of any block
  have hmid : ∀ t, ¬ Blk c fl ((b, c.classSize (k + 1)) :: al) (b + c.classSize k) t := by
    intro t ht
    have hp2 : 0 < t := by
      obtain ⟨k2, _, rfl⟩ := h.tiling.size _ _ ht
      exact classSize_pos c k2
    rcases h.tiling.disj _ _ _ _ ht hB with ⟨h3, _⟩ | h3 | h3 <;> omega
  have hmidfree : ∀ k2, k2 ≤ c.top → b + c.classSize k ∉ fl k2 := fun k2 hk2 hh =>
    hmid _ (Inv.free_blk hk2 hh)
  have hmidal : ∀ s, (b + c.classSize k, s) ∉ al := fun s hh =>
    hmid s (Or.inr (List.mem_cons_of_mem _ hh))
  have hbfree : ∀ k2, k2 ≤ c.top → b ∉ fl k2 := fun k2 hk2 hh =>
    h.freeNotLive k2 b _ hk2 hh hbin
  have hne : b + c.classSize k ≠ b := by omega
  apply Inv.mem_congr h
  · rfl
  · rfl
  · rfl
  · rfl
  · intro k2 x hk2 hx
    have h1 : x ≠ b := fun hh => hbfree k2 hk2 (hh ▸ hx)
    have h2 : x ≠ b + c.classSize k := fun hh => hmidfree k2 hk2 (hh ▸ hx)
    simp only [mem_setSize, mem_setPrev, mem_setNext, h1, h2, if_false]
  · intro p s hp
    rcases List.mem_cons.mp hp with heq | hp
    · cases heq
      simp only [mem_setSize, mem_setPrev, mem_setNext, hne, if_false, if_true]
    · rcases List.mem_cons.mp hp with heq | hp
      · cases heq
        simp only [mem_setSize, mem_setPrev, mem_setNext, Ne.symm hne, if_false, if_true, hhdr]
      · have h1 : p ≠ b := fun hh => hbal s (hh ▸ hp)
        have h2 : p ≠ b + c.classSize k := fun hh => hmidal s (hh ▸ hp)
        simp only [mem_setSize, mem_setPrev, mem_setNext, h1, h2, if_false]
        exact h.alHdr p s (List.mem_cons_of_mem _ hp)
  · simp only [List.map_cons, List.nodup_cons, List.mem_cons, List.mem_map, not_or]
    refine ⟨⟨hne, ?_⟩, ?_, hnd.2⟩
    · rintro ⟨⟨p, s⟩, hp, he⟩
      simp only at he; subst he
      exact hmidal s hp
    · rintro ⟨⟨p, s⟩, hp, he⟩
      simp only at he; subst he
      exact hbal s hp
  · intro k2 x s hk2 hx hxs
    rcases List.mem_cons.mp hxs with heq | hxs
    · cases heq; exact hmidfree k2 hk2 hx
    · rcases List.mem_cons.mp hxs with heq | hxs
      · cases heq; exact hbfree k2 hk2 hx
      · exact h.freeNotLive k2 x s hk2 hx (List.mem_cons_of_mem _ hxs)
  · apply Tiling.of_iff _ (Tiling.halve h.tiling hB)
    intro x t
    constructor
    · rintro (⟨k2, hk2, ht, hx⟩ | hx)
      · exact Or.inl ⟨Or.inl ⟨k2, hk2, ht, hx⟩, fun hh => hbfree k2 hk2 (hh ▸ hx)⟩
      · rcases List.mem_cons.mp hx with heq | hx
        · cases heq; exact Or.inr (Or.inr ⟨rfl, rfl⟩)
        · rcases List.mem_cons.mp hx with heq | hx
          · cases heq; exact Or.inr (Or.inl ⟨rfl, rfl⟩)
          · exact Or.inl ⟨Or.inr (List.mem_cons_of_mem _ hx), fun hh => hbal t (hh ▸ hx)⟩
    · rintro (⟨hB2, hxb⟩ | ⟨rfl, rfl⟩ | ⟨rfl, rfl⟩)
      · rcases hB2 with hf | hx
        · exact Or.inl hf
        · rcases List.mem_cons.mp hx with heq | hx
          · cases heq; exact absurd rfl hxb
          · exact Or.inr (List.mem_cons_of_mem _ (List.mem_cons_of_mem _ hx))
      · exact Or.inr (List.mem_cons_of_mem _ (List.mem_cons_self _ _))
      · exact Or.inr (List.mem_cons_self _ _)

/-- Joining two buddies that are out of the lists. -/
theorem Inv.merge_buddies {c : Config} {a : BuddyAllocator} {fl : Nat → List Nat}
    {al : List (Nat × Nat)} {k lo : Nat} (_hc : c.Valid)
    (h : Inv c a fl ((lo, c.classSize k) :: (lo + c.classSize k, c.classSize k) :: al))
    (hk : k < c.top) (hal : c.classSize (k + 1) ∣ lo) :
    Inv c (a.setSize lo (c.classSize (k + 1))) fl ((lo, c.classSize (k + 1)) :: al) := by
  have hpos := classSize_pos c k
  have hin1 : (lo, c.classSize k) ∈
      (lo, c.classSize k) :: (lo + c.classSize k, c.classSize k) :: al := List.mem_cons_self _ _
  have hin2 : (lo + c.classSize k, c.classSize k) ∈
      (lo, c.classSize k) :: (lo + c.classSize k, c.classSize k) :: al :=
    List.mem_cons_of_mem _ (List.mem_cons_self _ _)
  have hhdr := h.alHdr lo _ hin1
  have hnd := h.alNodup
  simp only [List.map_cons, List.nodup_cons, List.mem_cons, not_or] at hnd
  have hlo_al : ∀ s, (lo, s) ∉ al := fun s hh => hnd.1.2 (List.mem_map.mpr ⟨(lo, s), hh, rfl⟩)
  have hhi_al : ∀ s, (lo + c.classSize k, s) ∉ al := fun s hh =>
    hnd.2.1 (List.mem_map.mpr ⟨(lo + c.classSize k, s), hh, rfl⟩)
  have hlo_free : ∀ k2, k2 ≤ c.top → lo ∉ fl k2 := fun k2 hk2 hh =>
    h.freeNotLive k2 lo _ hk2 hh hin1
  have hhi_free : ∀ k2, k2 ≤ c.top → lo + c.classSize k ∉ fl k2 := fun k2 hk2 hh =>
    h.freeNotLive k2 _ _ hk2 hh hin2
  apply Inv.mem_congr h
  · rfl
  · rfl
  · rfl
  · rfl
  · intro k2 x hk2 hx
    have h1 : x ≠ lo := fun hh => hlo_free k2 hk2 (hh ▸ hx)
    simp only [mem_setSize, h1, if_false]
  · intro p s hp
    rcases List.mem_cons.mp hp with heq | hp
    · cases heq
      simp only [mem_setSize, if_true, hhdr]
    · have h1 : p ≠ lo := fun hh => hlo_al s (hh ▸ hp)
      simp only [mem_setSize, h1, if_false]
      exact h.alHdr p s (List.mem_cons_of_mem _ (List.mem_cons_of_mem _ hp))
  · rw [List.map_cons, List.nodup_cons]
    exact ⟨hnd.1.2, hnd.2.2⟩
  · intro k2 x s hk2 hx hxs
    rcases List.mem_cons.mp hxs with heq | hxs
    · cases heq; exact hlo_free k2 hk2 hx
    · exact h.freeNotLive k2 x s hk2 hx (List.mem_cons_of_mem _ (List.mem_cons_of_mem _ hxs))
  · apply Tiling.of_iff _ (Tiling.join h.tiling hk (Or.inr hin1) (Or.inr hin2) hal)
    intro x t
    constructor
    · rintro (⟨k2, hk2, ht, hx⟩ | hx)
      · exact Or.inl ⟨Or.inl ⟨k2, hk2, ht, hx⟩, fun hh => hlo_free k2 hk2 (hh ▸ hx),
          fun hh => hhi_free k2 hk2 (hh ▸ hx)⟩
      · rcases List.mem_cons.mp hx with heq | hx
        · cases heq; exact Or.inr ⟨rfl, rfl⟩
        · exact Or.inl ⟨Or.inr (List.mem_cons_of_mem _ (List.mem_cons_of_mem _ hx)),
            fun hh => hlo_al t (hh ▸ hx), fun hh => hhi_al t (hh ▸ hx)⟩
    · rintro (⟨hB2, hx1, hx2⟩ | ⟨rfl, rfl⟩)
      · rcases hB2 with hf | hx
        · exact Or.inl hf
        · rcases List.mem_cons.mp hx with heq | hx
          · cases heq; exact absurd rfl hx1
          · rcases List.mem_cons.mp hx with heq | hx
            · cases heq; exact absurd rfl hx2
            · exact Or.inr (List.mem_cons_of_mem _ hx)
      · exact Or.inr (List.mem_cons_self _ _)

/-! ## `allocate` -/

theorem setPrev_id (a : BuddyAllocator) (p v : Nat) (h : (a.mem p).prev = v) :
    a.setPrev p v = a := by
  unfold BuddyAllocator.setPrev
  have : (fun q => if q = p then { a.mem q with prev := v } else a.mem q) = a.mem := by
    funext q
    by_cases hq : q = p
    · subst hq; rw [if_pos rfl, ← h]
    · rw [if_neg hq]
  rw [this]

theorem setNext_id (a : BuddyAllocator) (p v : Nat) (h : (a.mem p).next = v) :
    a.setNext p v = a := by
  unfold BuddyAllocator.setNext
  have : (fun q => if q = p then { a.mem q with next := v } else a.mem q) = a.mem := by
    funext q
    by_cases hq : q = p
    · subst hq; rw [if_pos rfl, ← h]
    · rw [if_neg hq]
  rw [this]

theorem findList_some (a : BuddyAllocator) : ∀ (f i0 i : Nat), a.findList f i0 = some i →
    i0 ≤ i ∧ i < i0 + f ∧ a.head i ≠ 0 ∧ ∀ k, i0 ≤ k → k < i → a.head k = 0
  | 0, _, _, h => by simp [BuddyAllocator.findList] at h
  | f + 1, i0, i, h => by
    unfold BuddyAllocator.findList at h
    by_cases hh : a.head i0 ≠ 0
    · rw [if_pos hh] at h
      cases h
      exact ⟨le_refl _, by omega, hh, fun k h1 h2 => by omega⟩
    · rw [if_neg hh] at h
      obtain ⟨h1, h2, h3, h4⟩ := findList_some a f (i0 + 1) i h
      refine ⟨by omega, by omega, h3, fun k hk1 hk2 => ?_⟩
      rcases Nat.eq_or_lt_of_le hk1 with heq | hlt
      · subst heq; exact not_not.mp hh
      · exact h4 k hlt hk2

theorem findList_none (a : BuddyAllocator) : ∀ (f i0 : Nat),
    a.findList f i0 = none ↔ ∀ k, i0 ≤ k → k < i0 + f → a.head k = 0
  | 0, i0 => by
    simp only [BuddyAllocator.findList, true_iff]
    intro k h1 h2; omega
  | f + 1, i0 => by
    unfold BuddyAllocator.findList
    by_cases hh : a.head i0 ≠ 0
    · rw [if_pos hh]
      constructor
      · intro h; cases h
      · intro h; exact absurd (h i0 (le_refl _) (by omega)) hh
    · rw [if_neg hh, findList_none a f (i0 + 1)]
      constructor
      · intro h k hk1 hk2
        rcases Nat.eq_or_lt_of_le hk1 with heq | hlt
        · subst heq; exact not_not.mp hh
        · exact h k hlt (by omega)
      · intro h k hk1 hk2
        exact h k (by omega) (by omega)

theorem classSize_lt_two_pow_32 (c : Config) (hc : c.Valid) (k : Nat) (hk : k ≤ c.top) :
    c.classSize k < 2 ^ 32 := by
  have h1 := hc.1
  have h2 := hc.2.1
  unfold Config.top at hk
  exact Nat.pow_lt_pow_right (by decide) (by omega)

theorem index_classSize {c : Config} {a : BuddyAllocator} (hc : c.Valid)
    (hm : a.minBlockSize = c.minSize) {k : Nat} (hk : k ≤ c.top) :
    a.indexFromBlockSize (c.classSize k) = k := by
  have h1 := hc.1
  have h2 := hc.2.1
  unfold Config.top at hk
  unfold Config.classSize
  rw [index_two_pow a c.logMin (c.logMin + k) hm (by omega) (by omega)]
  omega

theorem classSize_shiftRight (c : Config) (k : Nat) :
    c.classSize (k + 1) >>> 1 = c.classSize k := by
  rw [Nat.shiftRight_eq_div_pow, classSize_succ]
  omega

/-- The splitting loop, started on a block of class `k0 + d` that is out of the
lists, ends with that block at class `k0` and the split-off halves in the lists. -/
theorem Inv.split_loop {c : Config} {al : List (Nat × Nat)} {b k0 size : Nat} (hc : c.Valid)
    (hsize : ∀ j, k0 ≤ j → j ≤ c.top → (c.classSize j > size ↔ k0 < j)) :
    ∀ (d fuel : Nat) (a : BuddyAllocator) (fl : Nat → List Nat), d ≤ fuel → k0 + d ≤ c.top →
      Inv c a fl ((b, c.classSize (k0 + d)) :: al) →
      ∃ fl2, Inv c (BuddyAllocator.splitLoop fuel a b size) fl2 ((b, c.classSize k0) :: al)
  | 0, fuel, a, fl, _, hk, h => by
    have hhdr := h.alHdr b _ (List.mem_cons_self _ _)
    have hnot : ¬ (a.mem b).size > size := by
      rw [hhdr]
      exact fun hh => absurd ((hsize k0 (le_refl _) (by omega)).mp hh) (lt_irrefl _)
    refine ⟨fl, ?_⟩
    cases fuel with
    | zero => exact h
    | succ fuel =>
      unfold BuddyAllocator.splitLoop
      rw [if_neg hnot]
      exact h
  | d + 1, 0, _, _, hf, _, _ => by omega
  | d + 1, fuel + 1, a, fl, hf, hk, h => by
    have hhdr := h.alHdr b _ (List.mem_cons_self _ _)
    have hgt : (a.mem b).size > size := by
      rw [hhdr]
      exact (hsize (k0 + (d + 1)) (by omega) hk).mpr (by omega)
    unfold BuddyAllocator.splitLoop
    rw [if_pos hgt]
    have hsz : (a.mem b).size = c.classSize (k0 + d + 1) := by rw [hhdr]; rfl
    simp only [hsz, classSize_shiftRight]
    have hidx : ((((a.setSize (b + c.classSize (k0 + d)) (c.classSize (k0 + d))).setPrev
        (b + c.classSize (k0 + d)) 0).setNext (b + c.classSize (k0 + d)) 0).indexFromBlockSize
        (c.classSize (k0 + d))) = k0 + d :=
      index_classSize hc h.minb (by omega)
    rw [hidx, add_setSize_comm]
    have h1 := Inv.split_block (k0 + d) hc h
    have h2 := Inv.put_back hc h1 (by omega)
    exact Inv.split_loop hc hsize d fuel _ _ (by omega) (by omega) h2

/-- The class that a request is served from, as `allocate` computes it. -/
theorem round_facts {c : Config} {a : BuddyAllocator} (hc : c.Valid)
    (hm : a.minBlockSize = c.minSize) {n : Nat} (hn : n ≤ 2 ^ 31) :
    ∃ k0, roundUp c.minSize n = c.classSize k0 ∧ c.logMin + k0 ≤ 31 ∧
      a.indexFromBlockSize (a.roundedSize n) = k0 ∧
      (∀ j, k0 ≤ j → j ≤ c.top → (c.classSize j > a.roundedSize n ↔ k0 < j)) := by
  have h1 := hc.1
  have h2 := hc.2.1
  obtain ⟨j, hj1, hj2, hj3, hj4⟩ := roundedSize_cases a c.logMin n hm hn
  have hj31 : j ≤ 31 := by omega
  have hcs : c.classSize (j - c.logMin) = 2 ^ j := by
    unfold Config.classSize; congr 1; omega
  refine ⟨j - c.logMin, by rw [hcs]; exact hj3, by omega, ?_, ?_⟩
  · rcases hj4 with h | ⟨h31, _, h⟩
    · rw [h]; exact index_two_pow a c.logMin j hm hj1 (by omega)
    · rw [h, h31]; exact index_int_min a c.logMin hm (by omega)
  · intro i hi1 hi2
    rcases hj4 with h | ⟨h31, _, h⟩
    · rw [h, ← hcs]
      constructor
      · intro hlt
        by_contra hcon
        have : i = j - c.logMin := by omega
        rw [this] at hlt
        exact lt_irrefl _ hlt
      · intro hlt; exact classSize_lt c hlt
    · have hlt := classSize_lt_two_pow_32 c hc i hi2
      unfold Config.top at hi2
      rw [h]
      constructor
      · intro hgt
        have : (2 : Nat) ^ 64 - 2 ^ 31 > 2 ^ 32 := by norm_num
        omega
      · intro hh; omega

theorem allocate_none (a : BuddyAllocator) (n : Nat)
    (h : a.findList (a.freeLists.length - a.indexFromBlockSize (a.roundedSize n))
      (a.indexFromBlockSize (a.roundedSize n)) = none) : a.allocate n = (a, 0) := by
  unfold BuddyAllocator.allocate
  simp only [h]

theorem allocate_some (a : BuddyAllocator) (n i : Nat)
    (h : a.findList (a.freeLists.length - a.indexFromBlockSize (a.roundedSize n))
      (a.indexFromBlockSize (a.roundedSize n)) = some i) :
    a.allocate n =
      (BuddyAllocator.splitLoop
        ((((a.removeFromFreeList (a.head i) i).setPrev (a.head i) 0).setNext (a.head i) 0).mem
          (a.head i)).size
        (((a.removeFromFreeList (a.head i) i).setPrev (a.head i) 0).setNext (a.head i) 0)
        (a.head i) (a.roundedSize n), a.head i) := by
  unfold BuddyAllocator.allocate
  simp only [h]

/-- What `allocate` does in a state that satisfies the invariant. -/
theorem Inv.allocate_step {c : Config} {a : BuddyAllocator} {fl : Nat → List Nat}
    {al : List (Nat × Nat)} (hc : c.Valid) (h : Inv c a fl al) {n : Nat} (hn : n ≤ 2 ^ 31) :
    ∃ k0, roundUp c.minSize n = c.classSize k0 ∧
      (((∀ k, k0 ≤ k → k ≤ c.top → a.head k = 0) ∧ a.allocate n = (a, 0)) ∨
        (∃ i fl2, k0 ≤ i ∧ i ≤ c.top ∧ a.head i ≠ 0 ∧ (∀ k, k0 ≤ k → k < i → a.head k = 0) ∧
          (a.allocate n).2 = a.head i ∧
          Inv c (a.allocate n).1 fl2 ((a.head i, c.classSize k0) :: al))) := by
  obtain ⟨k0, hr1, hr2, hr3, hr4⟩ := round_facts hc h.minb hn
  refine ⟨k0, hr1, ?_⟩
  cases hfind : a.findList (a.freeLists.length - a.indexFromBlockSize (a.roundedSize n))
      (a.indexFromBlockSize (a.roundedSize n)) with
  | none =>
    left
    refine ⟨?_, allocate_none a n hfind⟩
    rw [findList_none, hr3, h.len] at hfind
    intro k hk1 hk2
    exact hfind k hk1 (by omega)
  | some i =>
    right
    have hs := findList_some a _ _ i hfind
    rw [hr3, h.len] at hs
    obtain ⟨hs1, hs2, hs3, hs4⟩ := hs
    have hi : i ≤ c.top := by omega
    have hmem : a.head i ∈ fl i := by
      rcases headD_mem (fl i) 0 with ⟨_, h0⟩ | hin
      · rw [← h.heads i hi] at h0; exact absurd h0 hs3
      · rw [h.heads i hi]; exact hin
    have h1 := Inv.take_out hc h hi hmem
    have hhdr := h1.alHdr (a.head i) _ (List.mem_cons_self _ _)
    have e1 : (a.removeFromFreeList (a.head i) i).setPrev (a.head i) 0 =
        a.removeFromFreeList (a.head i) i := setPrev_id _ _ _ (by rw [hhdr])
    have e2 : (a.removeFromFreeList (a.head i) i).setNext (a.head i) 0 =
        a.removeFromFreeList (a.head i) i := setNext_id _ _ _ (by rw [hhdr])
    have hal := allocate_some a n i hfind
    rw [e1, e2, hhdr] at hal
    obtain ⟨d, hd⟩ : ∃ d, i = k0 + d := ⟨i - k0, by omega⟩
    subst hd
    have hfuel : d ≤ c.classSize (k0 + d) := by
      have h1 : d < 2 ^ d := Nat.lt_two_pow d
      have h2 : 2 ^ d ≤ c.classSize (k0 + d) :=
        Nat.pow_le_pow_right (by decide) (by omega)
      omega
    obtain ⟨fl2, h2⟩ := Inv.split_loop hc hr4 d (c.classSize (k0 + d)) _ _ hfuel hi h1
    refine ⟨k0 + d, fl2, hs1, hi, hs3, hs4, by rw [hal], ?_⟩
    rw [hal]
    exact h2

/-! ## `coalesce` and `deallocate` -/

theorem coalesceLoop_zero (a : BuddyAllocator) (b k : Nat) :
    BuddyAllocator.coalesceLoop 0 a b k = (a, b, false) := rfl

theorem coalesceLoop_exit (fuel : Nat) (a : BuddyAllocator) (b k : Nat)
    (h : ¬ (k < (a.freeLists.length + 2 ^ 64 - 1) % 2 ^ 64
      ∧ (a.mem b).size < a.totalMemorySize)) :
    BuddyAllocator.coalesceLoop (fuel + 1) a b k = (a, b, false) := by
  rw [BuddyAllocator.coalesceLoop]
  rw [if_neg h]

theorem coalesceLoop_return (fuel : Nat) (a : BuddyAllocator) (b k : Nat)
    (h : k < (a.freeLists.length + 2 ^ 64 - 1) % 2 ^ 64 ∧ (a.mem b).size < a.totalMemorySize)
    (hb : a.isAddressWithinBounds (b ^^^ (a.mem b).size) = false) :
    BuddyAllocator.coalesceLoop (fuel + 1) a b k = (a, b, true) := by
  rw [BuddyAllocator.coalesceLoop]
  rw [if_pos h]
  simp only [hb, Bool.not_false, if_true]

theorem coalesceLoop_end (fuel : Nat) (a : BuddyAllocator) (b k : Nat)
    (h : k < (a.freeLists.length + 2 ^ 64 - 1) % 2 ^ 64 ∧ (a.mem b).size < a.totalMemorySize)
    (hb : a.isAddressWithinBounds (b ^^^ (a.mem b).size) = true)
    (he : b + (a.mem b).size ≥ a.memoryStart + a.totalMemorySize) :
    BuddyAllocator.coalesceLoop (fuel + 1) a b k = (a, b, false) := by
  rw [BuddyAllocator.coalesceLoop]
  rw [if_pos h]
  simp only [hb, Bool.not_true, Bool.false_eq_true, if_false, if_pos he]

theorem coalesceLoop_unsuitable (fuel : Nat) (a : BuddyAllocator) (b k : Nat)
    (h : k < (a.freeLists.length + 2 ^ 64 - 1) % 2 ^ 64 ∧ (a.mem b).size < a.totalMemorySize)
    (hb : a.isAddressWithinBounds (b ^^^ (a.mem b).size) = true)
    (he : ¬ b + (a.mem b).size ≥ a.memoryStart + a.totalMemorySize)
    (hs : (a.mem (b ^^^ (a.mem b).size)).size ≠ (a.mem b).size
      ∨ ((a.mem (b ^^^ (a.mem b).size)).prev = 0 ∧ a.head k ≠ b ^^^ (a.mem b).size)) :
    BuddyAllocator.coalesceLoop (fuel + 1) a b k = (a, b, false) := by
  rw [BuddyAllocator.coalesceLoop]
  rw [if_pos h]
  simp only [hb, Bool.not_true, Bool.false_eq_true, if_false, if_neg he, if_pos hs]

theorem coalesceLoop_merge (fuel : Nat) (a : BuddyAllocator) (b k : Nat)
    (h : k < (a.freeLists.length + 2 ^ 64 - 1) % 2 ^ 64 ∧ (a.mem b).size < a.totalMemorySize)
    (hb : a.isAddressWithinBounds (b ^^^ (a.mem b).size) = true)
    (he : ¬ b + (a.mem b).size ≥ a.memoryStart + a.totalMemorySize)
    (hs : ¬ ((a.mem (b ^^^ (a.mem b).size)).size ≠ (a.mem b).size
      ∨ ((a.mem (b ^^^ (a.mem b).size)).prev = 0 ∧ a.head k ≠ b ^^^ (a.mem b).size))) :
    BuddyAllocator.coalesceLoop (fuel + 1) a b k =
      BuddyAllocator.coalesceLoop fuel
        ((a.removeFromFreeList (b ^^^ (a.mem b).size) k).setSize
          (if b < b ^^^ (a.mem b).size then b else b ^^^ (a.mem b).size)
          ((((a.removeFromFreeList (b ^^^ (a.mem b).size) k).mem
            (if b < b ^^^ (a.mem b).size then b else b ^^^ (a.mem b).size)).size <<< 1) % 2 ^ 64))
        (if b < b ^^^ (a.mem b).size then b else b ^^^ (a.mem b).size) (k + 1) := by
  rw [BuddyAllocator.coalesceLoop]
  rw [if_pos h]
  simp only [hb, Bool.not_true, Bool.false_eq_true, if_false, if_neg he, if_neg hs]

theorem Inv.bound_eq {c : Config} {a : BuddyAllocator} {fl : Nat → List Nat}
    {al : List (Nat × Nat)} (hc : c.Valid) (h : Inv c a fl al) :
    (a.freeLists.length + 2 ^ 64 - 1) % 2 ^ 64 = c.top := by
  have h1 := hc.2.1
  have : c.top ≤ c.logTotal := Nat.sub_le _ _
  rw [h.len]
  omega

theorem Inv.within {c : Config} {a : BuddyAllocator} {fl : Nat → List Nat}
    {al : List (Nat × Nat)} (hc : c.Valid) (h : Inv c a fl al) {x : Nat} (h1 : c.base ≤ x)
    (h2 : x < c.base + c.totalSize) : a.isAddressWithinBounds x = true := by
  have h3 : c.base + c.totalSize < 2 ^ 64 := hc.2.2.2.2.2
  unfold BuddyAllocator.isAddressWithinBounds
  simp only [h.start, h.total, Nat.mod_eq_of_lt h3]
  simp [h1, h2]

theorem classSize_shiftLeft (c : Config) (hc : c.Valid) {k : Nat} (hk : k < c.top) :
    (c.classSize k <<< 1) % 2 ^ 64 = c.classSize (k + 1) := by
  have h := classSize_lt_two_pow_32 c hc (k + 1) (by omega)
  rw [Nat.shiftLeft_eq, classSize_succ] at *
  omega

/-- The merging loop keeps the invariant; it never leaves through the bounds
check, and the block it ends with is out of the lists. -/
theorem Inv.coalesce_loop {c : Config} {al : List (Nat × Nat)} (hc : c.Valid) :
    ∀ (fuel : Nat) (a : BuddyAllocator) (fl : Nat → List Nat) (b k : Nat), k ≤ c.top →
      Inv c a fl ((b, c.classSize k) :: al) →
      (BuddyAllocator.coalesceLoop fuel a b k).2.2 = false ∧
      ∃ fl2 k2, k ≤ k2 ∧ k2 ≤ c.top ∧
        Inv c (BuddyAllocator.coalesceLoop fuel a b k).1 fl2
          (((BuddyAllocator.coalesceLoop fuel a b k).2.1, c.classSize k2) :: al)
  | 0, a, fl, b, k, hk, h => ⟨rfl, fl, k, le_refl _, hk, h⟩
  | fuel + 1, a, fl, b, k, hk, h => by
    have hstop : ∀ {r : BuddyAllocator × Nat × Bool}, r = (a, b, false) →
        r.2.2 = false ∧ ∃ fl2 k2, k ≤ k2 ∧ k2 ≤ c.top ∧
          Inv c r.1 fl2 ((r.2.1, c.classSize k2) :: al) := by
      intro r hr; subst hr
      exact ⟨rfl, fl, k, le_refl _, hk, h⟩
    have hbin : (b, c.classSize k) ∈ (b, c.classSize k) :: al := List.mem_cons_self _ _
    have hhdr := h.alHdr b _ hbin
    have hsz : (a.mem b).size = c.classSize k := by rw [hhdr]
    have hpos := classSize_pos c k
    by_cases hcond : k < (a.freeLists.length + 2 ^ 64 - 1) % 2 ^ 64
        ∧ (a.mem b).size < a.totalMemorySize
    swap
    · exact hstop (coalesceLoop_exit fuel a b k hcond)
    have hkt : k < c.top := by rw [← h.bound_eq hc]; exact hcond.1
    obtain ⟨hb1, hb2, hx, t, hbt, htle⟩ := Tiling.buddy hc h.tiling (Or.inr hbin) hkt
    have hwithin : a.isAddressWithinBounds (b ^^^ (a.mem b).size) = true := by
      rw [hsz]; exact h.within hc hb1 (by omega)
    by_cases he : b + (a.mem b).size ≥ a.memoryStart + a.totalMemorySize
    · exact hstop (coalesceLoop_end fuel a b k hcond hwithin he)
    by_cases hs : (a.mem (b ^^^ (a.mem b).size)).size ≠ (a.mem b).size
        ∨ ((a.mem (b ^^^ (a.mem b).size)).prev = 0 ∧ a.head k ≠ b ^^^ (a.mem b).size)
    · exact hstop (coalesceLoop_unsuitable fuel a b k hcond hwithin he hs)
    rw [coalesceLoop_merge fuel a b k hcond hwithin he hs]
    rw [hsz] at hs ⊢
    generalize hbd : b ^^^ c.classSize k = buddy at *
    have hbne : buddy ≠ b := by rcases hx with ⟨h1, _⟩ | ⟨h1, _⟩ <;> omega
    have hb0 : buddy ≠ 0 := by have := Inv.base_pos hc; omega
    rw [not_or, not_and_or, not_not, not_not] at hs
    -- the buddy is a member of free list `k`
    have hbuddy : buddy ∈ fl k := by
      rcases hbt with ⟨k2, hk2, rfl, hin⟩ | hin
      · have := Seg.size_eq _ _ _ (h.seg k2 hk2) buddy hin
        rw [hs.1] at this
        rw [classSize_inj c this]; exact hin
      · rcases List.mem_cons.mp hin with heq | hin
        · cases heq; exact absurd rfl hbne
        · have hh := h.alHdr buddy t (List.mem_cons_of_mem _ hin)
          rcases hs.2 with h1 | h1
          · rw [hh] at h1; exact absurd rfl h1
          · rcases headD_mem (fl k) 0 with ⟨_, h0⟩ | hmem
            · rw [← h.heads k hk, h1] at h0; exact absurd h0 hb0
            · rw [← h.heads k hk, h1] at hmem; exact hmem
    have h1 := Inv.take_out hc h hk hbuddy
    rcases hx with ⟨hadd, hdvd⟩ | ⟨hadd, hdvd⟩
    · have hlt : b < buddy := by omega
      simp only [if_pos hlt]
      have hh := h1.alHdr b (c.classSize k) (List.mem_cons_of_mem _ (List.mem_cons_self _ _))
      rw [hh, classSize_shiftLeft c hc hkt]
      have h2 : Inv c (a.removeFromFreeList buddy k)
          (Function.update fl k ((fl k).erase buddy))
          ((b, c.classSize k) :: (b + c.classSize k, c.classSize k) :: al) := by
        apply Inv.al_congr h1
        · intro e; rw [← hadd]
          simp only [List.mem_cons]; exact or_left_comm
        · have := h1.alNodup
          rw [← hadd]
          exact (List.Perm.nodup_iff (List.Perm.swap _ _ _)).mp this
      have h3 := Inv.merge_buddies hc h2 hkt hdvd
      obtain ⟨hr, fl2, k2, hk2, hk2t, hinv⟩ :=
        Inv.coalesce_loop hc fuel _ _ b (k + 1) (by omega) h3
      exact ⟨hr, fl2, k2, by omega, hk2t, hinv⟩
    · have hlt : ¬ b < buddy := by omega
      simp only [if_neg hlt]
      have hh := h1.alHdr buddy (c.classSize k) (List.mem_cons_self _ _)
      rw [hh, classSize_shiftLeft c hc hkt]
      rw [hadd] at h1
      have h3 := Inv.merge_buddies hc h1 hkt hdvd
      obtain ⟨hr, fl2, k2, hk2, hk2t, hinv⟩ :=
        Inv.coalesce_loop hc fuel _ _ buddy (k + 1) (by omega) h3
      exact ⟨hr, fl2, k2, by omega, hk2t, hinv⟩

/-- What `coalesce` does to a block that is out of the lists: it ends in a
free list, at its own class or a higher one. -/
theorem Inv.coalesce_step {c : Config} {a : BuddyAllocator} {fl : Nat → List Nat}
    {al : List (Nat × Nat)} {b k : Nat} (hc : c.Valid)
    (h : Inv c a fl ((b, c.classSize k) :: al)) (hk : k ≤ c.top) :
    ∃ fl2 k2, k ≤ k2 ∧ k2 ≤ c.top ∧ (a.coalesce b).head k2 ≠ 0 ∧
      Inv c (a.coalesce b) fl2 al := by
  have hhdr := h.alHdr b _ (List.mem_cons_self _ _)
  have hidx : a.indexFromBlockSize (a.mem b).size = k := by
    rw [hhdr]; exact index_classSize hc h.minb hk
  obtain ⟨hr, fl2, k2, hk2, hk2t, hinv⟩ := Inv.coalesce_loop hc (c.top - k) a fl b k hk h
  have hco : a.coalesce b =
      (BuddyAllocator.coalesceLoop (c.top - k) a b k).1.addToFreeList
        (BuddyAllocator.coalesceLoop (c.top - k) a b k).2.1
        ((BuddyAllocator.coalesceLoop (c.top - k) a b k).1.indexFromBlockSize
          ((BuddyAllocator.coalesceLoop (c.top - k) a b k).1.mem
            (BuddyAllocator.coalesceLoop (c.top - k) a b k).2.1).size) := by
    rw [BuddyAllocator.coalesce]
    simp only [hidx, h.bound_eq hc, hr, Bool.false_eq_true, if_false]
  have hhdr2 := hinv.alHdr _ _ (List.mem_cons_self _ _)
  have hidx2 := index_classSize hc hinv.minb hk2t
  rw [hhdr2] at hco
  simp only [hidx2] at hco
  have hadd := Inv.put_back hc hinv hk2t
  rw [← hco] at hadd
  refine ⟨_, k2, hk2, hk2t, ?_, hadd⟩
  rw [hadd.heads k2 hk2t, Function.update_same, List.headD_cons]
  exact hinv.al_ne_zero hc (List.mem_cons_self _ _)

theorem fst_unique {al : List (Nat × Nat)} (hnd : (al.map Prod.fst).Nodup) {e e2 : Nat × Nat}
    (he : e ∈ al) (he2 : e2 ∈ al) (h : e.1 = e2.1) : e = e2 :=
  List.inj_on_of_nodup_map hnd he he2 h

theorem mem_filter_ne {al : List (Nat × Nat)} {p : Nat} {e : Nat × Nat} :
    e ∈ al.filter (fun e => e.1 != p) ↔ e ∈ al ∧ e.1 ≠ p := by
  simp [List.mem_filter]

/-- What `deallocate` does to a block held by the client. -/
theorem Inv.deallocate_step {c : Config} {a : BuddyAllocator} {fl : Nat → List Nat}
    {al : List (Nat × Nat)} {p s : Nat} (hc : c.Valid) (h : Inv c a fl al)
    (hp : (p, s) ∈ al) :
    ∃ fl2 k k2, s = c.classSize k ∧ k ≤ k2 ∧ k2 ≤ c.top ∧ (a.deallocate p).head k2 ≠ 0 ∧
      Inv c (a.deallocate p) fl2 (al.filter (fun e => e.1 != p)) := by
  obtain ⟨k, hk, rfl⟩ := h.tiling.size p s (Or.inr hp)
  have hp0 : p ≠ 0 := h.al_ne_zero hc hp
  have hhdr := h.alHdr p _ hp
  have hidx : a.indexFromBlockSize (a.mem p).size = k := by
    rw [hhdr]; exact index_classSize hc h.minb hk
  have hhead : a.head k ≠ p := by
    rcases headD_mem (fl k) 0 with ⟨_, h0⟩ | hin
    · rw [h.heads k hk, h0]; exact Ne.symm hp0
    · rw [h.heads k hk]
      intro hh; rw [hh] at hin
      exact h.freeNotLive k p _ hk hin hp
  have hde : a.deallocate p = a.coalesce p := by
    unfold BuddyAllocator.deallocate
    rw [if_neg hp0]
    simp only [hidx]
    rw [if_pos]
    simp [hhdr, hhead]
  have h2 : Inv c a fl ((p, c.classSize k) :: al.filter (fun e => e.1 != p)) := by
    apply Inv.al_congr h
    · intro e
      rw [List.mem_cons, mem_filter_ne]
      constructor
      · rintro (rfl | ⟨he, _⟩)
        · exact hp
        · exact he
      · intro he
        by_cases hep : e.1 = p
        · exact Or.inl (fst_unique h.alNodup he hp hep)
        · exact Or.inr ⟨he, hep⟩
    · rw [List.map_cons, List.nodup_cons]
      constructor
      · intro hh
        obtain ⟨e, he, hep⟩ := List.mem_map.mp hh
        exact (mem_filter_ne.mp he).2 hep
      · exact h.alNodup.sublist ((List.filter_sublist _).map _)
  obtain ⟨fl2, k2, hk2, hk2t, hne, hinv⟩ := Inv.coalesce_step hc h2 hk
  rw [← hde] at hne hinv
  exact ⟨fl2, k, k2, rfl, hk2, hk2t, hne, hinv⟩

/-- A store by the client into the payload of one of its blocks. -/
theorem Inv.client_write {c : Config} {a : BuddyAllocator} {fl : Nat → List Nat}
    {al : List (Nat × Nat)} {p s q : Nat} (v : Block) (h : Inv c a fl al)
    (hp : (p, s) ∈ al) (h1 : p < q) (h2 : q < p + s) :
    Inv c { a with mem := fun x => if x = q then v else a.mem x } fl al := by
  have hq : ∀ x t, Blk c fl al x t → x ≠ q := by
    intro x t hx hxq
    subst hxq
    have hpos : 0 < t := by
      obtain ⟨k2, _, rfl⟩ := h.tiling.size _ _ hx
      exact classSize_pos c k2
    rcases h.tiling.disj _ _ _ _ hx (Or.inr hp) with ⟨h3, _⟩ | h3 | h3 <;> omega
  apply Inv.mem_congr h
  · rfl
  · rfl
  · rfl
  · rfl
  · intro k x hk hx
    show (if x = q then v else a.mem x) = a.mem x
    rw [if_neg (hq x _ (Inv.free_blk hk hx))]
  · intro p2 s2 hp2
    show (if p2 = q then v else a.mem p2) = _
    rw [if_neg (hq p2 s2 (Or.inr hp2))]
    exact h.alHdr p2 s2 hp2
  · exact h.alNodup
  · exact h.freeNotLive
  · exact h.tiling

/-! ## Construction and runs -/

theorem listCount_eq (c : Config) (hc : c.Valid) :
    (builtin_ctz c.totalSize + 2 ^ 64 - builtin_ctz c.minSize + 1) % 2 ^ 64 = c.top + 1 := by
  have h1 := hc.1
  have h2 := hc.2.1
  unfold Config.totalSize Config.minSize Config.top
  rw [ctz_two_pow _ h2, ctz_two_pow _ (by omega)]
  omega

theorem construct_eq (c : Config) (hc : c.Valid) (mem0 : Nat → Block) :
    BuddyAllocator.construct c.base mem0 c.totalSize c.minSize =
      (((((BuddyAllocator.mk (List.replicate (c.top + 1) 0) c.base c.totalSize c.minSize
            mem0).setSize c.base c.totalSize).setPrev c.base 0).setNext
        c.base 0).setHead c.top c.base) := by
  unfold BuddyAllocator.construct
  simp only [listCount_eq c hc, Nat.add_sub_cancel]

/-- The constructor establishes the invariant: the whole arena is one free
block in the last list. -/
theorem Inv.construct_inv (c : Config) (hc : c.Valid) (mem0 : Nat → Block) :
    Inv c (BuddyAllocator.construct c.base mem0 c.totalSize c.minSize)
      (fun k => if k = c.top then [c.base] else []) [] := by
  rw [construct_eq c hc]
  have hbase := Inv.base_pos hc
  have hblk : ∀ x t, Blk c (fun k => if k = c.top then [c.base] else []) [] x t ↔
      (x = c.base ∧ t = c.totalSize) := by
    intro x t
    constructor
    · rintro (⟨k, hk, ht, hx⟩ | hx)
      · by_cases hkt : k = c.top
        · subst hkt
          simp only [if_true, List.mem_singleton] at hx
          exact ⟨hx, by rw [ht, classSize_top c hc]⟩
        · simp [hkt] at hx
      · simp at hx
    · rintro ⟨rfl, rfl⟩
      exact Or.inl ⟨c.top, le_refl _, (classSize_top c hc).symm, by simp⟩
  constructor
  · rfl
  · rfl
  · rfl
  · simp
  · intro k hk
    rw [head_setHead]
    by_cases hkt : k = c.top
    · subst hkt; simp
    · have : ¬ (c.top = k ∧ c.top < (List.replicate (c.top + 1) 0).length) :=
        fun hh => hkt hh.1.symm
      simp only [freeLists_setNext, freeLists_setPrev, freeLists_setSize, this, if_false,
        head_setNext, head_setPrev, head_setSize, hkt]
      unfold BuddyAllocator.head
      simp only [List.getD_eq_getElem?_getD, List.getElem?_replicate]
      split_ifs <;> rfl
  · intro k hk
    by_cases hkt : k = c.top
    · subst hkt
      simp only [if_true]
      refine ⟨by omega, ?_, ?_, ?_, trivial⟩
      · simp
      · simp [classSize_top c hc]
      · simp
    · simp only [hkt, if_false]; trivial
  · intro k _
    by_cases hkt : k = c.top <;> simp [hkt]
  · intro p s hp; simp at hp
  · simp
  · intro k b s _ _ hbs; simp at hbs
  · apply Tiling.of_iff hblk
    constructor
    · rintro b s ⟨rfl, rfl⟩
      exact ⟨c.top, le_refl _, (classSize_top c hc).symm⟩
    · rintro b s ⟨rfl, rfl⟩
      exact ⟨le_refl _, le_refl _⟩
    · rintro b s ⟨rfl, rfl⟩
      exact total_dvd_base c hc
    · rintro b s b2 s2 ⟨rfl, rfl⟩ ⟨rfl, rfl⟩
      exact Or.inl ⟨rfl, rfl⟩
    · intro x h1 h2
      exact ⟨c.base, c.totalSize, ⟨rfl, rfl⟩, h1, h2⟩

theorem Client.init_good (c : Config) (hc : c.Valid) (mem0 : Nat → Block) :
    (Client.init c mem0).Good c :=
  ⟨_, Inv.construct_inv c hc mem0⟩

theorem liveBlocks_filter (m p : Nat) (live : List (Nat × Nat)) :
    liveBlocks m (live.filter (fun e => e.1 != p)) =
      (liveBlocks m live).filter (fun e => e.1 != p) := by
  unfold liveBlocks
  rw [List.filter_map]
  rfl

theorem mem_liveBlocks (m : Nat) {live : List (Nat × Nat)} {e : Nat × Nat} (he : e ∈ live) :
    (e.1, roundUp m e.2) ∈ liveBlocks m live :=
  List.mem_map.mpr ⟨e, he, rfl⟩

/-- Every call under correct use keeps the invariant. -/
theorem Client.step_good {c : Config} (hc : c.Valid) {s s2 : Client} (hs : s.Good c)
    (op : Op) (h : s.step op = some s2) : s2.Good c := by
  obtain ⟨fl, hinv⟩ := hs
  cases op with
  | alloc n =>
    unfold Client.step at h
    by_cases hn : n ≤ 2 ^ 31
    · simp only [if_pos hn, Option.some.injEq] at h
      subst h
      obtain ⟨k0, hk0, hcase⟩ := Inv.allocate_step hc hinv hn
      rcases hcase with ⟨_, heq⟩ | ⟨i, fl2, _, _, hne, _, hp, hinv2⟩
      · simp only [heq, if_true]
        exact ⟨fl, hinv⟩
      · have hne2 : (s.heap.allocate n).2 ≠ 0 := by rw [hp]; exact hne
        refine ⟨fl2, ?_⟩
        simp only [if_neg hne2, liveBlocks, List.map_cons]
        rw [hk0, hp]
        exact hinv2
    · simp only [if_neg hn] at h
      cases h
  | free p =>
    unfold Client.step at h
    by_cases hp : p = 0
    · simp only [if_pos hp, Option.some.injEq] at h
      subst h
      subst hp
      exact ⟨fl, by
        have : s.heap.deallocate 0 = s.heap := by simp [BuddyAllocator.deallocate]
        rw [this]; exact hinv⟩
    · simp only [if_neg hp] at h
      by_cases hany : s.live.any (fun e => e.1 == p) = true
      · simp only [if_pos hany, Option.some.injEq] at h
        subst h
        obtain ⟨e, he, hep⟩ := List.any_eq_true.mp hany
        have hep2 : e.1 = p := by simpa using hep
        have hmem := mem_liveBlocks c.minSize he
        rw [hep2] at hmem
        obtain ⟨fl2, _, _, _, _, _, _, hinv2⟩ := Inv.deallocate_step hc hinv hmem
        refine ⟨fl2, ?_⟩
        simp only [liveBlocks_filter]
        exact hinv2
      · simp only [if_neg hany] at h
        cases h
  | write q v =>
    simp only [Client.step] at h
    split_ifs at h with hany
    simp only [Option.some.injEq] at h
    subst h
    obtain ⟨e, he, hcond⟩ := List.any_eq_true.mp hany
    simp only [Bool.and_eq_true, decide_eq_true_eq, hinv.minb] at hcond
    exact ⟨fl, Inv.client_write v hinv (mem_liveBlocks c.minSize he) hcond.1.1 hcond.1.2⟩

/-- Every state reached under correct use satisfies the invariant. -/
theorem Client.run_good {c : Config} (hc : c.Valid) :
    ∀ (ops : List Op) (s s2 : Client), s.Good c → s.run ops = some s2 → s2.Good c
  | [], s, s2, hs, h => by
    simp only [Client.run, Option.some.injEq] at h
    subst h; exact hs
  | op :: ops, s, s2, hs, h => by
    simp only [Client.run] at h
    cases hstep : s.step op with
    | none => rw [hstep] at h; simp at h
    | some s1 =>
      rw [hstep] at h
      simp only [Option.some_bind] at h
      exact Client.run_good hc ops s1 s2 (Client.step_good hc hs op hstep) h

theorem Client.reachable_good {c : Config} (hc : c.Valid) (mem0 : Nat → Block) (ops : List Op)
    {s : Client} (h : (Client.init c mem0).run ops = some s) : s.Good c :=
  Client.run_good hc ops _ s (Client.init_good c hc mem0) h

/-! ## The claims about reachable states -/

theorem le_roundUp (m n : Nat) : n ≤ roundUp m n := by
  obtain ⟨k, h1, h2, _⟩ := next_pow2_spec n
  unfold roundUp
  rw [h1]
  exact le_trans h2 (le_max_right _ _)

theorem roundUp_total (c : Config) (hc : c.Valid) : roundUp c.minSize c.totalSize = c.totalSize := by
  obtain ⟨k, h1, h2, h3⟩ := next_pow2_spec c.totalSize
  have hk : k ≤ c.logTotal := pow_le_of_minimal h3 (le_refl _)
  have : next_pow2 c.totalSize = c.totalSize := by
    rw [h1]
    apply le_antisymm _ h2
    exact Nat.pow_le_pow_right (by decide) hk
  unfold roundUp
  rw [this]
  exact max_eq_right (Nat.pow_le_pow_right (by decide) hc.1)

theorem log2_classSize (c : Config) (k : Nat) :
    Nat.log2 (c.classSize k) - Nat.log2 c.minSize = k := by
  unfold Config.classSize Config.minSize
  rw [Nat.log2_two_pow, Nat.log2_two_pow]
  omega

/-- Allocate, release at once, allocate again, from a state with the
invariant: the second request is served from a non-empty list. -/
theorem allocate_free_allocate {c : Config} (hc : c.Valid) (a : BuddyAllocator)
    (fl : Nat → List Nat) (al : List (Nat × Nat)) (m : Nat) (hm : m ≤ 2 ^ 31)
    (hinv : Inv c a fl al) (hp : (a.allocate m).2 ≠ 0) :
    ∃ fl3 i, Inv c ((a.allocate m).1.deallocate (a.allocate m).2) fl3 al ∧
      i ≤ c.top ∧ c.classSize i ≥ roundUp c.minSize m ∧
      (((a.allocate m).1.deallocate (a.allocate m).2).allocate m).2 =
        ((a.allocate m).1.deallocate (a.allocate m).2).head i ∧
      ((a.allocate m).1.deallocate (a.allocate m).2).head i ≠ 0 := by
  obtain ⟨k0, hk0, hcase⟩ := Inv.allocate_step hc hinv hm
  rcases hcase with ⟨_, heq⟩ | ⟨i, fl2, _, _, _, _, hpi, hinv2⟩
  · rw [heq] at hp; exact absurd rfl hp
  · rw [← hpi] at hinv2
    obtain ⟨fl3, k, k2, hk, hk2, hk2t, hne, hinv3⟩ :=
      Inv.deallocate_step hc hinv2 (List.mem_cons_self _ _)
    have hk : k = k0 := (classSize_inj c hk).symm
    subst hk
    have hfil : List.filter (fun e => e.1 != (a.allocate m).2)
        (((a.allocate m).2, c.classSize k) :: al) = al := by
      have hnd := hinv2.alNodup
      rw [List.map_cons, List.nodup_cons] at hnd
      rw [List.filter_cons_of_neg (by simp)]
      apply List.filter_eq_self.mpr
      intro e he
      have : e.1 ≠ (a.allocate m).2 := fun hh =>
        hnd.1 (List.mem_map.mpr ⟨e, he, hh⟩)
      simpa using this
    rw [hfil] at hinv3
    obtain ⟨k1, hk1, hcase2⟩ := Inv.allocate_step hc hinv3 hm
    have hk1 : k1 = k := classSize_inj c (by rw [← hk1, hk0])
    subst hk1
    rcases hcase2 with ⟨hall, _⟩ | ⟨i2, _, hi1, hi2, hne2, _, hpi2, _⟩
    · exact absurd (hall k2 hk2 hk2t) hne
    · exact ⟨fl3, i2, hinv3, hi2, by rw [hk0]; exact classSize_le c hi1, hpi2, hne2⟩

/-! ## The loops do not depend on spare fuel -/

theorem splitLoop_succ (fuel : Nat) (a : BuddyAllocator) (block size : Nat) :
    BuddyAllocator.splitLoop (fuel + 1) a block size =
      if (a.mem block).size > size then
        BuddyAllocator.splitLoop fuel
          (((((a.setSize (block + (a.mem block).size >>> 1) ((a.mem block).size >>> 1)).setPrev
              (block + (a.mem block).size >>> 1) 0).setNext
              (block + (a.mem block).size >>> 1) 0).addToFreeList
              (block + (a.mem block).size >>> 1)
              ((((a.setSize (block + (a.mem block).size >>> 1)
                ((a.mem block).size >>> 1)).setPrev
                (block + (a.mem block).size >>> 1) 0).setNext
                (block + (a.mem block).size >>> 1) 0).indexFromBlockSize
                ((a.mem block).size >>> 1))).setSize block ((a.mem block).size >>> 1))
          block size
      else a := by
  rw [BuddyAllocator.splitLoop]

/-- The splitting loop has ended by the time `block->size` units of fuel are
used up: more fuel gives the same result. -/
theorem splitLoop_fuel_enough (block size : Nat) :
    ∀ (fuel : Nat) (a : BuddyAllocator), (a.mem block).size ≤ fuel →
      BuddyAllocator.splitLoop (fuel + 1) a block size =
        BuddyAllocator.splitLoop fuel a block size
  | 0, a, h => by
    rw [splitLoop_succ, if_neg (by omega)]
    rfl
  | fuel + 1, a, h => by
    conv_lhs => rw [splitLoop_succ]
    conv_rhs => rw [splitLoop_succ]
    by_cases hc : (a.mem block).size > size
    · rw [if_pos hc, if_pos hc]
      apply splitLoop_fuel_enough block size fuel
      rw [mem_setSize, if_pos rfl]
      show (a.mem block).size >>> 1 ≤ fuel
      rw [Nat.shiftRight_eq_div_pow]
      omega
    · rw [if_neg hc, if_neg hc]

theorem remove_length (a : BuddyAllocator) (b k : Nat) :
    (a.removeFromFreeList b k).freeLists.length = a.freeLists.length := by
  rw [remove_freeLists]
  split_ifs
  · rfl
  · rw [List.length_set]

/-- The merging loop has ended by the time `freeLists.size() - 1 - index`
units of fuel are used up: more fuel gives the same result. -/
theorem coalesceLoop_fuel_enough :
    ∀ (fuel : Nat) (a : BuddyAllocator) (b k : Nat),
      (a.freeLists.length + 2 ^ 64 - 1) % 2 ^ 64 - k ≤ fuel →
      BuddyAllocator.coalesceLoop (fuel + 1) a b k = BuddyAllocator.coalesceLoop fuel a b k
  | 0, a, b, k, h => by
    rw [coalesceLoop_exit 0 a b k (fun hh => by omega)]
    rfl
  | fuel + 1, a, b, k, h => by
    by_cases hcond : k < (a.freeLists.length + 2 ^ 64 - 1) % 2 ^ 64
        ∧ (a.mem b).size < a.totalMemorySize
    swap
    · rw [coalesceLoop_exit _ a b k hcond, coalesceLoop_exit _ a b k hcond]
    by_cases hb : a.isAddressWithinBounds (b ^^^ (a.mem b).size) = true
    swap
    · have hb2 : a.isAddressWithinBounds (b ^^^ (a.mem b).size) = false := by
        simpa using hb
      rw [coalesceLoop_return _ a b k hcond hb2, coalesceLoop_return _ a b k hcond hb2]
    by_cases he : b + (a.mem b).size ≥ a.memoryStart + a.totalMemorySize
    · rw [coalesceLoop_end _ a b k hcond hb he, coalesceLoop_end _ a b k hcond hb he]
    by_cases hs : (a.mem (b ^^^ (a.mem b).size)).size ≠ (a.mem b).size
        ∨ ((a.mem (b ^^^ (a.mem b).size)).prev = 0 ∧ a.head k ≠ b ^^^ (a.mem b).size)
    · rw [coalesceLoop_unsuitable _ a b k hcond hb he hs,
        coalesceLoop_unsuitable _ a b k hcond hb he hs]
    rw [coalesceLoop_merge _ a b k hcond hb he hs, coalesceLoop_merge _ a b k hcond hb he hs]
    apply coalesceLoop_fuel_enough fuel
    rw [freeLists_setSize, remove_length]
    omega

/-! ## The members of a free list -/

theorem walk_null (mem : Nat → Block) (fuel : Nat) : walk mem fuel 0 = [] := by
  cases fuel <;> simp [walk]

theorem walk_single (mem : Nat → Block) (fuel p : Nat) (hf : 0 < fuel) (hp : p ≠ 0)
    (hn : (mem p).next = 0) : walk mem fuel p = [p] := by
  obtain ⟨f, rfl⟩ : ∃ f, fuel = f + 1 := ⟨fuel - 1, by omega⟩
  unfold walk
  rw [if_neg hp, hn, walk_null]

/-- Following `next` from the head of a linked run visits exactly the run. -/
theorem walk_seg {m : Nat → Block} {sz : Nat} :
    ∀ (l : List Nat) (p fuel : Nat), Seg m sz p l 0 → l.length ≤ fuel →
      walk m fuel (l.headD 0) = l
  | [], _, fuel, _, _ => walk_null m fuel
  | b :: rest, _, 0, _, hl => by simp at hl
  | b :: rest, _, fuel + 1, hs, hl => by
    obtain ⟨h1, _, _, h4, h5⟩ := hs
    simp only [List.headD_cons]
    unfold walk
    rw [if_neg h1, h4, walk_seg rest b fuel h5 (by simpa using hl)]

theorem length_le_of_nodup_range {l : List Nat} {lo n : Nat} (hnd : l.Nodup)
    (h : ∀ x, x ∈ l → lo ≤ x ∧ x < lo + n) : l.length ≤ n := by
  have hsub : l.toFinset ⊆ Finset.Ico lo (lo + n) := by
    intro x hx
    rw [List.mem_toFinset] at hx
    rw [Finset.mem_Ico]
    exact h x hx
  have := Finset.card_le_card hsub
  rw [List.toFinset_card_of_nodup hnd, Nat.card_Ico] at this
  omega

theorem Inv.list_length {c : Config} {a : BuddyAllocator} {fl : Nat → List Nat}
    {al : List (Nat × Nat)} (h : Inv c a fl al) {k : Nat} (hk : k ≤ c.top) :
    (fl k).length ≤ c.totalSize := by
  have hr : ∀ x, x ∈ fl k → c.base ≤ x ∧ x < c.base + c.totalSize := by
    intro x hx
    have h1 := h.tiling.inside x _ (Inv.free_blk hk hx : Blk c fl al _ _)
    have := classSize_pos c k
    omega
  exact length_le_of_nodup_range (h.flNodup k hk) hr

/-- In a state with the invariant the members of free list `k` are `fl k`. -/
theorem Inv.listBlocks_eq {c : Config} {a : BuddyAllocator} {fl : Nat → List Nat}
    {al : List (Nat × Nat)} (h : Inv c a fl al) {k : Nat} (hk : k ≤ c.top) :
    a.listBlocks k = fl k := by
  unfold BuddyAllocator.listBlocks
  rw [h.heads k hk, h.total]
  exact walk_seg (fl k) 0 _ (h.seg k hk) (h.list_length hk)

/-- The successor of a member of a linked run: the end of the run, or a member
that points back. -/
theorem Seg.next_in {m : Nat → Block} {sz n : Nat} :
    ∀ (l : List Nat) (p x : Nat), Seg m sz p l n → x ∈ l →
      (m x).next = n ∨ ((m x).next ∈ l ∧ (m (m x).next).prev = x)
  | [], _, x, _, hx => by simp at hx
  | b :: rest, _, x, hs, hx => by
    obtain ⟨_, _, _, h4, h5⟩ := hs
    rcases List.mem_cons.mp hx with rfl | hx
    · cases rest with
      | nil => left; exact h4
      | cons d rest2 =>
        right
        rw [h4, List.headD_cons]
        exact ⟨List.mem_cons_of_mem _ (List.mem_cons_self _ _), h5.2.1⟩
    · rcases Seg.next_in rest b x h5 hx with h | ⟨h1, h2⟩
      · exact Or.inl h
      · exact Or.inr ⟨List.mem_cons_of_mem _ h1, h2⟩

/-- The predecessor of a member of a linked run: the member is the head, or
the predecessor is a member that points on to it. -/
theorem Seg.prev_in {m : Nat → Block} {sz n : Nat} :
    ∀ (l : List Nat) (p x : Nat), Seg m sz p l n → x ∈ l →
      (x = l.headD 0 ∧ (m x).prev = p) ∨ ((m x).prev ∈ l ∧ (m (m x).prev).next = x)
  | [], _, x, _, hx => by simp at hx
  | b :: rest, _, x, hs, hx => by
    obtain ⟨_, h2, _, h4, h5⟩ := hs
    rcases List.mem_cons.mp hx with rfl | hx
    · exact Or.inl ⟨rfl, h2⟩
    · rcases Seg.prev_in rest b x h5 hx with ⟨h6, h7⟩ | ⟨h6, h7⟩
      · right
        rw [h7]
        refine ⟨List.mem_cons_self _ _, ?_⟩
        rw [h4]
        cases rest with
        | nil => simp at hx
        | cons d rest2 => simpa using h6.symm
      · exact Or.inr ⟨List.mem_cons_of_mem _ h6, h7⟩

/-! ## The membership test of `deallocate` -/

/-- For a member of free list `k` the test `prev == null && head != block` is
false, and `deallocate` on it does nothing. -/
theorem Inv.free_test {c : Config} {a : BuddyAllocator} {fl : Nat → List Nat}
    {al : List (Nat × Nat)} (hc : c.Valid) (h : Inv c a fl al) {k x : Nat} (hk : k ≤ c.top)
    (hx : x ∈ fl k) :
    a.indexFromBlockSize (a.mem x).size = k ∧
      ¬ ((a.mem x).prev = 0 ∧ a.head k ≠ x) ∧ a.deallocate x = a := by
  have hsz := Seg.size_eq _ _ _ (h.seg k hk) x hx
  have hidx : a.indexFromBlockSize (a.mem x).size = k := by
    rw [hsz]; exact index_classSize hc h.minb hk
  have hnz := Seg.ne_zero _ _ _ (h.seg k hk)
  have htest : ¬ ((a.mem x).prev = 0 ∧ a.head k ≠ x) := by
    rintro ⟨h1, h2⟩
    rcases Seg.prev_in _ _ x (h.seg k hk) hx with ⟨h3, _⟩ | ⟨h3, _⟩
    · rw [h.heads k hk] at h2; exact h2 h3.symm
    · rw [h1] at h3; exact hnz 0 h3 rfl
  refine ⟨hidx, htest, ?_⟩
  unfold BuddyAllocator.deallocate
  rw [if_neg (hnz x hx)]
  simp only [hidx]
  rw [if_neg]
  simpa using htest

/-- For a block held by the client the test is true, the block is in no free
list, and `deallocate` hands it to `coalesce`. -/
theorem Inv.live_test {c : Config} {a : BuddyAllocator} {fl : Nat → List Nat}
    {al : List (Nat × Nat)} (hc : c.Valid) (h : Inv c a fl al) {p s : Nat}
    (hp : (p, s) ∈ al) :
    ∃ k, k ≤ c.top ∧ s = c.classSize k ∧ a.indexFromBlockSize (a.mem p).size = k ∧
      ((a.mem p).prev = 0 ∧ a.head k ≠ p) ∧ (∀ k2, k2 ≤ c.top → p ∉ fl k2) ∧
      a.deallocate p = a.coalesce p := by
  obtain ⟨k, hk, rfl⟩ := h.tiling.size p s (Or.inr hp)
  have hp0 : p ≠ 0 := h.al_ne_zero hc hp
  have hhdr := h.alHdr p _ hp
  have hidx : a.indexFromBlockSize (a.mem p).size = k := by
    rw [hhdr]; exact index_classSize hc h.minb hk
  have hfree : ∀ k2, k2 ≤ c.top → p ∉ fl k2 := fun k2 hk2 hin =>
    h.freeNotLive k2 p _ hk2 hin hp
  have hhead : a.head k ≠ p := by
    rcases headD_mem (fl k) 0 with ⟨_, h0⟩ | hin
    · rw [h.heads k hk, h0]; exact Ne.symm hp0
    · rw [h.heads k hk]
      intro hh; rw [hh] at hin
      exact hfree k hk hin
  refine ⟨k, hk, rfl, hidx, ⟨by rw [hhdr], hhead⟩, hfree, ?_⟩
  unfold BuddyAllocator.deallocate
  rw [if_neg hp0]
  simp only [hidx]
  rw [if_pos]
  simp [hhdr, hhead]

theorem ctzAux_le : ∀ (fuel x : Nat), ctzAux fuel x ≤ fuel
  | 0, _ => Nat.le_refl _
  | fuel + 1, x => by
    unfold ctzAux
    split
    · omega
    · have := ctzAux_le fuel (x / 2)
      omega

theorem builtin_ctz_le (x : Nat) : builtin_ctz x ≤ 32 := ctzAux_le 32 _

theorem classSize_add (c : Config) (k d : Nat) :
    c.classSize (k + d) = 2 ^ d * c.classSize k := by
  unfold Config.classSize
  rw [← Nat.add_assoc, Nat.pow_add, Nat.mul_comm]

theorem classSize_mul (c : Config) {k0 k : Nat} (h : k0 ≤ k) :
    c.classSize k0 * 2 ^ (k - k0) = c.classSize k := by
  obtain ⟨d, rfl⟩ : ∃ d, k = k0 + d := ⟨k - k0, by omega⟩
  rw [classSize_add, Nat.add_sub_cancel_left, Nat.mul_comm]

theorem findList_eq_some (a : BuddyAllocator) (f i0 i : Nat) (h1 : i0 ≤ i) (h2 : i < i0 + f)
    (h3 : a.head i ≠ 0) (h4 : ∀ k, i0 ≤ k → k < i → a.head k = 0) :
    a.findList f i0 = some i := by
  cases hf : a.findList f i0 with
  | none =>
    rw [findList_none] at hf
    exact absurd (hf i h1 h2) h3
  | some j =>
    obtain ⟨g1, g2, g3, g4⟩ := findList_some a f i0 j hf
    rcases Nat.lt_trichotomy j i with hlt | heq | hgt
    · exact absurd (h4 j g1 hlt) g3
    · rw [heq]
    · exact absurd (g4 i h1 hgt) h3

/-- The splitting loop with the lists it leaves: the upper half of every
halving is pushed onto the list of its class. -/
theorem Inv.split_loop_lists {c : Config} {al : List (Nat × Nat)} {b k0 size : Nat}
    (hc : c.Valid)
    (hsize : ∀ j, k0 ≤ j → j ≤ c.top → (c.classSize j > size ↔ k0 < j)) :
    ∀ (d fuel : Nat) (a : BuddyAllocator) (fl : Nat → List Nat), d ≤ fuel → k0 + d ≤ c.top →
      Inv c a fl ((b, c.classSize (k0 + d)) :: al) →
      Inv c (BuddyAllocator.splitLoop fuel a b size)
        (fun k => if k0 ≤ k ∧ k < k0 + d then (b + c.classSize k) :: fl k else fl k)
        ((b, c.classSize k0) :: al)
  | 0, fuel, a, fl, _, hk, h => by
    have hhdr := h.alHdr b _ (List.mem_cons_self _ _)
    have hnot : ¬ (a.mem b).size > size := by
      rw [hhdr]
      exact fun hh => absurd ((hsize k0 (le_refl _) (by omega)).mp hh) (lt_irrefl _)
    have hfl : (fun k => if k0 ≤ k ∧ k < k0 + 0 then (b + c.classSize k) :: fl k else fl k)
        = fl := by
      funext k
      rw [if_neg (by omega)]
    rw [hfl]
    cases fuel with
    | zero => exact h
    | succ fuel =>
      unfold BuddyAllocator.splitLoop
      rw [if_neg hnot]
      exact h
  | d + 1, 0, _, _, hf, _, _ => by omega
  | d + 1, fuel + 1, a, fl, hf, hk, h => by
    have hhdr := h.alHdr b _ (List.mem_cons_self _ _)
    have hgt : (a.mem b).size > size := by
      rw [hhdr]
      exact (hsize (k0 + (d + 1)) (by omega) hk).mpr (by omega)
    unfold BuddyAllocator.splitLoop
    rw [if_pos hgt]
    have hsz : (a.mem b).size = c.classSize (k0 + d + 1) := by rw [hhdr]; rfl
    simp only [hsz, classSize_shiftRight]
    have hidx : ((((a.setSize (b + c.classSize (k0 + d)) (c.classSize (k0 + d))).setPrev
        (b + c.classSize (k0 + d)) 0).setNext (b + c.classSize (k0 + d)) 0).indexFromBlockSize
        (c.classSize (k0 + d))) = k0 + d :=
      index_classSize hc h.minb (by omega)
    rw [hidx, add_setSize_comm]
    have h1 := Inv.split_block (k0 + d) hc h
    have h2 := Inv.put_back hc h1 (by omega)
    have h3 := Inv.split_loop_lists hc hsize d fuel _ _ (by omega) (by omega) h2
    have hfl : (fun k => if k0 ≤ k ∧ k < k0 + d then
          (b + c.classSize k) ::
            Function.update fl (k0 + d) ((b + c.classSize (k0 + d)) :: fl (k0 + d)) k
          else Function.update fl (k0 + d) ((b + c.classSize (k0 + d)) :: fl (k0 + d)) k) =
        (fun k => if k0 ≤ k ∧ k < k0 + (d + 1) then (b + c.classSize k) :: fl k else fl k) := by
      funext k
      by_cases hkd : k = k0 + d
      · subst hkd
        rw [if_neg (by omega), if_pos (by omega), Function.update_same]
      · rw [Function.update_noteq hkd]
        by_cases hr : k0 ≤ k ∧ k < k0 + d
        · rw [if_pos hr, if_pos (by omega)]
        · rw [if_neg hr, if_neg (by omega)]
    rw [hfl] at h3
    exact h3

/-- The lists after a successful `allocate`: the donor is the head of the first
non-empty list from class `k0` on, it leaves its list, and one upper half goes
on each list between `k0` and the donor's class. -/
theorem Inv.allocate_lists {c : Config} {a : BuddyAllocator} {fl : Nat → List Nat}
    {al : List (Nat × Nat)} (hc : c.Valid) (h : Inv c a fl al) {n k0 i : Nat}
    (hr : roundUp c.minSize n = c.classSize k0) (hki : k0 ≤ i) (hi : i ≤ c.top)
    (hne : a.head i ≠ 0) (hz : ∀ k, k0 ≤ k → k < i → a.head k = 0) :
    (a.allocate n).2 = a.head i ∧
      Inv c (a.allocate n).1
        (fun k => if k0 ≤ k ∧ k < i then (a.head i + c.classSize k) :: fl k
          else if k = i then (fl i).tail else fl k)
        ((a.head i, c.classSize k0) :: al) := by
  have hn : n ≤ 2 ^ 31 := by
    have h1 := le_roundUp c.minSize n
    have h2 := classSize_le c (le_trans hki hi)
    rw [classSize_top c hc] at h2
    have h3 : c.totalSize ≤ 2 ^ 31 := Nat.pow_le_pow_right (by decide) (by have := hc.2.1; omega)
    omega
  obtain ⟨k1, hr1, hr2, hr3, hr4⟩ := round_facts hc h.minb hn
  have hk : k1 = k0 := classSize_inj c (hr1.symm.trans hr)
  subst hk
  have hfind : a.findList (a.freeLists.length - a.indexFromBlockSize (a.roundedSize n))
      (a.indexFromBlockSize (a.roundedSize n)) = some i := by
    rw [hr3, h.len]
    exact findList_eq_some a _ _ i hki (by omega) hne hz
  have hmem : a.head i ∈ fl i := by
    rcases headD_mem (fl i) 0 with ⟨_, h0⟩ | hin
    · rw [← h.heads i hi] at h0; exact absurd h0 hne
    · rw [h.heads i hi]; exact hin
  have h1 := Inv.take_out hc h hi hmem
  have hhdr := h1.alHdr (a.head i) _ (List.mem_cons_self _ _)
  have e1 : (a.removeFromFreeList (a.head i) i).setPrev (a.head i) 0 =
      a.removeFromFreeList (a.head i) i := setPrev_id _ _ _ (by rw [hhdr])
  have e2 : (a.removeFromFreeList (a.head i) i).setNext (a.head i) 0 =
      a.removeFromFreeList (a.head i) i := setNext_id _ _ _ (by rw [hhdr])
  have hal := allocate_some a n i hfind
  rw [e1, e2, hhdr] at hal
  obtain ⟨d, hd⟩ : ∃ d, i = k1 + d := ⟨i - k1, by omega⟩
  subst hd
  have hfuel : d ≤ c.classSize (k1 + d) := by
    have h1 : d < 2 ^ d := Nat.lt_two_pow d
    have h2 : 2 ^ d ≤ c.classSize (k1 + d) :=
      Nat.pow_le_pow_right (by decide) (by omega)
    omega
  have h2 := Inv.split_loop_lists hc hr4 d (c.classSize (k1 + d)) _ _ hfuel hi h1
  have herase : (fl (k1 + d)).erase (a.head (k1 + d)) = (fl (k1 + d)).tail := by
    have hh := h.heads (k1 + d) hi
    cases hfl : fl (k1 + d) with
    | nil => rw [hfl] at hmem; simp at hmem
    | cons x rest =>
      rw [hfl, List.headD_cons] at hh
      rw [hh, List.erase_cons_head, List.tail_cons]
  have hfl : (fun k => if k1 ≤ k ∧ k < k1 + d then
        (a.head (k1 + d) + c.classSize k) ::
          Function.update fl (k1 + d) ((fl (k1 + d)).erase (a.head (k1 + d))) k
        else Function.update fl (k1 + d) ((fl (k1 + d)).erase (a.head (k1 + d))) k) =
      (fun k => if k1 ≤ k ∧ k < k1 + d then (a.head (k1 + d) + c.classSize k) :: fl k
        else if k = k1 + d then (fl (k1 + d)).tail else fl k) := by
    funext k
    by_cases hkd : k = k1 + d
    · subst hkd
      rw [if_neg (by omega), if_neg (by omega), if_pos rfl, Function.update_same, herase]
    · rw [Function.update_noteq hkd, if_neg hkd]
  rw [hfl] at h2
  rw [hal]
  exact ⟨rfl, h2⟩

/-- Intervals that do not overlap pairwise fill as many addresses as their
sizes add up to. -/
theorem interval_union_card : ∀ (L : List (Nat × Nat)),
    L.Pairwise (fun x y => x.1 + x.2 ≤ y.1 ∨ y.1 + y.2 ≤ x.1) →
    ∃ S : Finset Nat, (∀ x, x ∈ S ↔ ∃ e ∈ L, e.1 ≤ x ∧ x < e.1 + e.2) ∧
      S.card = (L.map Prod.snd).sum
  | [], _ => ⟨∅, fun x => by simp, by simp⟩
  | e :: rest, hpw => by
    rw [List.pairwise_cons] at hpw
    obtain ⟨S, hS, hcard⟩ := interval_union_card rest hpw.2
    have hdisj : Disjoint (Finset.Ico e.1 (e.1 + e.2)) S := by
      rw [Finset.disjoint_left]
      intro x hx hxS
      rw [Finset.mem_Ico] at hx
      obtain ⟨e2, he2, h1, h2⟩ := (hS x).mp hxS
      rcases hpw.1 e2 he2 with h | h <;> omega
    refine ⟨Finset.Ico e.1 (e.1 + e.2) ∪ S, fun x => ?_, ?_⟩
    · rw [Finset.mem_union, Finset.mem_Ico, hS]
      constructor
      · rintro (h | ⟨e2, he2, h⟩)
        · exact ⟨e, List.mem_cons_self _ _, h⟩
        · exact ⟨e2, List.mem_cons_of_mem _ he2, h⟩
      · rintro ⟨e2, he2, h⟩
        rcases List.mem_cons.mp he2 with heq | hin
        · subst heq; exact Or.inl h
        · exact Or.inr ⟨e2, hin, h⟩
    · rw [Finset.card_union_of_disjoint hdisj, Nat.card_Ico, hcard, List.map_cons,
        List.sum_cons]
      omega

/-- Intervals that do not overlap, lie inside a range and cover it have sizes
that add up to the length of the range. -/
theorem interval_sum {L : List (Nat × Nat)} {lo T : Nat}
    (hpw : L.Pairwise (fun x y => x.1 + x.2 ≤ y.1 ∨ y.1 + y.2 ≤ x.1))
    (hin : ∀ e, e ∈ L → lo ≤ e.1 ∧ e.1 + e.2 ≤ lo + T)
    (hcov : ∀ x, lo ≤ x → x < lo + T → ∃ e, e ∈ L ∧ e.1 ≤ x ∧ x < e.1 + e.2) :
    (L.map Prod.snd).sum = T := by
  obtain ⟨S, hS, hcard⟩ := interval_union_card L hpw
  have hSeq : S = Finset.Ico lo (lo + T) := by
    ext x
    rw [hS, Finset.mem_Ico]
    constructor
    · rintro ⟨e, he, h1, h2⟩
      have := hin e he
      omega
    · rintro ⟨h1, h2⟩
      obtain ⟨e, he, h3⟩ := hcov x h1 h2
      exact ⟨e, he, h3⟩
  rw [← hcard, hSeq, Nat.card_Ico]
  omega

/-- The free blocks read off the heap are the blocks of the ghost lists. -/
theorem Inv.freeBlocks_eq {c : Config} {a : BuddyAllocator} {fl : Nat → List Nat}
    {al : List (Nat × Nat)} (h : Inv c a fl al) :
    a.freeBlocks = (List.range (c.top + 1)).flatMap
      (fun k => (fl k).map (fun x => (x, c.classSize k))) := by
  unfold BuddyAllocator.freeBlocks
  rw [h.len]
  apply List.flatMap_congr
  intro k hk
  have hkt : k ≤ c.top := by
    have := List.mem_range.mp hk
    omega
  rw [h.listBlocks_eq hkt]
  apply List.map_congr_left
  intro x hx
  rw [Seg.size_eq _ _ _ (h.seg k hkt) x hx]

theorem Inv.mem_freeBlocks {c : Config} {a : BuddyAllocator} {fl : Nat → List Nat}
    {al : List (Nat × Nat)} (h : Inv c a fl al) (e : Nat × Nat) :
    e ∈ a.freeBlocks ↔ FreeAt c fl e.1 e.2 := by
  rw [h.freeBlocks_eq, List.mem_flatMap]
  constructor
  · rintro ⟨k, hk, he⟩
    obtain ⟨x, hx, rfl⟩ := List.mem_map.mp he
    exact ⟨k, by have := List.mem_range.mp hk; omega, rfl, hx⟩
  · rintro ⟨k, hk, hs, hb⟩
    refine ⟨k, List.mem_range.mpr (by omega), List.mem_map.mpr ⟨e.1, hb, ?_⟩⟩
    rw [← hs]

theorem Inv.freeBlocks_nodup {c : Config} {a : BuddyAllocator} {fl : Nat → List Nat}
    {al : List (Nat × Nat)} (h : Inv c a fl al) : a.freeBlocks.Nodup := by
  rw [h.freeBlocks_eq, List.nodup_flatMap]
  constructor
  · intro k hk
    have hkt : k ≤ c.top := by
      have := List.mem_range.mp hk
      omega
    apply List.Nodup.map _ (h.flNodup k hkt)
    intro x y hxy
    exact congrArg Prod.fst hxy
  · apply List.Nodup.pairwise_of_forall_ne (List.nodup_range _)
    intro k _ k2 _ hne
    intro e he he2
    obtain ⟨x, _, rfl⟩ := List.mem_map.mp he
    obtain ⟨y, _, hy⟩ := List.mem_map.mp he2
    exact hne (classSize_inj c (congrArg Prod.snd hy).symm)

/-- The blocks the client holds, read with the sizes in their headers. -/
theorem Inv.live_headers {c : Config} {s : Client} {fl : Nat → List Nat}
    (h : Inv c s.heap fl (liveBlocks c.minSize s.live)) :
    s.live.map (fun e => (e.1, (s.heap.mem e.1).size)) = liveBlocks c.minSize s.live := by
  unfold liveBlocks
  apply List.map_congr_left
  intro e he
  rw [h.alHdr e.1 _ (mem_liveBlocks c.minSize he)]

theorem Inv.mem_blocks {c : Config} {s : Client} {fl : Nat → List Nat}
    (h : Inv c s.heap fl (liveBlocks c.minSize s.live)) (e : Nat × Nat) :
    e ∈ s.blocks ↔ Blk c fl (liveBlocks c.minSize s.live) e.1 e.2 := by
  unfold Client.blocks Blk
  rw [List.mem_append, h.mem_freeBlocks, h.live_headers]

theorem Inv.blocks_nodup {c : Config} {s : Client} {fl : Nat → List Nat}
    (h : Inv c s.heap fl (liveBlocks c.minSize s.live)) : s.blocks.Nodup := by
  unfold Client.blocks
  rw [h.live_headers, List.nodup_append]
  refine ⟨h.freeBlocks_nodup, List.Nodup.of_map _ h.alNodup, ?_⟩
  intro e he he2
  obtain ⟨k, hk, _, hb⟩ := (h.mem_freeBlocks e).mp he
  exact h.freeNotLive k e.1 e.2 hk hb he2

theorem Inv.blocks_pairwise {c : Config} {s : Client} {fl : Nat → List Nat}
    (h : Inv c s.heap fl (liveBlocks c.minSize s.live)) :
    s.blocks.Pairwise (fun x y => x.1 + x.2 ≤ y.1 ∨ y.1 + y.2 ≤ x.1) := by
  apply List.Nodup.pairwise_of_forall_ne h.blocks_nodup
  intro x hx y hy hne
  rcases h.tiling.disj _ _ _ _ ((h.mem_blocks x).mp hx) ((h.mem_blocks y).mp hy) with
    ⟨h1, h2⟩ | h3 | h3
  · exact absurd (Prod.ext h1 h2) hne
  · exact Or.inl h3
  · exact Or.inr h3

theorem Inv.blocks_sum {c : Config} {s : Client} {fl : Nat → List Nat}
    (h : Inv c s.heap fl (liveBlocks c.minSize s.live)) :
    (s.blocks.map Prod.snd).sum = c.totalSize := by
  apply interval_sum h.blocks_pairwise
  · intro e he
    exact h.tiling.inside _ _ ((h.mem_blocks e).mp he)
  · intro x h1 h2
    obtain ⟨b, t, hB, h3⟩ := h.tiling.cover x h1 h2
    exact ⟨(b, t), (h.mem_blocks (b, t)).mpr hB, h3⟩

/-! ## The claims -/

/-- C1 (conservation) on the code: on the arena `(1024, 32)`, placed at a
multiple of 1024, the correct-use sequence `a = allocate(512);
b = allocate(512); deallocate(a); deallocate(b)` frees every allocation, yet
the final free-list table holds the two halves in list 4 and nothing in list
5, while the initial table had the whole arena in list 5.  The calls of the
repository's `testFragmentation` end in the same table. -/
theorem C1_conservation_violated_on_code :
    cfg1024.Valid ∧
    (Client.init cfg1024 zeroMem).heap.freeLists = [0, 0, 0, 0, 0, 4096] ∧
    ((Client.init cfg1024 zeroMem).run traceHalves).map
      (fun s => (s.live, s.heap.freeLists)) = some ([], [0, 0, 0, 0, 4608, 0]) ∧
    ((Client.init cfg1024 zeroMem).run traceFragmentation).map
      (fun s => (s.live, s.heap.freeLists)) = some ([], [0, 0, 0, 0, 4608, 0]) := by
  decide

/-- C2 (caller ownership of block bytes) on the code: on the arena
`(1024, 32)`, after `p = allocate(512)` the client fills all 512 bytes with the
byte `A`; `deallocate(p)` then leaves the free lists as they were, the block at
`p` is in no list, and of two further `allocate(512)` calls the second one
fails although nothing is allocated any more. -/
theorem C2_overwritten_header_not_recovered :
    ((Client.init cfg1024 zeroMem).heap.allocate 512).2 = 4096 ∧
    ((Client.init cfg1024 zeroMem).heap.allocate 512).1.freeLists = [0, 0, 0, 0, 4608, 0] ∧
    ((fillBlock ((Client.init cfg1024 zeroMem).heap.allocate 512).1 4096 512 filledA).deallocate
        4096).freeLists = [0, 0, 0, 0, 4608, 0] ∧
    (((fillBlock ((Client.init cfg1024 zeroMem).heap.allocate 512).1 4096 512 filledA).deallocate
        4096).allocate 512).2 = 4608 ∧
    ((((fillBlock ((Client.init cfg1024 zeroMem).heap.allocate 512).1 4096 512 filledA).deallocate
        4096).allocate 512).1.allocate 512).2 = 0 := by
  decide

/-- C3 (coalescing completeness) on the code: on the arena `(1024, 32)`, right
after the last `deallocate` of `a = allocate(512); b = allocate(512);
deallocate(a); deallocate(b)`, free list 4 holds the block at offset 512 and,
linked behind it, the block at offset 0; both have size 512 and their offsets
differ exactly in bit `log2(32 * 2^4)`. -/
theorem C3_free_buddies_left_unmerged :
    cfg1024.Valid ∧
    ((Client.init cfg1024 zeroMem).run traceHalves).map
      (fun s => (s.heap.head 4, (s.heap.mem 4608).next, (s.heap.mem 4096).next,
        (s.heap.mem 4608).size, (s.heap.mem 4096).size))
      = some (4608, 4096, 0, 512, 512) ∧
    (4608 - cfg1024.base) ^^^ (4096 - cfg1024.base) = 32 * 2 ^ 4 := by
  decide

/-- C7 (size rounding): for every power-of-two `minBlockSize` and every request
`n ≤ 2 ^ 30`, the effective size computed at the top of `allocate` is
`max(minBlockSize, next_pow2(n))`, where `next_pow2(n)` is the least power of
two that is at least `n`; for `n = 0` and `n = 1` it is `minBlockSize`. -/
theorem C7_size_rounding (a : BuddyAllocator) (ml n : Nat) (hm : a.minBlockSize = 2 ^ ml)
    (hn : n ≤ 2 ^ 30) :
    a.roundedSize n = max a.minBlockSize (next_pow2 n) ∧
      IsLeast {p | (∃ k, p = 2 ^ k) ∧ n ≤ p} (next_pow2 n) ∧
      a.roundedSize 0 = a.minBlockSize ∧ a.roundedSize 1 = a.minBlockSize := by
  have h0 := roundedSize_eq_roundUp a ml 0 hm (by norm_num)
  have h1 := roundedSize_eq_roundUp a ml 1 hm (by norm_num)
  have hpos : 1 ≤ 2 ^ ml := Nat.two_pow_pos ml
  have e0 : next_pow2 0 = 1 := rfl
  have e1 : next_pow2 1 = 1 := rfl
  refine ⟨?_, next_pow2_isLeast n, ?_, ?_⟩
  · rw [hm]; exact roundedSize_eq_roundUp a ml n hm hn
  · rw [h0, hm]; unfold roundUp; rw [e0]; exact max_eq_left hpos
  · rw [h1, hm]; unfold roundUp; rw [e1]; exact max_eq_left hpos

/-- Witness for C7: a request of 100 bytes with `minBlockSize = 32`. -/
theorem C7_size_rounding_witness :
    (Client.init cfg1024 zeroMem).heap.minBlockSize = 2 ^ 5 ∧ 100 ≤ 2 ^ 30 ∧
      (Client.init cfg1024 zeroMem).heap.roundedSize 100
        = max (Client.init cfg1024 zeroMem).heap.minBlockSize (next_pow2 100) :=
  ⟨rfl, by decide,
    (C7_size_rounding (Client.init cfg1024 zeroMem).heap 5 100 rfl (by decide)).1⟩

/-- C9 (allocate/free round trip): in every state reached under correct use
and for every `n ≤ totalSize`, if `allocate(n)` returns a non-null `p` and `p`
is deallocated at once, a following `allocate(n)` returns non-null again; on a
fresh allocator, `allocate(totalSize)` returns the arena base, and so does
`allocate(totalSize)` after that block has been deallocated. -/
theorem C9_allocate_free_round_trip (c : Config) (hc : c.Valid) (mem0 : Nat → Block)
    (ops : List Op) (s : Client) (h : (Client.init c mem0).run ops = some s) (n : Nat)
    (hn : n ≤ c.totalSize) :
    ((s.heap.allocate n).2 ≠ 0 →
        (((s.heap.allocate n).1.deallocate (s.heap.allocate n).2).allocate n).2 ≠ 0) ∧
      ((Client.init c mem0).heap.allocate c.totalSize).2 = c.base ∧
      ((((Client.init c mem0).heap.allocate c.totalSize).1.deallocate c.base).allocate
        c.totalSize).2 = c.base := by
  have hT : c.totalSize ≤ 2 ^ 31 := by
    have := hc.2.1
    exact Nat.pow_le_pow_right (by decide) (by omega)
  have hn31 : n ≤ 2 ^ 31 := le_trans hn hT
  obtain ⟨fl, hinv⟩ := Client.reachable_good hc mem0 ops h
  refine ⟨fun hp => ?_, ?_⟩
  · obtain ⟨_, i, _, _, _, h1, h2⟩ := allocate_free_allocate hc s.heap fl _ n hn31 hinv hp
    rw [h1]; exact h2
  · have hinit := Inv.construct_inv c hc mem0
    have hbase : c.base ≠ 0 := by have := Inv.base_pos hc; omega
    have hfirst : ((Client.init c mem0).heap.allocate c.totalSize).2 = c.base := by
      obtain ⟨k0, hk0, hcase⟩ := Inv.allocate_step hc hinit hT
      rw [roundUp_total c hc, ← classSize_top c hc] at hk0
      have hk0 : k0 = c.top := (classSize_inj c hk0).symm
      subst hk0
      have hhead := hinit.heads c.top (le_refl _)
      simp only [if_true, List.headD_cons] at hhead
      rcases hcase with ⟨hall, _⟩ | ⟨i, _, hi1, hi2, _, _, hpi, _⟩
      · exact absurd ((hall c.top (le_refl _) (le_refl _)).symm.trans hhead).symm hbase
      · have : i = c.top := le_antisymm hi2 hi1
        subst this
        exact hpi.trans hhead
    refine ⟨hfirst, ?_⟩
    have hp : ((Client.init c mem0).heap.allocate c.totalSize).2 ≠ 0 := by
      rw [hfirst]; exact hbase
    obtain ⟨fl3, i, hinv3, hi, hsz, h1, h2⟩ :=
      allocate_free_allocate hc (Client.init c mem0).heap _ _ c.totalSize hT hinit hp
    rw [hfirst] at hinv3 h1 h2
    rw [h1]
    rw [roundUp_total c hc, ← classSize_top c hc] at hsz
    have hi2 : i = c.top := by
      by_contra hne
      have := classSize_lt c (show i < c.top by omega)
      omega
    subst hi2
    have hmem : (((Client.init c mem0).heap.allocate c.totalSize).1.deallocate c.base).head c.top
        ∈ fl3 c.top := by
      rcases headD_mem (fl3 c.top) 0 with ⟨_, h0⟩ | hin
      · rw [← hinv3.heads c.top hi] at h0; exact absurd h0 h2
      · rw [hinv3.heads c.top hi]; exact hin
    have hin := hinv3.tiling.inside _ _ (Inv.free_blk hi hmem : Blk c fl3 [] _ _)
    rw [classSize_top c hc] at hin
    omega

/-- Witness for C9: a request of 64 bytes after the sequence `traceMixed`. -/
theorem C9_allocate_free_round_trip_witness :
    cfg1024.Valid ∧ ∃ s, (Client.init cfg1024 zeroMem).run traceMixed = some s ∧
      (s.heap.allocate 64).2 ≠ 0 ∧
      (((s.heap.allocate 64).1.deallocate (s.heap.allocate 64).2).allocate 64).2 ≠ 0 :=
  ⟨by decide,
    Option.get _ (by decide : ((Client.init cfg1024 zeroMem).run traceMixed).isSome = true),
    (Option.some_get _).symm, by decide,
    (C9_allocate_free_round_trip cfg1024 (by decide) zeroMem traceMixed _
      (Option.some_get _).symm 64 (by decide)).1 (by decide)⟩

/-- C10: `deallocate(nullptr)` returns the allocator unchanged (free-list table
and every header), and so does any number of repetitions of the call. -/
theorem C10_deallocate_null_noop (a : BuddyAllocator) (k : Nat) :
    a.deallocate 0 = a ∧ Nat.iterate (fun s => s.deallocate 0) k a = a := by
  have h : ∀ s : BuddyAllocator, s.deallocate 0 = s := fun s => by
    simp [BuddyAllocator.deallocate]
  refine ⟨h a, ?_⟩
  induction k with
  | zero => rfl
  | succ k ih => rw [Function.iterate_succ_apply, h, ih]

/-- C12 as stated fails: the constructor body has no test of its arguments.
For `(1024, 8)`, where `minBlockSize` is smaller than the block header, it
builds an allocator with eight lists that serves `allocate(128)` with the arena
base; for `(3072, 32)`, where `totalSize` is not a power of two, it builds an
allocator with six lists whose last list holds a block of size 3072. -/
theorem C12_violations_not_reported :
    ¬ (sizeofBlock ≤ 8) ∧
    ((construct 4096 zeroMem 1024 8).freeLists, (construct 4096 zeroMem 1024 8).minBlockSize,
      ((construct 4096 zeroMem 1024 8).allocate 128).2)
      = ([0, 0, 0, 0, 0, 0, 0, 4096], 8, 4096) ∧
    (∀ k, k ≤ 12 → 2 ^ k ≠ 3072) ∧
    ((construct 4096 zeroMem 3072 32).freeLists, (construct 4096 zeroMem 3072 32).totalMemorySize,
      ((construct 4096 zeroMem 3072 32).mem 4096).size)
      = ([0, 0, 0, 0, 0, 4096], 3072, 3072) := by
  decide

/-- C12 (amended): the constructor checks none of its preconditions.  For all
arguments `t = totalSize` and `m = minBlockSize` on which its body is defined
(both non-zero in the 32 bits that `__builtin_ctz` reads, the trailing-zero
count of `m` not above that of `t`, so that the list count is at least 1, and
`t` large enough for the header of the initial block), powers of two or not
and whatever the size of the block header, construction yields an allocator
with `ctz(t) - ctz(m) + 1` lists, all empty but the last, which holds exactly
the block at the arena base, recorded with size `t` and null links; the
allocator keeps `t` and `m` as they were passed. -/
theorem C12_construction_unchecked (base : Nat) (mem0 : Nat → Block) (t m : Nat)
    (_ht : t % 2 ^ 32 ≠ 0) (_hm : m % 2 ^ 32 ≠ 0) (hctz : builtin_ctz m ≤ builtin_ctz t)
    (hsz : sizeofBlock ≤ t) (hbase : 0 < base) :
    (construct base mem0 t m).freeLists
        = List.replicate (builtin_ctz t - builtin_ctz m) 0 ++ [base] ∧
      (∀ k, k < builtin_ctz t - builtin_ctz m → (construct base mem0 t m).listBlocks k = []) ∧
      (construct base mem0 t m).listBlocks (builtin_ctz t - builtin_ctz m) = [base] ∧
      (construct base mem0 t m).mem base = { size := t, prev := 0, next := 0 } ∧
      (construct base mem0 t m).memoryStart = base ∧
      (construct base mem0 t m).totalMemorySize = t ∧
      (construct base mem0 t m).minBlockSize = m := by
  have hle := builtin_ctz_le t
  have hcount : (builtin_ctz t + 2 ^ 64 - builtin_ctz m + 1) % 2 ^ 64
      = builtin_ctz t - builtin_ctz m + 1 := by
    omega
  have hfl : (construct base mem0 t m).freeLists
      = List.replicate (builtin_ctz t - builtin_ctz m) 0 ++ [base] := by
    unfold BuddyAllocator.construct
    simp only [hcount, Nat.add_sub_cancel, freeLists_setHead, freeLists_setNext,
      freeLists_setPrev, freeLists_setSize]
    rw [List.replicate_succ', List.set_append_right _ _ (by simp)]
    simp
  have hmem : (construct base mem0 t m).mem base = { size := t, prev := 0, next := 0 } := by
    unfold BuddyAllocator.construct
    simp
  have htot : (construct base mem0 t m).totalMemorySize = t := by
    unfold BuddyAllocator.construct
    rfl
  have hhead : ∀ k, (construct base mem0 t m).head k
      = if k = builtin_ctz t - builtin_ctz m then base else 0 := by
    intro k
    unfold BuddyAllocator.head
    rw [hfl, List.getD_eq_getElem?_getD]
    rcases Nat.lt_trichotomy k (builtin_ctz t - builtin_ctz m) with h | h | h
    · rw [List.getElem?_append_left (by simpa using h), if_neg (by omega)]
      simp [List.getElem?_replicate, h]
    · subst h
      rw [List.getElem?_append_right (by simp)]
      simp
    · rw [List.getElem?_eq_none (by simp; omega), if_neg (by omega)]
      rfl
  have hpos : 0 < t := by
    have : 0 < sizeofBlock := by decide
    omega
  refine ⟨hfl, ?_, ?_, hmem, rfl, htot, rfl⟩
  · intro k hk
    unfold BuddyAllocator.listBlocks
    rw [hhead, if_neg (by omega)]
    exact walk_null _ _
  · unfold BuddyAllocator.listBlocks
    rw [hhead, if_pos rfl, htot]
    exact walk_single _ _ _ hpos (by omega) (by rw [hmem])

/-- Witness for C12: the arguments `(1024, 8)`, with `minBlockSize` below the
size of a block header, yield an allocator with eight lists. -/
theorem C12_construction_unchecked_witness :
    1024 % 2 ^ 32 ≠ 0 ∧ 8 % 2 ^ 32 ≠ 0 ∧ builtin_ctz 8 ≤ builtin_ctz 1024 ∧
      sizeofBlock ≤ 1024 ∧ 8 < sizeofBlock ∧
      (construct 4096 zeroMem 1024 8).freeLists
        = List.replicate (builtin_ctz 1024 - builtin_ctz 8) 0 ++ [4096] ∧
      (construct 4096 zeroMem 1024 8).minBlockSize = 8 :=
  ⟨by decide, by decide, by decide, by decide, by decide,
    (C12_construction_unchecked 4096 zeroMem 1024 8 (by decide) (by decide) (by decide)
      (by decide) (by decide)).1,
    (C12_construction_unchecked 4096 zeroMem 1024 8 (by decide) (by decide) (by decide)
      (by decide) (by decide)).2.2.2.2.2.2⟩

/-- C13 as stated fails: on a fresh arena `(1024, 32)`, after four calls
`allocate(128)` the fifth call `allocate(512)` returns the non-null address of
the block at arena offset 512. -/
theorem C13_fifth_allocation_succeeds :
    cfg1024.Valid ∧
    ((Client.init cfg1024 zeroMem).run traceQuarters).map
      (fun s => (s.live.map Prod.fst, (s.heap.allocate 512).2))
      = some ([4480, 4352, 4224, 4096], 4608) ∧
    4608 ≠ 0 ∧ 4608 - cfg1024.base = 512 := by
  decide

/-- C13 (amended): on a fresh arena `(1024, 32)`, the four calls
`allocate(128)` take the lower half of the arena (offsets 0, 128, 256, 384) and
leave the upper half as the only free block; the fifth call `allocate(512)`
returns that block, at offset 512, and only then is the arena exhausted: a
further `allocate(32)` returns null. -/
theorem C13_exhaustion_after_fifth :
    ((Client.init cfg1024 zeroMem).run traceQuarters).map
      (fun s => (s.live.map (fun e => e.1 - cfg1024.base), s.heap.freeLists,
        (s.heap.allocate 512).2 - cfg1024.base,
        (s.heap.allocate 512).1.freeLists,
        ((s.heap.allocate 512).1.allocate 32).2))
      = some ([384, 256, 128, 0], [0, 0, 0, 0, 4608, 0], 512, [0, 0, 0, 0, 0, 0], 0) := by
  decide

/-- C14 (defensive coalesce halt) on the code: on the arena `(1024, 32)` placed
at address 4608, `p = allocate(512)` returns the base; in `deallocate(p)` the
computed buddy address `4608 XOR 512 = 4096` is out of bounds, `coalesce`
returns, and the block is in no free list: list 4, the list of its class, still
holds the upper half only.  After both halves have been requested and
released, every list is empty although nothing is allocated. -/
theorem C14_out_of_bounds_block_dropped :
    ((Client.init cfgUnaligned zeroMem).heap.allocate 512).2 = 4608 ∧
    ((Client.init cfgUnaligned zeroMem).heap.allocate 512).1.isAddressWithinBounds
      (4608 ^^^ (((Client.init cfgUnaligned zeroMem).heap.allocate 512).1.mem 4608).size)
      = false ∧
    (((Client.init cfgUnaligned zeroMem).heap.allocate 512).1.deallocate 4608).freeLists
      = [0, 0, 0, 0, 5120, 0] ∧
    (((Client.init cfgUnaligned zeroMem).heap.allocate 512).1.deallocate 4608).listBlocks 4
      = [5120] ∧
    ((Client.init cfgUnaligned zeroMem).run traceUnalignedHalves).map
      (fun s => (s.live, s.heap.freeLists)) = some ([], [0, 0, 0, 0, 0, 0]) := by
  decide

/-- C15 (buddy identification) on the code: on the arena `(2048, 32)` placed at
address 4608, the four quarters are allocated and the third one (offset 1024)
is released.  When the second one (offset 512, size 512) is released, the
buddy address computed from the absolute address is `5120 XOR 512 = 5632`,
offset 1024, not `base + (512 XOR 512) = 4608`; the block is merged with the
block at offset 1024 into a block of size 1024 at offset 512, which ends in no
list, while its real buddy at offset 0 is still allocated. -/
theorem C15_buddy_from_absolute_address :
    ((Client.init cfgUnaligned2048 zeroMem).run (traceWrongBuddy.take 5)).map
      (fun s => (s.live.map Prod.fst, s.heap.listBlocks 4, (s.heap.mem 5120).size,
        5120 ^^^ (s.heap.mem 5120).size,
        cfgUnaligned2048.base + ((5120 - cfgUnaligned2048.base) ^^^ (s.heap.mem 5120).size)))
      = some ([6144, 5120, 4608], [5632], 512, 5632, 4608) ∧
    ((Client.init cfgUnaligned2048 zeroMem).run traceWrongBuddy).map
      (fun s => (s.live.map Prod.fst, (s.heap.mem 5120).size, s.heap.freeLists))
      = some ([6144, 4608], 1024, [0, 0, 0, 0, 0, 0, 0]) := by
  decide

/-- C17 (search and split postcondition): in a well-formed state (one with the
invariant `Inv`: the free lists are doubly linked runs of blocks that, with the
allocated blocks, tile the arena), let `s = round(n)` be the size of class
`k0 = log2(s) - log2(minBlockSize)`, and let `i` be the smallest index from
`k0` on whose list is non-empty, with head `D`.  Then `allocate(n)` returns
`D`; list `i` loses its head; every list `k` with `k0 ≤ k < i` gets the one new
block `D + s * 2 ^ (k - k0)` at its head, recorded with size
`s * 2 ^ (k - k0)`; every other list is unchanged; the returned block is
recorded with size `s`; and every other free block keeps its size. -/
theorem C17_search_and_split (c : Config) (hc : c.Valid) (a : BuddyAllocator)
    (fl : Nat → List Nat) (al : List (Nat × Nat)) (h : Inv c a fl al) (n k0 i : Nat)
    (hr : roundUp c.minSize n = c.classSize k0) (hki : k0 ≤ i) (hi : i ≤ c.top)
    (hne : a.head i ≠ 0) (hz : ∀ k, k < i → k0 ≤ k → a.head k = 0) :
    Nat.log2 (roundUp c.minSize n) - Nat.log2 c.minSize = k0 ∧
      (a.allocate n).2 = a.head i ∧
      (∀ k, k ≤ c.top → (a.allocate n).1.listBlocks k =
        if k = i then (a.listBlocks i).tail
        else if k0 ≤ k ∧ k < i then
          (a.head i + roundUp c.minSize n * 2 ^ (k - k0)) :: a.listBlocks k
        else a.listBlocks k) ∧
      (∀ k, k0 ≤ k → k < i →
        ((a.allocate n).1.mem (a.head i + roundUp c.minSize n * 2 ^ (k - k0))).size =
          roundUp c.minSize n * 2 ^ (k - k0)) ∧
      ((a.allocate n).1.mem (a.head i)).size = roundUp c.minSize n ∧
      (∀ k x, k ≤ c.top → x ∈ a.listBlocks k → x ≠ a.head i →
        ((a.allocate n).1.mem x).size = (a.mem x).size) := by
  obtain ⟨hret, h2⟩ := Inv.allocate_lists hc h hr hki hi hne (fun k g1 g2 => hz k g2 g1)
  refine ⟨by rw [hr]; exact log2_classSize c k0, hret, ?_, ?_, ?_, ?_⟩
  · intro k hk
    rw [h2.listBlocks_eq hk, h.listBlocks_eq hk, h.listBlocks_eq hi, hr]
    by_cases hkeq : k = i
    · subst hkeq
      simp only [if_neg (show ¬ (k0 ≤ k ∧ k < k) by omega), if_true]
    · by_cases hrange : k0 ≤ k ∧ k < i
      · simp only [if_neg hkeq, if_pos hrange, classSize_mul c hrange.1]
      · simp only [if_neg hkeq, if_neg hrange]
  · intro k g1 g2
    rw [hr, classSize_mul c g1]
    apply Seg.size_eq _ _ _ (h2.seg k (by omega))
    simp only [if_pos (And.intro g1 g2)]
    exact List.mem_cons_self _ _
  · rw [h2.alHdr (a.head i) _ (List.mem_cons_self _ _), hr]
  · intro k x hk hx hne2
    rw [h.listBlocks_eq hk] at hx
    rw [Seg.size_eq _ _ _ (h.seg k hk) x hx]
    apply Seg.size_eq _ _ _ (h2.seg k hk)
    by_cases hrange : k0 ≤ k ∧ k < i
    · simp only [if_pos hrange]
      exact List.mem_cons_of_mem _ hx
    · simp only [if_neg hrange]
      by_cases hkeq : k = i
      · subst hkeq
        rw [if_pos rfl]
        have hh := h.heads k hk
        cases hfl : fl k with
        | nil => rw [hfl] at hx; simp at hx
        | cons y rest =>
          rw [hfl, List.headD_cons] at hh
          rw [hfl] at hx
          rw [List.tail_cons]
          rcases List.mem_cons.mp hx with hxy | hxr
          · rw [hh, hxy] at hne2; exact absurd rfl hne2
          · exact hxr
      · rw [if_neg hkeq]
        exact hx

theorem C17_search_and_split_witness :
    cfg1024.Valid ∧ roundUp cfg1024.minSize 128 = cfg1024.classSize 2 ∧
      (BuddyAllocator.construct cfg1024.base zeroMem cfg1024.totalSize cfg1024.minSize).head 5
        ≠ 0 ∧
      (∀ k, k < 5 → 2 ≤ k →
        (BuddyAllocator.construct cfg1024.base zeroMem cfg1024.totalSize cfg1024.minSize).head k
          = 0) ∧
      ((BuddyAllocator.construct cfg1024.base zeroMem cfg1024.totalSize
          cfg1024.minSize).allocate 128).2 =
        (BuddyAllocator.construct cfg1024.base zeroMem cfg1024.totalSize cfg1024.minSize).head
          5 :=
  ⟨by decide, by decide, by decide, by decide,
    (C17_search_and_split cfg1024 (by decide)
      (BuddyAllocator.construct cfg1024.base zeroMem cfg1024.totalSize cfg1024.minSize) _ []
      (Inv.construct_inv cfg1024 (by decide) zeroMem) 128 2 5 (by decide) (by decide)
      (by decide) (by decide) (by decide)).2.1⟩

/-- C19 (free-list link symmetry): in every state reached from construction
under correct use, for all members `x`, `y` of the free lists
`x.next = y` if and only if `y.prev = x`; no list repeats a block; the head of
every non-empty list has `prev = null`; and a member taken out by
`removeFromFreeList` has both links null afterwards. -/
theorem C19_free_list_links (c : Config) (hc : c.Valid) (mem0 : Nat → Block)
    (ops : List Op) (s : Client) (h : (Client.init c mem0).run ops = some s) :
    (∀ k k2 x y, k < s.heap.freeLists.length → k2 < s.heap.freeLists.length →
        x ∈ s.heap.listBlocks k → y ∈ s.heap.listBlocks k2 →
        ((s.heap.mem x).next = y ↔ (s.heap.mem y).prev = x)) ∧
      (∀ k, k < s.heap.freeLists.length → (s.heap.listBlocks k).Nodup) ∧
      (∀ k, k < s.heap.freeLists.length → s.heap.head k ≠ 0 →
        (s.heap.mem (s.heap.head k)).prev = 0) ∧
      (∀ k x, k < s.heap.freeLists.length → x ∈ s.heap.listBlocks k →
        ((s.heap.removeFromFreeList x k).mem x).prev = 0 ∧
        ((s.heap.removeFromFreeList x k).mem x).next = 0) := by
  obtain ⟨fl, hinv⟩ := Client.reachable_good hc mem0 ops h
  have hlen := hinv.len
  refine ⟨?_, ?_, ?_, ?_⟩
  · intro k k2 x y hk hk2 hx hy
    have hkt : k ≤ c.top := by omega
    have hk2t : k2 ≤ c.top := by omega
    rw [hinv.listBlocks_eq hkt] at hx
    rw [hinv.listBlocks_eq hk2t] at hy
    have hx0 := Seg.ne_zero _ _ _ (hinv.seg k hkt) x hx
    have hy0 := Seg.ne_zero _ _ _ (hinv.seg k2 hk2t) y hy
    constructor
    · intro hn
      rcases Seg.next_in _ _ x (hinv.seg k hkt) hx with h1 | ⟨_, h2⟩
      · rw [hn] at h1; exact absurd h1 hy0
      · rw [hn] at h2; exact h2
    · intro hp
      rcases Seg.prev_in _ _ y (hinv.seg k2 hk2t) hy with ⟨_, h1⟩ | ⟨_, h2⟩
      · rw [hp] at h1; exact absurd h1 hx0
      · rw [hp] at h2; exact h2
  · intro k hk
    have hkt : k ≤ c.top := by omega
    rw [hinv.listBlocks_eq hkt]
    exact hinv.flNodup k hkt
  · intro k hk hne
    have hkt : k ≤ c.top := by omega
    rcases headD_mem (fl k) 0 with ⟨_, h0⟩ | hin
    · rw [hinv.heads k hkt] at hne; exact absurd h0 hne
    · rw [← hinv.heads k hkt] at hin
      rcases Seg.prev_in _ _ _ (hinv.seg k hkt) hin with ⟨_, h1⟩ | ⟨h1, _⟩
      · exact h1
      · have hnd := hinv.flNodup k hkt
        cases hfl : fl k with
        | nil => rw [hfl] at hin; simp at hin
        | cons b rest =>
          have hs := hinv.seg k hkt
          rw [hfl] at hs
          have hh := hinv.heads k hkt
          rw [hfl, List.headD_cons] at hh
          rw [hh]
          exact hs.2.1
  · intro k x hk hx
    have hkt : k ≤ c.top := by omega
    rw [hinv.listBlocks_eq hkt] at hx
    have h1 := Inv.take_out hc hinv hkt hx
    have h2 := h1.alHdr x _ (List.mem_cons_self _ _)
    rw [h2]
    exact ⟨rfl, rfl⟩

theorem C19_free_list_links_witness :
    cfg1024.Valid ∧ ∃ s, (Client.init cfg1024 zeroMem).run traceMixed = some s ∧
      (∀ k k2 x y, k < s.heap.freeLists.length → k2 < s.heap.freeLists.length →
        x ∈ s.heap.listBlocks k → y ∈ s.heap.listBlocks k2 →
        ((s.heap.mem x).next = y ↔ (s.heap.mem y).prev = x)) ∧
      (∀ k, k < s.heap.freeLists.length → s.heap.head k ≠ 0 →
        (s.heap.mem (s.heap.head k)).prev = 0) :=
  ⟨by decide,
    Option.get _ (by decide : ((Client.init cfg1024 zeroMem).run traceMixed).isSome = true),
    (Option.some_get _).symm,
    (C19_free_list_links cfg1024 (by decide) zeroMem traceMixed _
      (Option.some_get _).symm).1,
    (C19_free_list_links cfg1024 (by decide) zeroMem traceMixed _
      (Option.some_get _).symm).2.2.1⟩

/-- C20 (free-list membership test): in every state reached under correct use,
for a member `x` of free list `k` the recorded size has class `k`, the test
`x.prev == null && freeLists[k] != x` is false and `deallocate(x)` leaves the
allocator unchanged; for a block `p` held by the client, with `k` the class of
its recorded size, the test is true, `p` is not a member of free list `k`, and
`deallocate(p)` is `coalesce(p)`.  So on block starts the test is true exactly
for the blocks that are in no free list. -/
theorem C20_membership_test (c : Config) (hc : c.Valid) (mem0 : Nat → Block)
    (ops : List Op) (s : Client) (h : (Client.init c mem0).run ops = some s) :
    (∀ k x, k < s.heap.freeLists.length → x ∈ s.heap.listBlocks k →
        s.heap.indexFromBlockSize (s.heap.mem x).size = k ∧
        ¬ ((s.heap.mem x).prev = 0 ∧ s.heap.head k ≠ x) ∧
        s.heap.deallocate x = s.heap) ∧
      (∀ e, e ∈ s.live →
        s.heap.indexFromBlockSize (s.heap.mem e.1).size < s.heap.freeLists.length ∧
        ((s.heap.mem e.1).prev = 0 ∧
          s.heap.head (s.heap.indexFromBlockSize (s.heap.mem e.1).size) ≠ e.1) ∧
        e.1 ∉ s.heap.listBlocks (s.heap.indexFromBlockSize (s.heap.mem e.1).size) ∧
        s.heap.deallocate e.1 = s.heap.coalesce e.1) := by
  obtain ⟨fl, hinv⟩ := Client.reachable_good hc mem0 ops h
  have hlen := hinv.len
  constructor
  · intro k x hk hx
    have hkt : k ≤ c.top := by omega
    rw [hinv.listBlocks_eq hkt] at hx
    exact hinv.free_test hc hkt hx
  · intro e he
    obtain ⟨k, hk, _, hidx, htest, hfree, hde⟩ :=
      hinv.live_test hc (mem_liveBlocks c.minSize he)
    rw [hidx, hinv.listBlocks_eq hk]
    exact ⟨by omega, htest, hfree k hk, hde⟩

theorem C20_membership_test_witness :
    cfg1024.Valid ∧ ∃ s, (Client.init cfg1024 zeroMem).run traceMixed = some s ∧
      (∀ k x, k < s.heap.freeLists.length → x ∈ s.heap.listBlocks k →
        s.heap.indexFromBlockSize (s.heap.mem x).size = k ∧
        ¬ ((s.heap.mem x).prev = 0 ∧ s.heap.head k ≠ x) ∧
        s.heap.deallocate x = s.heap) :=
  ⟨by decide,
    Option.get _ (by decide : ((Client.init cfg1024 zeroMem).run traceMixed).isSome = true),
    (Option.some_get _).symm,
    (C20_membership_test cfg1024 (by decide) zeroMem traceMixed _
      (Option.some_get _).symm).1⟩

/-- C21 (arena tiling): in every state reached from construction under correct
use, with the arena base a multiple of `totalSize`, the blocks of the free
lists together with the blocks the client holds partition the arena: they are
pairwise disjoint; each has a power-of-two size between `minBlockSize` and
`totalSize`, lies inside the arena, and has an offset that is a multiple of its
size; each free block sits in the list of index
`log2(size) - log2(minBlockSize)`; each allocated block is recorded with the
size `round(n)` of its request; every offset of the arena lies in a block; and
the sizes add up to `totalSize`. -/
theorem C21_arena_tiling (c : Config) (hc : c.Valid) (mem0 : Nat → Block)
    (ops : List Op) (s : Client) (h : (Client.init c mem0).run ops = some s) :
    s.blocks.Pairwise (fun x y => x.1 + x.2 ≤ y.1 ∨ y.1 + y.2 ≤ x.1) ∧
      (∀ e, e ∈ s.blocks → (∃ j, e.2 = 2 ^ j) ∧ c.minSize ≤ e.2 ∧ e.2 ≤ c.totalSize ∧
        c.base ≤ e.1 ∧ e.1 + e.2 ≤ c.base + c.totalSize ∧ (e.1 - c.base) % e.2 = 0) ∧
      (∀ k x, k < s.heap.freeLists.length → x ∈ s.heap.listBlocks k →
        Nat.log2 (s.heap.mem x).size - Nat.log2 s.heap.minBlockSize = k) ∧
      (∀ e, e ∈ s.live → (s.heap.mem e.1).size = roundUp s.heap.minBlockSize e.2) ∧
      (∀ o, o < c.totalSize →
        ∃ e, e ∈ s.blocks ∧ e.1 ≤ c.base + o ∧ c.base + o < e.1 + e.2) ∧
      (s.blocks.map Prod.snd).sum = c.totalSize := by
  obtain ⟨fl, hinv⟩ := Client.reachable_good hc mem0 ops h
  have hlen := hinv.len
  refine ⟨hinv.blocks_pairwise, ?_, ?_, ?_, ?_, hinv.blocks_sum⟩
  · intro e he
    have hB := (hinv.mem_blocks e).mp he
    obtain ⟨k, hk, hs⟩ := hinv.tiling.size _ _ hB
    have hin := hinv.tiling.inside _ _ hB
    have hal := hinv.tiling.aligned _ _ hB
    have hmin : c.classSize 0 ≤ c.classSize k := classSize_le c (Nat.zero_le k)
    have hmax : c.classSize k ≤ c.classSize c.top := classSize_le c hk
    rw [classSize_top c hc] at hmax
    have h0 : c.classSize 0 = c.minSize := rfl
    rw [h0] at hmin
    refine ⟨⟨c.logMin + k, hs⟩, by omega, by omega, hin.1, hin.2, ?_⟩
    have hbase : e.2 ∣ c.base := by rw [hs]; exact classSize_dvd_base c hc hk
    exact Nat.mod_eq_zero_of_dvd (Nat.dvd_sub' hal hbase)
  · intro k x hk hx
    have hkt : k ≤ c.top := by omega
    rw [hinv.listBlocks_eq hkt] at hx
    rw [Seg.size_eq _ _ _ (hinv.seg k hkt) x hx, hinv.minb]
    exact log2_classSize c k
  · intro e he
    rw [hinv.alHdr e.1 _ (mem_liveBlocks c.minSize he), hinv.minb]
  · intro o ho
    obtain ⟨b, t, hB, h3⟩ := hinv.tiling.cover (c.base + o) (by omega) (by omega)
    exact ⟨(b, t), (hinv.mem_blocks (b, t)).mpr hB, h3⟩

theorem C21_arena_tiling_witness :
    cfg1024.Valid ∧ ∃ s, (Client.init cfg1024 zeroMem).run traceMixed = some s ∧
      s.blocks.Pairwise (fun x y => x.1 + x.2 ≤ y.1 ∨ y.1 + y.2 ≤ x.1) ∧
      (s.blocks.map Prod.snd).sum = cfg1024.totalSize :=
  ⟨by decide,
    Option.get _ (by decide : ((Client.init cfg1024 zeroMem).run traceMixed).isSome = true),
    (Option.some_get _).symm,
    (C21_arena_tiling cfg1024 (by decide) zeroMem traceMixed _
      (Option.some_get _).symm).1,
    (C21_arena_tiling cfg1024 (by decide) zeroMem traceMixed _
      (Option.some_get _).symm).2.2.2.2.2⟩

end Buddy
